import Mathlib

/-!
# A verification model of the `kvs` storage core

This development gives a shallow embedding of the two on-disk storage
primitives of the repository — the append-only `RecordFile`
(`src/record_file.rs`) and the sorted-string table `SSTable`
(`src/sstable.rs`) — and proves (or refutes) the specification's claims
about them.

Files are modelled as lists of bytes (`List Nat`, little-endian fields
encoded explicitly).  Fallible operations return an `Outcome`: `ok`,
an I/O-style `err`, or `panic` (a Rust `panic!` / arithmetic-overflow /
index-out-of-bounds abort), the latter carrying the on-disk bytes at
the moment of the abort so that statements can talk about what was and
was not written before the process died.
-/

namespace Kvs

/-- The three ways a fallible operation of the source can finish:
normal return, an `io::Error` surfaced to the caller, or a process
abort (`panic!`, arithmetic overflow, index out of bounds).  A panic
carries the file bytes at abort time. -/
inductive Outcome (α : Type) where
  | ok : α → Outcome α
  | err : String → Outcome α
  | panic : List Nat → Outcome α
deriving Repr, DecidableEq

/-! ## Little-endian encodings (`byteorder::LE`) -/

/-- 4-byte little-endian encoding of `n % 2^32` (`write_u32::<LE>`). -/
def le32 (n : Nat) : List Nat :=
  [n % 256, n / 256 % 256, n / 256 ^ 2 % 256, n / 256 ^ 3 % 256]

/-- 8-byte little-endian encoding of `n % 2^64` (`write_u64::<LE>`). -/
def le64 (n : Nat) : List Nat :=
  [n % 256, n / 256 % 256, n / 256 ^ 2 % 256, n / 256 ^ 3 % 256,
   n / 256 ^ 4 % 256, n / 256 ^ 5 % 256, n / 256 ^ 6 % 256, n / 256 ^ 7 % 256]

/-- Little-endian decoding of a byte list (each byte taken mod 256). -/
def leDecode : List Nat → Nat
  | [] => 0
  | b :: bs => b % 256 + 256 * leDecode bs

@[simp] theorem le32_length (n : Nat) : (le32 n).length = 4 := rfl

@[simp] theorem le64_length (n : Nat) : (le64 n).length = 8 := rfl

/-! ## Raw positional file primitives -/

/-- The bytes `[off, off+n)` of a file (what a positional read sees). -/
def extractB (f : List Nat) (off n : Nat) : List Nat :=
  (f.drop off).take n

/-- `positioned_io` exact read of `n` bytes at `off`; fails (short read)
when the file ends first. -/
def readExactAt (f : List Nat) (off n : Nat) : Option (List Nat) :=
  if off + n ≤ f.length then some (extractB f off n) else none

/-- `read_u32_at::<LE>`: little-endian u32 at `off`. -/
def readU32At (f : List Nat) (off : Nat) : Option Nat :=
  (readExactAt f off 4).map leDecode

/-- `read_u64_at`-style decode of the 8 bytes at `off`. -/
def readU64At (f : List Nat) (off : Nat) : Option Nat :=
  (readExactAt f off 8).map leDecode

/-- Positional overwrite of `bs` at `off`, extending the file when the
write runs past end-of-file. -/
def writeAtBytes (f : List Nat) (off : Nat) (bs : List Nat) : List Nat :=
  f.take off ++ bs ++ f.drop (off + bs.length)

/-! ## `RecordFile` (src/record_file.rs) -/

/-- The sentinel record count marking a file that was not closed
cleanly (`pub const BAD_COUNT: u32 = 0xFFFFFFFF`). -/
def BAD_COUNT : Nat := 0xFFFFFFFF

/-- In-memory state of an open `RecordFile`: the on-disk bytes stand in
for the file descriptor.  (`file_path` is irrelevant to the model.) -/
structure RecordFile where
  file : List Nat
  record_count : Nat
  header_len : Nat
  last_record : Nat
deriving Repr, DecidableEq

namespace RecordFile

/-- `RecordFile::new`.  The argument `disk` is the current content of
the file at the path: `none` when the file does not exist (the
`create(true)` branch also covers an existing empty file, so an empty
list behaves the same).  Mirrors src/record_file.rs lines 55–118,
including the `panic!` on `record_count == BAD_COUNT`. -/
def new (disk : Option (List Nat)) (header : List Nat) : Outcome RecordFile :=
  let content := disk.getD []
  if content.length = 0 then
    -- new/blank file: write header ‖ BAD_COUNT ‖ last_record
    let last := header.length + 4 + 8
    Outcome.ok
      { file := header ++ le32 BAD_COUNT ++ le64 last
        record_count := 0
        header_len := header.length
        last_record := last }
  else
    match readExactAt content 0 header.length with
    | none => Outcome.err "UnexpectedEof"
    | some header_buff =>
      if header ≠ header_buff then Outcome.err "InvalidData"
      else
        match readU32At content header.length with
        | none => Outcome.err "UnexpectedEof"
        | some record_count =>
          if record_count = BAD_COUNT then
            Outcome.panic content  -- panic!("Opened a bad record file; ...")
          else
            match readU64At content (header.length + 4) with
            | none => Outcome.err "UnexpectedEof"
            | some last_record =>
              Outcome.ok
                { file := content
                  record_count := record_count
                  header_len := header.length
                  last_record := last_record }

/-- `RecordFile::append`: seek to end, write 4-byte LE length then the
payload, bump the in-memory count, remember the record start.  Returns
the record's offset. -/
def append (rf : RecordFile) (record : List Nat) : RecordFile × Nat :=
  let rec_loc := rf.file.length
  ({ rf with
      file := rf.file ++ le32 record.length ++ record
      record_count := (rf.record_count + 1) % 2 ^ 32
      last_record := rec_loc },
   rec_loc)

/-- `RecordFile::append_flush` — same bytes as `append` (flush is a
no-op in the model). -/
def append_flush (rf : RecordFile) (record : List Nat) : RecordFile × Nat :=
  rf.append record

/-- `RecordFile::read_at`: 4-byte LE length at `file_offset`, then that
many payload bytes at `file_offset + 4`. -/
def read_at (rf : RecordFile) (file_offset : Nat) : Option (List Nat) :=
  match readU32At rf.file file_offset with
  | none => none
  | some rec_size => readExactAt rf.file (file_offset + 4) rec_size

/-- `RecordFile::get_last_record`. -/
def get_last_record (rf : RecordFile) : Option (List Nat) :=
  rf.read_at rf.last_record

/-- Modelled from the spec: `RecordFile::write_at` (called by the
SSTable builder but absent from the sources under `src/`): "Overwrite
in place at `offset`: 4-byte length then payload bytes."  The flush
flag does not change the bytes. -/
def write_at (rf : RecordFile) (offset : Nat) (payload : List Nat) : RecordFile :=
  { rf with file := writeAtBytes rf.file offset (le32 payload.length ++ payload) }

/-- `Drop for RecordFile`: seek to `header_len`, write the in-memory
record count (4 bytes LE) then `last_record` (8 bytes LE), flush.
Returns the final on-disk bytes. -/
def drop (rf : RecordFile) : List Nat :=
  writeAtBytes rf.file rf.header_len (le32 rf.record_count ++ le64 rf.last_record)

end RecordFile

/-! ### The owned iterator (`RecordFileIterator`, `into_iter`)

`next` seeks to `header_len + 12` on the first call, then repeatedly
reads a 4-byte length and that many payload bytes, stopping after
`record_count` records.  Read failures `panic!`.  The model collects
the whole traversal. -/

/-- One sequential length-prefixed read at `pos`; `none` models the
panic on a failed read. -/
def seqReadRecord (file : List Nat) (pos : Nat) : Option (List Nat × Nat) :=
  match readU32At file pos with
  | none => none
  | some sz =>
    match readExactAt file (pos + 4) sz with
    | none => none
    | some payload => some (payload, pos + 4 + sz)

/-- Collect `remaining` records sequentially from `pos`
(`RecordFileIterator::next` iterated to exhaustion). -/
def iterOwnedFrom (file : List Nat) : Nat → Nat → Outcome (List (List Nat))
  | _, 0 => Outcome.ok []
  | pos, remaining + 1 =>
    match seqReadRecord file pos with
    | none => Outcome.panic file
    | some (payload, pos') =>
      match iterOwnedFrom file pos' remaining with
      | Outcome.ok rest => Outcome.ok (payload :: rest)
      | r => r

/-- Full traversal of `rf.into_iter()`. -/
def iterOwned (rf : RecordFile) : Outcome (List (List Nat)) :=
  iterOwnedFrom rf.file (rf.header_len + 4 + 8) rf.record_count

/-! ### The borrowed iterator (`RecordFile::iter`, `Iter::next`)

`Iter` starts at `header_len + 4 + 8` and, after yielding the record at
`cur_offset`, sets `cur_offset := cur_offset + rec.len() + 8`, clearing
it when the new value equals `last_record`.  Read failures `panic!`. -/

/-- One `Iter::next` step from offset `cur`: the yielded payload and
the next cursor (`none` once exhausted); `Outcome.panic` on a failed
read. -/
def iterBorrowedStep (rf : RecordFile) (cur : Nat) :
    Outcome (List Nat × Option Nat) :=
  match rf.read_at cur with
  | none => Outcome.panic rf.file
  | some rec =>
    let next := cur + rec.length + 8
    if next = rf.last_record then Outcome.ok (rec, none)
    else Outcome.ok (rec, some next)

/-- Drive `Iter` for at most `fuel` yields, collecting the payloads. -/
def iterBorrowedFrom (rf : RecordFile) : Option Nat → Nat → Outcome (List (List Nat))
  | _, 0 => Outcome.ok []
  | none, _ => Outcome.ok []
  | some cur, fuel + 1 =>
    match iterBorrowedStep rf cur with
    | Outcome.ok (rec, next) =>
      match iterBorrowedFrom rf next fuel with
      | Outcome.ok rest => Outcome.ok (rec :: rest)
      | r => r
    | Outcome.err e => Outcome.err e
    | Outcome.panic f => Outcome.panic f

/-- Traversal of `rf.iter()` with `fuel` as a bound on the number of
`next` calls. -/
def iterBorrowed (rf : RecordFile) (fuel : Nat) : Outcome (List (List Nat)) :=
  iterBorrowedFrom rf (some (rf.header_len + 4 + 8)) fuel

/-- A sequence of `append` calls (each payload in order). -/
def appendAll (rf : RecordFile) : List (List Nat) → RecordFile
  | [] => rf
  | p :: ps => appendAll (rf.append p).1 ps

/-! ## Collaborator codecs

`Record` (src/record.rs) and `serde_utils`
(`serialize_u64_exact`/`deserialize_u64_exact`) are repository code the
SSTable uses but that is not among the sources under `src/`; they are
modelled from the spec. -/

/-- `U32_SIZE` (crate constant, not under `src/`): size of a `u32`. -/
def U32_SIZE : Nat := 4

/-- `U64_SIZE` (crate constant, not under `src/`): size of a `u64`. -/
def U64_SIZE : Nat := 8

/-- Modelled from the spec: the `Record` value type (src/record.rs is
not among the sources): "an opaque key/value/timestamp triple", with
`key() → bytes` and `created() → u64`. -/
structure Record where
  key : List Nat
  value : List Nat
  created : Nat
deriving Repr, DecidableEq

namespace Record

/-- `Record::get_key`. -/
def get_key (r : Record) : List Nat := r.key

/-- `Record::get_created`. -/
def get_created (r : Record) : Nat := r.created

/-- Modelled from the spec: `Record::serialize` (src/record.rs missing)
— a "deterministic and round-trippable" byte encoding, taken here as
length-prefixed key and value followed by the timestamp. -/
def serialize (r : Record) : List Nat :=
  le32 r.key.length ++ r.key ++ le32 r.value.length ++ r.value ++ le64 r.created

/-- Modelled from the spec: the `Record` decoder (`from_slice`); the
inverse of `serialize`, rejecting trailing bytes. -/
def deserialize (bs : List Nat) : Option Record :=
  match readU32At bs 0 with
  | none => none
  | some klen =>
    match readExactAt bs 4 klen with
    | none => none
    | some key =>
      match readU32At bs (4 + klen) with
      | none => none
      | some vlen =>
        match readExactAt bs (4 + klen + 4) vlen with
        | none => none
        | some value =>
          match readExactAt bs (4 + klen + 4 + vlen) 8 with
          | none => none
          | some tsbytes =>
            if bs.length = 4 + klen + 4 + vlen + 8 then
              some { key := key, value := value, created := leDecode tsbytes }
            else none

end Record

/-- Modelled from the spec: `serde_utils::serialize_u64_exact` — "a
fixed-width sequence of little-endian unsigned 64-bit integers (no
length tag inside the block)". -/
def serialize_u64_exact (l : List Nat) : List Nat :=
  (l.map le64).flatten

/-- Modelled from the spec: `serde_utils::deserialize_u64_exact`,
decoding consecutive 8-byte little-endian words. -/
def deserialize_u64_exact (bs : List Nat) : List Nat :=
  if h : 8 ≤ bs.length then
    leDecode (bs.take 8) :: deserialize_u64_exact (bs.drop 8)
  else []
  termination_by bs.length
  decreasing_by
    simp only [List.length_drop]
    omega

/-! ## Byte-vector ordering (`Vec<u8>` lexicographic `Ord`) -/

/-- Lexicographic comparison of byte vectors, as Rust's `Ord for
Vec<u8>` (a proper prefix is smaller). -/
def compareBytes : List Nat → List Nat → Ordering
  | [], [] => Ordering.eq
  | [], _ :: _ => Ordering.lt
  | _ :: _, [] => Ordering.gt
  | a :: as', b :: bs' =>
    if a < b then Ordering.lt
    else if b < a then Ordering.gt
    else compareBytes as' bs'

/-- `a < b` for byte vectors. -/
def bytesLt (a b : List Nat) : Prop := compareBytes a b = Ordering.lt

instance (a b : List Nat) : Decidable (bytesLt a b) := by
  unfold bytesLt; infer_instance

/-! ## Rust `slice::binary_search_by`

The search keeps the window `[left, right)`, probes
`mid = left + (right - left) / 2`, moves `left` past `mid` on `Less`,
cuts `right` to `mid` on `Greater`, and returns `Ok(mid)` on `Equal`;
an empty window yields `Err(left)` (the insertion point).  The
comparator performs reads and deserialisation and can panic, so it
returns an `Outcome Ordering`. -/

/-- One Rust binary search over indices `[left, right)` with an
effectful comparator.  `Sum.inl i` is `Ok(i)`, `Sum.inr p` is
`Err(p)`. -/
def binarySearchBy (f : Nat → Outcome Ordering) (left right : Nat) :
    Outcome (Nat ⊕ Nat) :=
  if h : left < right then
    match f (left + (right - left) / 2) with
    | Outcome.ok Ordering.lt => binarySearchBy f (left + (right - left) / 2 + 1) right
    | Outcome.ok Ordering.gt => binarySearchBy f left (left + (right - left) / 2)
    | Outcome.ok Ordering.eq => Outcome.ok (Sum.inl (left + (right - left) / 2))
    | Outcome.err e => Outcome.err e
    | Outcome.panic fl => Outcome.panic fl
  else Outcome.ok (Sum.inr left)
  termination_by right - left
  decreasing_by
    · omega
    · omega

/-! ## `SSTableInfo` and the `SSTable` (src/sstable.rs) -/

/-- The eight header bytes `b"DATA\x01\x00\x00\x00"`. -/
def SSTABLE_HEADER : List Nat := [0x44, 0x41, 0x54, 0x41, 0x01, 0x00, 0x00, 0x00]

/-- The summary footer struct (`SSTableInfo`). -/
structure SSTableInfo where
  record_count : Nat
  group_count : Nat
  indices : List Nat
  smallest_key : List Nat
  largest_key : List Nat
  oldest_ts : Nat
deriving Repr, DecidableEq

/-- Modelled from the spec: the structured serialiser for the footer
(`rmps::encode::to_vec`, an external codec): any deterministic encoding
of the six fields; lengths are length-prefixed. -/
def SSTableInfo.serialize (i : SSTableInfo) : List Nat :=
  le64 i.record_count ++ le32 i.group_count ++
  le32 i.indices.length ++ serialize_u64_exact i.indices ++
  le32 i.smallest_key.length ++ i.smallest_key ++
  le32 i.largest_key.length ++ i.largest_key ++
  le64 i.oldest_ts

/-- An `SSTable`: the underlying record file plus the in-memory footer. -/
structure SSTable where
  rec_file : RecordFile
  info : SSTableInfo
deriving Repr, DecidableEq

/-- Loop state of `SSTable::new` at the top of the `while let`. -/
structure BuildState where
  rf : RecordFile
  info : SSTableInfo
  group_indices : List Nat
  cur_group_indices_offset : Nat
  cur_key : List Nat
  cur_ts : Nat
deriving Repr, DecidableEq

/-- The body of one `while let Some(r) = records.next()` iteration of
`SSTable::new` after the sorted-order check has passed (src/sstable.rs
lines 101–141): first-record / group-boundary handling of the
group-index block, the record append, group- and top-level index
bookkeeping, and the key/timestamp updates. -/
def buildBody (group_count : Nat) (r : Record) (st : BuildState) : BuildState :=
  -- take care of our group_indices
  let st1 :=
    if st.info.record_count = 0 then
      let buff := serialize_u64_exact st.group_indices
      let (rf', loc) := st.rf.append buff
      { st with rf := rf', cur_group_indices_offset := loc }
    else if st.info.record_count % group_count = 0 then
      let buff := serialize_u64_exact st.group_indices
      let rf1 := st.rf.write_at st.cur_group_indices_offset buff
      let zeros := List.replicate group_count 0
      let buff' := serialize_u64_exact zeros
      let (rf2, loc) := rf1.append buff'
      { st with rf := rf2, group_indices := zeros, cur_group_indices_offset := loc }
    else st
  -- append the record, record its offset in the group index
  let (rf', loc) := st1.rf.append (Record.serialize r)
  let gi := st1.group_indices.set (st1.info.record_count % group_count) loc
  let indices' :=
    if st1.info.record_count % group_count = 0 then st1.info.indices ++ [loc]
    else st1.info.indices
  let cur_key := r.get_key
  let cur_ts := r.get_created
  -- the first time through we set the smallest key and the oldest time;
  -- afterwards `oldest_ts` tracks the maximum (field-wise form of the
  -- source's two-branch update)
  let info1 :=
    { st1.info with
        indices := indices'
        smallest_key :=
          if st1.info.record_count = 0 then cur_key else st1.info.smallest_key
        oldest_ts :=
          if st1.info.record_count = 0 then cur_ts
          else if cur_ts > st1.info.oldest_ts then cur_ts
          else st1.info.oldest_ts }
  let info2 := { info1 with record_count := info1.record_count + 1 }
  { rf := rf', info := info2, group_indices := gi,
    cur_group_indices_offset := st1.cur_group_indices_offset,
    cur_key := cur_key, cur_ts := cur_ts }

/-- The `while let Some(r) = records.next()` loop of `SSTable::new`
(src/sstable.rs lines 93–147): the out-of-order `panic!`, the loop
body, and the (buggy) limit check
`count.is_some() && count.unwrap() >= record_count`. -/
def buildLoop (group_count : Nat) (count : Option Nat) :
    List Record → BuildState → Outcome BuildState
  | [], st => Outcome.ok st
  | r :: rest, st =>
    -- quick sanity check to ensure we're in sorted order
    if st.info.record_count ≠ 0 ∧ compareBytes r.get_key st.cur_key ≠ Ordering.gt then
      Outcome.panic st.rf.file
    else
      let st2 := buildBody group_count r st
      -- break out if we've reached our limit (note the source's inequality)
      match count with
      | some c => if c ≥ st2.info.record_count then Outcome.ok st2
                  else buildLoop group_count count rest st2
      | none => buildLoop group_count count rest st2

/-- The tail of `SSTable::new` after the loop (src/sstable.rs lines
149–168): patch the current group-index block in place, set the
largest key, append the footer. -/
def buildFinish (st : BuildState) : SSTable :=
  -- write-out our current group_indices
  let buff := serialize_u64_exact st.group_indices
  let rf1 := st.rf.write_at st.cur_group_indices_offset buff
  -- update our largest key
  let info' := { st.info with largest_key := st.cur_key }
  -- append our info as the last record, and flush to disk
  let (rf2, _) := rf1.append_flush info'.serialize
  { rec_file := rf2, info := info' }

/-- `SSTable::new` (src/sstable.rs lines 63–169).  `path_exists` stands
for `file_path.exists()`.  The two `assert!`s become panics (on a fresh
path there are no bytes on disk yet, hence the empty panic payload). -/
def sstableNew (path_exists : Bool) (records : List Record)
    (group_count : Nat) (count : Option Nat) : Outcome SSTable :=
  if group_count = 0 then Outcome.panic []
  else if count = some 0 then Outcome.panic []
  else if path_exists then Outcome.err "AlreadyExists"
  else
    match RecordFile.new none SSTABLE_HEADER with
    | Outcome.err e => Outcome.err e
    | Outcome.panic f => Outcome.panic f
    | Outcome.ok rec_file =>
      let st0 : BuildState :=
        { rf := rec_file
          info := { record_count := 0, group_count := group_count, indices := [],
                    smallest_key := [], largest_key := [], oldest_ts := 0 }
          group_indices := List.replicate group_count 0
          cur_group_indices_offset := 0
          cur_key := []
          cur_ts := 0 }
      match buildLoop group_count count records st0 with
      | Outcome.err e => Outcome.err e
      | Outcome.panic f => Outcome.panic f
      | Outcome.ok st => Outcome.ok (buildFinish st)

/-- The fetch-and-compare comparator shared by both binary searches of
`SSTable::get`: read the record at `index`, deserialise it, compare
its key with the probe key.  The source's `.expect(..)` calls panic on
failure. -/
def getComparator (s : SSTable) (key : List Nat) (index : Nat) : Outcome Ordering :=
  match s.rec_file.read_at index with
  | none => Outcome.panic s.rec_file.file
  | some rec_buff =>
    match Record.deserialize rec_buff with
    | none => Outcome.panic s.rec_file.file
    | some rec => Outcome.ok (compareBytes rec.get_key key)

/-- Fetch-and-deserialise the record stored at `index` (used for the
value returned on a group-search hit; reads are pure, so this equals
the record the source saved from its last comparator call). -/
def fetchRecord (s : SSTable) (index : Nat) : Outcome Record :=
  match s.rec_file.read_at index with
  | none => Outcome.panic s.rec_file.file
  | some rec_buff =>
    match Record.deserialize rec_buff with
    | none => Outcome.panic s.rec_file.file
    | some rec => Outcome.ok rec

/-- `SSTable::get` (src/sstable.rs lines 171–220).  The
`Err(i) => i-1` arm panics when `i = 0` (arithmetic underflow in debug,
index out of bounds in release); the `start_offset − (group_count·8+4)`
subtraction likewise cannot go negative without a panic. -/
def sstableGet (s : SSTable) (key : List Nat) : Outcome (Option Record) :=
  -- check if the key is in the range of this SSTable
  if compareBytes key s.info.smallest_key = Ordering.lt ∨
     compareBytes s.info.largest_key key = Ordering.lt then
    Outcome.ok none
  else
    -- binary search using the indices
    match binarySearchBy
        (fun i => match s.info.indices.get? i with
                  | none => Outcome.panic s.rec_file.file
                  | some off => getComparator s key off)
        0 s.info.indices.length with
    | Outcome.err e => Outcome.err e
    | Outcome.panic f => Outcome.panic f
    | Outcome.ok top_index_res =>
      let chosen : Outcome Nat :=
        match top_index_res with
        | Sum.inl i => Outcome.ok i
        | Sum.inr i => if i = 0 then Outcome.panic s.rec_file.file else Outcome.ok (i - 1)
      match chosen with
      | Outcome.err e => Outcome.err e
      | Outcome.panic f => Outcome.panic f
      | Outcome.ok ci =>
        match s.info.indices.get? ci with
        | none => Outcome.panic s.rec_file.file
        | some start_offset =>
          if start_offset < s.info.group_count * U64_SIZE + U32_SIZE then
            Outcome.panic s.rec_file.file
          else
            let group_indices_offset :=
              start_offset - (s.info.group_count * U64_SIZE + U32_SIZE)
            match s.rec_file.read_at group_indices_offset with
            | none => Outcome.err "UnexpectedEof"
            | some group_indices_buff =>
              let group_indices :=
                (deserialize_u64_exact group_indices_buff).takeWhile (· ≠ 0)
              match binarySearchBy
                  (fun i => match group_indices.get? i with
                            | none => Outcome.panic s.rec_file.file
                            | some off => getComparator s key off)
                  0 group_indices.length with
              | Outcome.err e => Outcome.err e
              | Outcome.panic f => Outcome.panic f
              | Outcome.ok group_index_res =>
                match group_index_res with
                | Sum.inl i =>
                  match group_indices.get? i with
                  | none => Outcome.panic s.rec_file.file
                  | some off =>
                    match fetchRecord s off with
                    | Outcome.err e => Outcome.err e
                    | Outcome.panic f => Outcome.panic f
                    | Outcome.ok rec => Outcome.ok (some rec)
                | Sum.inr _ => Outcome.ok none

/-! ### SSTable comparison (`Ord`/`PartialEq` for SSTable) -/

/-- `Ord for SSTable`: compare by `info.oldest_ts`. -/
def sstableCmp (a b : SSTable) : Ordering :=
  compare a.info.oldest_ts b.info.oldest_ts

/-- `PartialEq for SSTable`: equality of the `oldest_ts` fields. -/
def sstableEq (a b : SSTable) : Prop :=
  a.info.oldest_ts = b.info.oldest_ts

instance (a b : SSTable) : Decidable (sstableEq a b) := by
  unfold sstableEq; infer_instance

/-- Sorting a list of SSTables with their `Ord` (insertion sort driven
by `sstableCmp`, as `Vec::sort` ordered by `Ord for SSTable`). -/
def sortInsert (t : SSTable) : List SSTable → List SSTable
  | [] => [t]
  | u :: us =>
    if sstableCmp t u = Ordering.gt then u :: sortInsert t us
    else t :: u :: us

/-- Stable sort of SSTables by `sstableCmp`. -/
def sortSSTables : List SSTable → List SSTable
  | [] => []
  | t :: ts => sortInsert t (sortSSTables ts)

instance : Inhabited Record := ⟨⟨[], [], 0⟩⟩

instance : Inhabited SSTableInfo := ⟨⟨0, 0, [], [], [], 0⟩⟩

instance : Inhabited RecordFile := ⟨⟨[], 0, 0, 0⟩⟩

instance : Inhabited SSTable := ⟨⟨default, default⟩⟩

/-! ## The layout of a built SSTable

Closed forms for the file a successful `SSTable::new` produces: the
20-byte header region, then per group one group-index block followed
by the group's record blobs, then the footer — each wrapped in the
Record File's 4-byte length prefix. -/

/-- A Record File record as laid out on disk: length prefix, payload. -/
def chunk (p : List Nat) : List Nat := le32 p.length ++ p

/-- The bytes of a run of consecutive records with payloads `ps`. -/
def chunksFile (ps : List (List Nat)) : List Nat := (ps.map chunk).flatten

/-- Byte offset of the `k`-th chunk within `chunksFile ps`. -/
def chunkOffset (ps : List (List Nat)) (k : Nat) : Nat :=
  ((ps.take k).map (fun p => 4 + p.length)).sum

/-- The header region a fresh SSTable record file starts with:
`DATA\x01\x00\x00\x00`, the `BAD_COUNT` sentinel, and the initial
last-record offset 20. -/
def filePre20 : List Nat := SSTABLE_HEADER ++ le32 BAD_COUNT ++ le64 20

/-- On-disk size of one record chunk. -/
def recChunkLen (r : Record) : Nat := 4 + (Record.serialize r).length

/-- Total on-disk size of the record chunks of `rs`. -/
def sumRecLens (rs : List Record) : Nat := (rs.map recChunkLen).sum

/-- On-disk size of one group-index chunk. -/
def blockChunkLen (gc : Nat) : Nat := 4 + 8 * gc

/-- Number of groups for `n` records (`ceil(n / gc)`). -/
def numGroups (n gc : Nat) : Nat := (n + gc - 1) / gc

/-- File offset of record number `j` (0-based) of a built table:
header region, the `j / gc + 1` group-index blocks at or before it,
and the records before it. -/
def recOff (rs : List Record) (gc j : Nat) : Nat :=
  20 + (j / gc + 1) * blockChunkLen gc + sumRecLens (rs.take j)

/-- File offset of the group-index block of group `g`. -/
def blockOff (rs : List Record) (gc g : Nat) : Nat :=
  20 + g * blockChunkLen gc + sumRecLens (rs.take (g * gc))

/-- The records of group `g`. -/
def groupRecs (rs : List Record) (gc g : Nat) : List Record :=
  (rs.drop (g * gc)).take gc

/-- Right-pad a list with zeros to length `k`. -/
def padTo (k : Nat) (l : List Nat) : List Nat :=
  l ++ List.replicate (k - l.length) 0

/-- The offsets stored in group `g`'s index block (no padding). -/
def groupOffs (rs : List Record) (gc g : Nat) : List Nat :=
  (List.range (groupRecs rs gc g).length).map (fun i => recOff rs gc (g * gc + i))

/-- Payload of group `g`'s index block: the record offsets, zero-padded
to `gc` slots, serialised as fixed-width u64s. -/
def groupBlockPayload (rs : List Record) (gc g : Nat) : List Nat :=
  serialize_u64_exact (padTo gc (groupOffs rs gc g))

/-- Payload of an all-zero group-index block. -/
def zeroBlockPayload (gc : Nat) : List Nat :=
  serialize_u64_exact (List.replicate gc 0)

/-- The payloads of group `g` in file order: its (patched) index
block, then its record blobs. -/
def groupPayloads (rs : List Record) (gc g : Nat) : List (List Nat) :=
  groupBlockPayload rs gc g :: (groupRecs rs gc g).map Record.serialize

/-- The payloads of the first `g` groups, in file order. -/
def frontPayloads (rs : List Record) (gc g : Nat) : List (List Nat) :=
  ((List.range g).map (groupPayloads rs gc)).flatten

/-- The record payloads of a finished build, in file order: per group
its (patched) index block then its record blobs.  The footer is not
included. -/
def finalPayloads (rs : List Record) (gc : Nat) : List (List Nat) :=
  frontPayloads rs gc (numGroups rs.length gc)

/-- Payload-list index of group `g`'s index block in `finalPayloads`. -/
def blockIdx (gc g : Nat) : Nat := g * (gc + 1)

/-- The payloads on disk at the top of the loop after `j ≥ 1` records:
like a finished build of the first `j` records, except that the
current group's index block is still all zeros (it is patched only at
the next group boundary or after the loop). -/
def midPayloads (rs : List Record) (gc j : Nat) : List (List Nat) :=
  (finalPayloads (rs.take j) gc).set (blockIdx gc ((j - 1) / gc)) (zeroBlockPayload gc)

/-- The maximum `created` timestamp of a record list (0 when empty). -/
def maxCreated (rs : List Record) : Nat :=
  (rs.map Record.get_created).foldl max 0

/-- The in-memory footer of a finished build of `rs`. -/
def infoSpec (rs : List Record) (gc : Nat) : SSTableInfo :=
  { record_count := rs.length
    group_count := gc
    indices := (List.range (numGroups rs.length gc)).map (fun g => recOff rs gc (g * gc))
    smallest_key := (rs.getD 0 default).key
    largest_key := (rs.getD (rs.length - 1) default).key
    oldest_ts := maxCreated rs }

/-- The full on-disk bytes of a finished build of `rs`. -/
def builtFile (rs : List Record) (gc : Nat) : List Nat :=
  filePre20 ++ chunksFile (finalPayloads rs gc ++ [(infoSpec rs gc).serialize])

/-- Payload-list index of record `j` in `finalPayloads`. -/
def recIdx (gc j : Nat) : Nat := j + j / gc + 1

/-- The initial state of `SSTable::new` before the loop. -/
def initState (gc : Nat) : BuildState :=
  { rf := { file := filePre20, record_count := 0, header_len := 8, last_record := 20 }
    info := { record_count := 0, group_count := gc, indices := [],
              smallest_key := [], largest_key := [], oldest_ts := 0 }
    group_indices := List.replicate gc 0
    cur_group_indices_offset := 0
    cur_key := []
    cur_ts := 0 }

/-- The loop invariant of `SSTable::new` at the top of the `while let`
after `j ≥ 1` of the records `rs` have been processed. -/
structure BuildInv (rs : List Record) (gc j : Nat) (st : BuildState) : Prop where
  file : st.rf.file = filePre20 ++ chunksFile (midPayloads rs gc j)
  info_rc : st.info.record_count = j
  info_gc : st.info.group_count = gc
  info_idx : st.info.indices =
    (List.range ((j - 1) / gc + 1)).map (fun g => recOff rs gc (g * gc))
  info_sm : st.info.smallest_key = (rs.getD 0 default).key
  info_lg : st.info.largest_key = []
  info_ts : st.info.oldest_ts = maxCreated (rs.take j)
  gidx : st.group_indices =
    padTo gc ((List.range (j - ((j - 1) / gc) * gc)).map
      (fun i => recOff rs gc (((j - 1) / gc) * gc + i)))
  gio : st.cur_group_indices_offset = blockOff rs gc ((j - 1) / gc)
  ckey : st.cur_key = (rs.getD (j - 1) default).key

/-! # Lemmas and theorems -/

/-! ## Little-endian round trips -/

theorem leDecode_le32 (n : Nat) : leDecode (le32 n) = n % 2 ^ 32 := by
  simp [le32, leDecode]
  omega

theorem leDecode_le64 (n : Nat) : leDecode (le64 n) = n % 2 ^ 64 := by
  simp [le64, leDecode]
  omega

theorem le64_zero : le64 0 = List.replicate 8 0 := by decide

/-! ## Positional reads and writes over concatenations -/

theorem readExactAt_exact (X p Y : List Nat) :
    readExactAt (X ++ p ++ Y) X.length p.length = some p := by
  have hle : X.length + p.length ≤ (X ++ p ++ Y).length := by
    simp only [List.length_append]
    omega
  have hdrop : (X ++ p ++ Y).drop X.length = p ++ Y := by
    rw [List.append_assoc, List.drop_left]
  have htake : (p ++ Y).take p.length = p := List.take_left p Y
  simp [readExactAt, hle, extractB, hdrop, htake]

theorem readU32At_le32 (X Y : List Nat) (n : Nat) :
    readU32At (X ++ le32 n ++ Y) X.length = some (n % 2 ^ 32) := by
  have h := readExactAt_exact X (le32 n) Y
  rw [le32_length] at h
  show (readExactAt (X ++ le32 n ++ Y) X.length 4).map leDecode = _
  rw [h]
  simp [leDecode_le32]

/-- Reading the record whose chunk sits at offset `|X|`. -/
theorem read_at_chunk (rf : RecordFile) (X p Y : List Nat)
    (hf : rf.file = X ++ chunk p ++ Y) (hp : p.length < 2 ^ 32) :
    rf.read_at X.length = some p := by
  have hf' : rf.file = X ++ le32 p.length ++ (p ++ Y) := by
    simpa [chunk, List.append_assoc] using hf
  have h32 : readU32At rf.file X.length = some p.length := by
    rw [hf', readU32At_le32, Nat.mod_eq_of_lt hp]
  have hx : rf.file = (X ++ le32 p.length) ++ p ++ Y := by
    simpa [List.append_assoc] using hf'
  have hexact : readExactAt rf.file (X.length + 4) p.length = some p := by
    have h := readExactAt_exact (X ++ le32 p.length) p Y
    rw [List.length_append, le32_length] at h
    rw [hx]
    exact h
  simp [RecordFile.read_at, h32, hexact]

/-- Overwriting the same-length chunk at offset `|X|`. -/
theorem writeAtBytes_chunk (X p Y q : List Nat) (hq : q.length = p.length) :
    writeAtBytes (X ++ chunk p ++ Y) X.length (chunk q) = X ++ chunk q ++ Y := by
  have hcl : (chunk q).length = (chunk p).length := by simp [chunk, hq]
  have htake : (X ++ chunk p ++ Y).take X.length = X := by
    rw [List.append_assoc, List.take_left]
  have hdrop : (X ++ chunk p ++ Y).drop (X.length + (chunk q).length) = Y := by
    rw [hcl, show X.length + (chunk p).length = (X ++ chunk p).length by
      rw [List.length_append]]
    exact List.drop_left (X ++ chunk p) Y
  simp only [writeAtBytes, htake, hdrop]

/-! ## The chunk toolkit -/

@[simp] theorem chunk_length (p : List Nat) : (chunk p).length = 4 + p.length := by
  simp [chunk]

theorem chunksFile_append (ps qs : List (List Nat)) :
    chunksFile (ps ++ qs) = chunksFile ps ++ chunksFile qs := by
  simp [chunksFile]

@[simp] theorem chunksFile_nil : chunksFile [] = [] := rfl

@[simp] theorem chunksFile_cons (p : List Nat) (ps : List (List Nat)) :
    chunksFile (p :: ps) = chunk p ++ chunksFile ps := by
  simp [chunksFile]

theorem chunkOffset_zero (ps : List (List Nat)) : chunkOffset ps 0 = 0 := rfl

theorem chunkOffset_cons (p : List Nat) (ps : List (List Nat)) (k : Nat) :
    chunkOffset (p :: ps) (k + 1) = 4 + p.length + chunkOffset ps k := by
  simp [chunkOffset]

theorem chunksFile_length (ps : List (List Nat)) :
    (chunksFile ps).length = chunkOffset ps ps.length := by
  induction ps with
  | nil => rfl
  | cons p ps ih =>
    rw [chunksFile_cons, List.length_append, chunk_length, List.length_cons,
      chunkOffset_cons, ih]

/-- `chunkOffset` only looks at the first `k` payload lengths. -/
theorem chunkOffset_append_of_le (ps qs : List (List Nat)) (k : Nat) (h : k ≤ ps.length) :
    chunkOffset (ps ++ qs) k = chunkOffset ps k := by
  simp [chunkOffset, List.take_append_eq_append_take, Nat.sub_eq_zero_of_le h]

theorem chunkOffset_set (ps : List (List Nat)) (i k : Nat) (q : List Nat)
    (hq : q.length = (ps.getD i []).length) :
    chunkOffset (ps.set i q) k = chunkOffset ps k := by
  induction ps generalizing i k with
  | nil => simp
  | cons p ps ih =>
    cases i with
    | zero =>
      cases k with
      | zero => simp [chunkOffset]
      | succ k =>
        simp only [List.set_cons_zero, chunkOffset_cons]
        simp only [List.getD_cons_zero] at hq
        rw [hq]
    | succ i =>
      cases k with
      | zero => simp [chunkOffset]
      | succ k =>
        simp only [List.set_cons_succ, chunkOffset_cons]
        simp only [List.getD_cons_succ] at hq
        rw [ih i k hq]

/-- Splitting the byte run of `ps` around its `k`-th chunk. -/
theorem chunksFile_decomp (ps : List (List Nat)) (k : Nat) (hk : k < ps.length) :
    chunksFile ps =
      chunksFile (ps.take k) ++ chunk (ps.getD k []) ++ chunksFile (ps.drop (k + 1)) ∧
    (chunksFile (ps.take k)).length = chunkOffset ps k := by
  induction ps generalizing k with
  | nil => simp at hk
  | cons p ps ih =>
    cases k with
    | zero => simp [chunkOffset]
    | succ k =>
      have hk' : k < ps.length := by simpa using hk
      obtain ⟨h1, h2⟩ := ih k hk'
      constructor
      · simp only [List.take_succ_cons, List.getD_cons_succ, List.drop_succ_cons,
          chunksFile_cons]
        rw [h1]
        simp [List.append_assoc]
      · simp only [List.take_succ_cons, chunksFile_cons, List.length_append, h2,
          chunk_length, chunkOffset_cons]

/-- Reading chunk `k` of a chunk run that sits after a prefix `pre`. -/
theorem read_at_chunksFile (rf : RecordFile) (pre : List Nat) (ps : List (List Nat))
    (k : Nat) (hf : rf.file = pre ++ chunksFile ps) (hk : k < ps.length)
    (hsz : (ps.getD k []).length < 2 ^ 32) :
    rf.read_at (pre.length + chunkOffset ps k) = some (ps.getD k []) := by
  obtain ⟨h1, h2⟩ := chunksFile_decomp ps k hk
  have hf' : rf.file = (pre ++ chunksFile (ps.take k)) ++ chunk (ps.getD k []) ++
      (chunksFile (ps.drop (k + 1))) := by
    rw [hf, h1]; simp [List.append_assoc]
  have := read_at_chunk rf (pre ++ chunksFile (ps.take k)) (ps.getD k [])
    (chunksFile (ps.drop (k + 1))) hf' hsz
  simpa [List.length_append, h2] using this

/-- Patching chunk `k` in place with a same-length payload. -/
theorem write_at_chunksFile (rf : RecordFile) (pre : List Nat) (ps : List (List Nat))
    (k : Nat) (q : List Nat) (hf : rf.file = pre ++ chunksFile ps) (hk : k < ps.length)
    (hq : q.length = (ps.getD k []).length) :
    rf.write_at (pre.length + chunkOffset ps k) q =
      { rf with file := pre ++ chunksFile (ps.set k q) } := by
  obtain ⟨h1, h2⟩ := chunksFile_decomp ps k hk
  have hf' : rf.file = (pre ++ chunksFile (ps.take k)) ++ chunk (ps.getD k []) ++
      (chunksFile (ps.drop (k + 1))) := by
    rw [hf, h1]; simp [List.append_assoc]
  have hoff : pre.length + chunkOffset ps k = (pre ++ chunksFile (ps.take k)).length := by
    rw [List.length_append, h2]
  have hset : ps.set k q = ps.take k ++ q :: ps.drop (k + 1) := by
    rw [List.set_eq_take_append_cons_drop, if_pos hk]
  have hw := writeAtBytes_chunk (pre ++ chunksFile (ps.take k)) (ps.getD k [])
    (chunksFile (ps.drop (k + 1))) q hq
  have hfile : writeAtBytes rf.file (pre.length + chunkOffset ps k)
      (le32 q.length ++ q) = pre ++ chunksFile (ps.set k q) := by
    rw [hf', hoff]
    have hcq : le32 q.length ++ q = chunk q := rfl
    rw [hcq, hw, hset, chunksFile_append, chunksFile_cons]
    simp [List.append_assoc]
  simp [RecordFile.write_at, hfile]

/-- `RecordFile::append` in layout form. -/
theorem append_eq (rf : RecordFile) (p : List Nat) :
    rf.append p =
      (⟨rf.file ++ chunk p, (rf.record_count + 1) % 2 ^ 32,
        rf.header_len, rf.file.length⟩, rf.file.length) := by
  simp [RecordFile.append, chunk]

/-! ## The lexicographic byte order -/

theorem compareBytes_self (a : List Nat) : compareBytes a a = Ordering.eq := by
  induction a with
  | nil => rfl
  | cons x xs ih => simp [compareBytes, ih]

theorem compareBytes_eq_iff (a b : List Nat) :
    compareBytes a b = Ordering.eq ↔ a = b := by
  induction a generalizing b with
  | nil => cases b <;> simp [compareBytes]
  | cons x xs ih =>
    cases b with
    | nil => simp [compareBytes]
    | cons y ys =>
      by_cases hxy : x < y
      · simp [compareBytes, hxy]
        omega
      · by_cases hyx : y < x
        · simp [compareBytes, hxy, hyx]
          omega
        · have hxyeq : x = y := by omega
          simp [compareBytes, hxy, hyx, hxyeq, ih]

theorem compareBytes_swap (a b : List Nat) :
    compareBytes b a = Ordering.gt ↔ compareBytes a b = Ordering.lt := by
  induction a generalizing b with
  | nil => cases b <;> simp [compareBytes]
  | cons x xs ih =>
    cases b with
    | nil => simp [compareBytes]
    | cons y ys =>
      by_cases hxy : x < y
      · have : ¬ y < x := by omega
        simp [compareBytes, hxy, this]
      · by_cases hyx : y < x
        · simp [compareBytes, hxy, hyx]
        · simp [compareBytes, hxy, hyx, ih]

theorem bytesLt_trans {a b c : List Nat} (hab : bytesLt a b) (hbc : bytesLt b c) :
    bytesLt a c := by
  unfold bytesLt at *
  induction a generalizing b c with
  | nil =>
    cases c with
    | nil => cases b <;> simp_all [compareBytes]
    | cons z zs => simp [compareBytes]
  | cons x xs ih =>
    cases b with
    | nil => simp [compareBytes] at hab
    | cons y ys =>
      cases c with
      | nil => simp [compareBytes] at hbc
      | cons z zs =>
        by_cases hxy : x < y <;> by_cases hyz : y < z
        · have hxz : x < z := by omega
          simp [compareBytes, hxz]
        · simp only [compareBytes, if_pos hxy] at hab
          by_cases hzy : z < y
          · simp [compareBytes, hyz, hzy] at hbc
          · have hyzeq : y = z := by omega
            subst hyzeq
            simp [compareBytes, hxy]
        · simp only [compareBytes, if_neg hxy] at hab
          by_cases hyx : y < x
          · simp [hyx] at hab
          · have hxyeq : x = y := by omega
            subst hxyeq
            simp [compareBytes, hyz]
        · by_cases hyx : y < x
          · simp [compareBytes, hxy, hyx] at hab
          · by_cases hzy : z < y
            · simp [compareBytes, hyz, hzy] at hbc
            · have hxyeq : x = y := by omega
              have hyzeq : y = z := by omega
              subst hxyeq; subst hyzeq
              simp only [compareBytes, if_neg hxy, if_neg hyx] at hab ⊢
              simp only [compareBytes, if_neg hyz, if_neg hzy] at hbc
              exact ih hab hbc

theorem bytesLt_irrefl (a : List Nat) : ¬ bytesLt a a := by
  unfold bytesLt
  rw [compareBytes_self]
  simp

instance : IsTrans (List Nat) bytesLt := ⟨fun _ _ _ => bytesLt_trans⟩

/-- Strictly ascending adjacency extends to all pairs. -/
theorem chain'_bytesLt_pairwise {l : List (List Nat)} (h : l.Chain' bytesLt) :
    l.Pairwise bytesLt :=
  List.chain'_iff_pairwise.mp h

/-! ## The binary search -/

/-- Behaviour of Rust's `binary_search_by` over a window whose
comparator is pure and monotone: it either lands on an `Equal` index,
or returns the insertion point splitting smaller from greater. -/
theorem binarySearchBy_spec (f : Nat → Outcome Ordering) (cmp : Nat → Ordering)
    (len : Nat) (hf : ∀ i, i < len → f i = Outcome.ok (cmp i))
    (hlt : ∀ i j, i ≤ j → j < len → cmp j = Ordering.lt → cmp i = Ordering.lt)
    (hgt : ∀ i j, i ≤ j → j < len → cmp i = Ordering.gt → cmp j = Ordering.gt) :
    ∀ n left right, right - left = n → left ≤ right → right ≤ len →
      (∀ i, i < left → cmp i = Ordering.lt) →
      (∀ i, right ≤ i → i < len → cmp i = Ordering.gt) →
      (∃ i, i < len ∧ cmp i = Ordering.eq ∧
        binarySearchBy f left right = Outcome.ok (Sum.inl i)) ∨
      (∃ p, left ≤ p ∧ p ≤ right ∧ (∀ i, i < p → cmp i = Ordering.lt) ∧
        (∀ i, p ≤ i → i < len → cmp i = Ordering.gt) ∧
        binarySearchBy f left right = Outcome.ok (Sum.inr p)) := by
  intro n
  induction n using Nat.strong_induction_on with
  | _ n ih =>
    intro left right hn hlr hrl hL hR
    rw [binarySearchBy]
    by_cases h : left < right
    · rw [dif_pos h]
      have hmlt : left + (right - left) / 2 < right := by omega
      have hmge : left ≤ left + (right - left) / 2 := Nat.le_add_right _ _
      have hmlen : left + (right - left) / 2 < len := by omega
      rw [hf _ hmlen]
      rcases hc : cmp (left + (right - left) / 2) with _ | _ | _
      · -- Less: move left past mid
        have hrec := ih (right - (left + (right - left) / 2 + 1)) (by omega)
          (left + (right - left) / 2 + 1) right rfl (by omega) hrl
          (fun i hi => hlt i _ (by omega) hmlen hc)
          hR
        rcases hrec with ⟨i, hi, hceq, hrun⟩ | ⟨p, hp1, hp2, hp3, hp4, hrun⟩
        · exact Or.inl ⟨i, hi, hceq, by simp [hrun]⟩
        · exact Or.inr ⟨p, by omega, hp2, hp3, hp4, by simp [hrun]⟩
      · -- Equal
        left
        exact ⟨left + (right - left) / 2, hmlen, hc, by simp⟩
      · -- Greater: cut right to mid
        have hrec := ih (left + (right - left) / 2 - left) (by omega)
          left (left + (right - left) / 2) rfl (by omega) (by omega) hL
          (fun i hge hi => hgt _ i hge hi hc)
        rcases hrec with ⟨i, hi, hceq, hrun⟩ | ⟨p, hp1, hp2, hp3, hp4, hrun⟩
        · exact Or.inl ⟨i, hi, hceq, by simp [hrun]⟩
        · exact Or.inr ⟨p, hp1, by omega, hp3, hp4, by simp [hrun]⟩
    · rw [dif_neg h]
      right
      have hteq : left = right := by omega
      exact ⟨left, le_refl left, by omega, hL, fun i hge hi => hR i (by omega) hi, rfl⟩

/-! ## Codec round trips -/

theorem serialize_u64_exact_nil : serialize_u64_exact [] = [] := rfl

theorem serialize_u64_exact_cons (x : Nat) (l : List Nat) :
    serialize_u64_exact (x :: l) = le64 x ++ serialize_u64_exact l := by
  simp [serialize_u64_exact]

theorem serialize_u64_exact_length (l : List Nat) :
    (serialize_u64_exact l).length = 8 * l.length := by
  induction l with
  | nil => rfl
  | cons x l ih =>
    rw [serialize_u64_exact_cons, List.length_append, le64_length, List.length_cons, ih]
    ring

theorem deserialize_u64_exact_roundtrip (l : List Nat) (h : ∀ x ∈ l, x < 2 ^ 64) :
    deserialize_u64_exact (serialize_u64_exact l) = l := by
  induction l with
  | nil =>
    rw [serialize_u64_exact_nil, deserialize_u64_exact]
    simp
  | cons x l ih =>
    rw [serialize_u64_exact_cons, deserialize_u64_exact]
    have hlen : 8 ≤ (le64 x ++ serialize_u64_exact l).length := by
      rw [List.length_append, le64_length]
      omega
    rw [dif_pos hlen]
    have htake : (le64 x ++ serialize_u64_exact l).take 8 = le64 x := by
      have := List.take_left (le64 x) (serialize_u64_exact l)
      rwa [le64_length] at this
    have hdrop : (le64 x ++ serialize_u64_exact l).drop 8 = serialize_u64_exact l := by
      have := List.drop_left (le64 x) (serialize_u64_exact l)
      rwa [le64_length] at this
    rw [htake, hdrop, leDecode_le64, Nat.mod_eq_of_lt (h x (by simp)),
      ih (fun y hy => h y (by simp [hy]))]

theorem Record.serialize_length (r : Record) :
    (Record.serialize r).length = 4 + r.key.length + 4 + r.value.length + 8 := by
  simp [Record.serialize]
  omega

/-- The spec-modelled record codec round-trips. -/
theorem Record.deserialize_serialize (r : Record) (hk : r.key.length < 2 ^ 32)
    (hv : r.value.length < 2 ^ 32) (ht : r.created < 2 ^ 64) :
    Record.deserialize (Record.serialize r) = some r := by
  have h1 : readU32At (Record.serialize r) 0 = some r.key.length := by
    have h := readU32At_le32 [] (r.key ++ le32 r.value.length ++ r.value ++ le64 r.created)
      r.key.length
    simp only [List.nil_append, List.length_nil] at h
    rw [Record.serialize]
    rw [show le32 r.key.length ++ r.key ++ le32 r.value.length ++ r.value ++
        le64 r.created = le32 r.key.length ++
        (r.key ++ le32 r.value.length ++ r.value ++ le64 r.created) by
      simp [List.append_assoc]]
    rw [h, Nat.mod_eq_of_lt hk]
  have h2 : readExactAt (Record.serialize r) 4 r.key.length = some r.key := by
    have := readExactAt_exact (le32 r.key.length) r.key
      (le32 r.value.length ++ r.value ++ le64 r.created)
    rw [le32_length] at this
    rw [Record.serialize]
    rw [show le32 r.key.length ++ r.key ++ le32 r.value.length ++ r.value ++
        le64 r.created = le32 r.key.length ++ r.key ++
        (le32 r.value.length ++ r.value ++ le64 r.created) by
      simp [List.append_assoc]]
    exact this
  have h3 : readU32At (Record.serialize r) (4 + r.key.length) =
      some r.value.length := by
    have := readU32At_le32 (le32 r.key.length ++ r.key) (r.value ++ le64 r.created)
      r.value.length
    rw [List.length_append, le32_length] at this
    rw [Record.serialize]
    rw [show le32 r.key.length ++ r.key ++ le32 r.value.length ++ r.value ++
        le64 r.created = (le32 r.key.length ++ r.key) ++ le32 r.value.length ++
        (r.value ++ le64 r.created) by simp [List.append_assoc]]
    rw [this, Nat.mod_eq_of_lt hv]
  have h4 : readExactAt (Record.serialize r) (4 + r.key.length + 4) r.value.length =
      some r.value := by
    have := readExactAt_exact (le32 r.key.length ++ r.key ++ le32 r.value.length)
      r.value (le64 r.created)
    rw [List.length_append, List.length_append, le32_length, le32_length] at this
    rw [Record.serialize]
    rw [show le32 r.key.length ++ r.key ++ le32 r.value.length ++ r.value ++
        le64 r.created = (le32 r.key.length ++ r.key ++ le32 r.value.length) ++
        r.value ++ le64 r.created by simp [List.append_assoc]]
    exact this
  have h5 : readExactAt (Record.serialize r) (4 + r.key.length + 4 + r.value.length) 8 =
      some (le64 r.created) := by
    have := readExactAt_exact
      (le32 r.key.length ++ r.key ++ le32 r.value.length ++ r.value)
      (le64 r.created) []
    rw [List.length_append, List.length_append, List.length_append, le32_length,
      le32_length, le64_length, List.append_nil] at this
    rw [Record.serialize]
    exact this
  simp only [Record.deserialize, h1, h2, h3, h4, h5]
  rw [if_pos (by rw [Record.serialize_length])]
  rw [leDecode_le64, Nat.mod_eq_of_lt ht]

/-! ## Arithmetic of the group layout -/

theorem numGroups_eq (j gc : Nat) (hgc : 1 ≤ gc) (hj : 1 ≤ j) :
    numGroups j gc = (j - 1) / gc + 1 := by
  unfold numGroups
  have h1 : j + gc - 1 = (j - 1) + gc := by omega
  rw [h1, Nat.add_div_right _ (by omega)]

theorem mul_lt_of_lt_numGroups {n gc g : Nat} (hgc : 1 ≤ gc)
    (hg : g < numGroups n gc) : g * gc < n := by
  unfold numGroups at hg
  rcases Nat.eq_zero_or_pos n with h0 | hpos
  · subst h0
    rw [show 0 + gc - 1 = gc - 1 by omega, Nat.div_eq_of_lt (by omega)] at hg
    omega
  · have h1 : (g + 1) * gc ≤ (n + gc - 1) / gc * gc :=
      Nat.mul_le_mul_right gc (by omega)
    have h2 := Nat.div_mul_le_self (n + gc - 1) gc
    have h3 := le_trans h1 h2
    rw [Nat.add_mul, Nat.one_mul] at h3
    omega

theorem le_numGroups_mul (n gc : Nat) (hgc : 1 ≤ gc) : n ≤ numGroups n gc * gc := by
  rcases Nat.eq_zero_or_pos n with h0 | hpos
  · simp [h0]
  · rw [numGroups_eq n gc hgc hpos, Nat.add_mul, Nat.one_mul]
    have h := Nat.div_add_mod (n - 1) gc
    have hmod : (n - 1) % gc < gc := Nat.mod_lt _ (by omega)
    have hc : gc * ((n - 1) / gc) = (n - 1) / gc * gc := Nat.mul_comm _ _
    omega

theorem groupRecs_length (rs : List Record) (gc g : Nat) :
    (groupRecs rs gc g).length = min gc (rs.length - g * gc) := by
  simp [groupRecs]

/-- Every group before the last is full. -/
theorem groupRecs_full (rs : List Record) (gc g : Nat) (hgc : 1 ≤ gc)
    (hg : g + 1 < numGroups rs.length gc) : (groupRecs rs gc g).length = gc := by
  rw [groupRecs_length]
  have := mul_lt_of_lt_numGroups hgc (show g + 1 < numGroups rs.length gc from hg)
  have : (g + 1) * gc < rs.length := this
  have hle : g * gc + gc ≤ rs.length := by
    rw [Nat.add_mul, Nat.one_mul] at this
    omega
  omega

theorem padTo_length (k : Nat) (l : List Nat) (h : l.length ≤ k) :
    (padTo k l).length = k := by
  simp [padTo]
  omega

theorem groupOffs_length (rs : List Record) (gc g : Nat) :
    (groupOffs rs gc g).length = (groupRecs rs gc g).length := by
  simp [groupOffs]

theorem groupBlockPayload_length (rs : List Record) (gc g : Nat) :
    (groupBlockPayload rs gc g).length = 8 * gc := by
  rw [groupBlockPayload, serialize_u64_exact_length, padTo_length]
  rw [groupOffs_length, groupRecs_length]
  omega

theorem zeroBlockPayload_eq (gc : Nat) :
    zeroBlockPayload gc = List.replicate (8 * gc) 0 := by
  unfold zeroBlockPayload
  induction gc with
  | zero => rfl
  | succ g ih =>
    rw [List.replicate_succ, serialize_u64_exact_cons, ih, le64_zero]
    rw [show 8 * (g + 1) = 8 + 8 * g by ring, List.replicate_add]

theorem zeroBlockPayload_length (gc : Nat) :
    (zeroBlockPayload gc).length = 8 * gc := by
  rw [zeroBlockPayload_eq, List.length_replicate]

theorem sumRecLens_append (a b : List Record) :
    sumRecLens (a ++ b) = sumRecLens a + sumRecLens b := by
  simp [sumRecLens]

theorem sumRecLens_cons (r : Record) (l : List Record) :
    sumRecLens (r :: l) = 4 + (Record.serialize r).length + sumRecLens l := by
  simp [sumRecLens, recChunkLen]

theorem chunksFile_recList_length (l : List Record) :
    (chunksFile (l.map Record.serialize)).length = sumRecLens l := by
  induction l with
  | nil => rfl
  | cons r rest ih =>
    rw [List.map_cons, chunksFile_cons, List.length_append, chunk_length, ih,
      sumRecLens_cons]

theorem sumRecLens_take_add (rs : List Record) (a b : Nat) :
    sumRecLens (rs.take (a + b)) =
      sumRecLens (rs.take a) + sumRecLens ((rs.drop a).take b) := by
  rw [List.take_add, sumRecLens_append]

/-! ## Decomposing the final payload list -/

theorem frontPayloads_zero (rs : List Record) (gc : Nat) :
    frontPayloads rs gc 0 = [] := rfl

theorem frontPayloads_succ (rs : List Record) (gc g : Nat) :
    frontPayloads rs gc (g + 1) = frontPayloads rs gc g ++ groupPayloads rs gc g := by
  unfold frontPayloads
  rw [List.range_succ g]
  simp

theorem groupPayloads_length (rs : List Record) (gc g : Nat) :
    (groupPayloads rs gc g).length = 1 + (groupRecs rs gc g).length := by
  simp [groupPayloads]
  omega

theorem chunksFile_groupPayloads_length (rs : List Record) (gc g : Nat) :
    (chunksFile (groupPayloads rs gc g)).length =
      blockChunkLen gc + sumRecLens (groupRecs rs gc g) := by
  rw [groupPayloads, chunksFile_cons, List.length_append, chunk_length,
    groupBlockPayload_length, chunksFile_recList_length, blockChunkLen]

/-- Length bookkeeping for the first `g` groups, all of them full. -/
theorem frontPayloads_facts (rs : List Record) (gc : Nat) (hgc : 1 ≤ gc) :
    ∀ g, (∀ g', g' < g → (groupRecs rs gc g').length = gc) →
      (frontPayloads rs gc g).length = g * (gc + 1) ∧
      (chunksFile (frontPayloads rs gc g)).length =
        g * blockChunkLen gc + sumRecLens (rs.take (g * gc)) := by
  intro g
  induction g with
  | zero => intro _; simp [frontPayloads_zero, sumRecLens]
  | succ g ih =>
    intro hfull
    obtain ⟨ih1, ih2⟩ := ih (fun g' hg' => hfull g' (by omega))
    constructor
    · rw [frontPayloads_succ, List.length_append, ih1, groupPayloads_length,
        hfull g (by omega)]
      ring
    · rw [frontPayloads_succ, chunksFile_append, List.length_append, ih2,
        chunksFile_groupPayloads_length]
      have htk : rs.take ((g + 1) * gc) = rs.take (g * gc) ++ (rs.drop (g * gc)).take gc := by
        rw [show (g + 1) * gc = g * gc + gc by ring, List.take_add]
      rw [htk, sumRecLens_append]
      unfold groupRecs
      ring

/-- The final payload list splits at any group `g`. -/
theorem finalPayloads_split (rs : List Record) (gc g : Nat)
    (hg : g < numGroups rs.length gc) :
    ∃ B, finalPayloads rs gc =
      frontPayloads rs gc g ++ groupPayloads rs gc g ++ B := by
  unfold finalPayloads frontPayloads
  obtain ⟨t, ht⟩ : ∃ t, numGroups rs.length gc = (g + 1) + t :=
    ⟨numGroups rs.length gc - (g + 1), by omega⟩
  rw [ht, List.range_add (g + 1) t, List.map_append, List.flatten_append,
    List.range_succ g, List.map_append, List.flatten_append]
  refine ⟨(List.map (groupPayloads rs gc) (List.map (fun x => g + 1 + x)
    (List.range t))).flatten, ?_⟩
  simp [List.append_assoc]

/-! ## Take-invariance of the layout -/

theorem sumRecLens_take_take (rs : List Record) (a j : Nat) (h : j ≤ a) :
    sumRecLens ((rs.take a).take j) = sumRecLens (rs.take j) := by
  rw [List.take_take, min_eq_left h]

theorem recOff_take (rs : List Record) (gc a j : Nat) (h : j ≤ a) :
    recOff (rs.take a) gc j = recOff rs gc j := by
  unfold recOff
  rw [sumRecLens_take_take rs a j h]

theorem blockOff_take (rs : List Record) (gc a g : Nat) (h : g * gc ≤ a) :
    blockOff (rs.take a) gc g = blockOff rs gc g := by
  unfold blockOff
  rw [sumRecLens_take_take rs a _ h]

theorem groupRecs_take (rs : List Record) (gc a g : Nat) (h : g * gc + gc ≤ a) :
    groupRecs (rs.take a) gc g = groupRecs rs gc g := by
  unfold groupRecs
  rw [List.drop_take, List.take_take]
  congr 1
  omega

/-- The partial last group of a truncated record list. -/
theorem groupRecs_take_partial (rs : List Record) (gc g j : Nat)
    (h1 : g * gc ≤ j) (h2 : j - g * gc ≤ gc) :
    groupRecs (rs.take j) gc g = (rs.drop (g * gc)).take (j - g * gc) := by
  unfold groupRecs
  rw [List.drop_take, List.take_take]
  congr 1
  omega

theorem groupBlockPayload_take (rs : List Record) (gc a g : Nat)
    (h : g * gc + gc ≤ a) :
    groupBlockPayload (rs.take a) gc g = groupBlockPayload rs gc g := by
  unfold groupBlockPayload groupOffs
  rw [groupRecs_take rs gc a g h]
  congr 2
  apply List.map_congr_left
  intro i hi
  rw [List.mem_range] at hi
  rw [groupRecs_length] at hi
  exact recOff_take rs gc a (g * gc + i) (by omega)

theorem groupPayloads_take (rs : List Record) (gc a g : Nat)
    (h : g * gc + gc ≤ a) :
    groupPayloads (rs.take a) gc g = groupPayloads rs gc g := by
  unfold groupPayloads
  rw [groupRecs_take rs gc a g h, groupBlockPayload_take rs gc a g h]

theorem frontPayloads_take (rs : List Record) (gc a g : Nat)
    (h : g * gc ≤ a) :
    frontPayloads (rs.take a) gc g = frontPayloads rs gc g := by
  unfold frontPayloads
  congr 1
  apply List.map_congr_left
  intro g' hg'
  rw [List.mem_range] at hg'
  apply groupPayloads_take
  have : (g' + 1) * gc ≤ g * gc := Nat.mul_le_mul_right gc (by omega)
  rw [Nat.add_mul, Nat.one_mul] at this
  omega

/-! ## Accessing blocks and records inside the final layout -/

theorem chunkOffset_append_add (A B : List (List Nat)) (k : Nat) :
    chunkOffset (A ++ B) (A.length + k) = chunkOffset A A.length + chunkOffset B k := by
  unfold chunkOffset
  rw [List.take_append k, List.take_length, List.map_append, List.sum_append]

theorem chunkOffset_length_eq (A : List (List Nat)) :
    chunkOffset A A.length = (chunksFile A).length := (chunksFile_length A).symm

theorem chunkOffset_recList (l : List Record) (k : Nat) :
    chunkOffset (l.map Record.serialize) k = sumRecLens (l.take k) := by
  unfold chunkOffset sumRecLens
  rw [← List.map_take, List.map_map]
  congr 1

/-- Location and content of group `g`'s index block inside
`finalPayloads`. -/
theorem finalPayloads_block_facts (rs : List Record) (gc g : Nat) (hgc : 1 ≤ gc)
    (hg : g < numGroups rs.length gc) :
    blockIdx gc g < (finalPayloads rs gc).length ∧
    (finalPayloads rs gc).getD (blockIdx gc g) [] = groupBlockPayload rs gc g ∧
    20 + chunkOffset (finalPayloads rs gc) (blockIdx gc g) = blockOff rs gc g := by
  obtain ⟨B, hB⟩ := finalPayloads_split rs gc g hg
  have hfull : ∀ g', g' < g → (groupRecs rs gc g').length = gc :=
    fun g' h' => groupRecs_full rs gc g' hgc (by omega)
  obtain ⟨hl, hcl⟩ := frontPayloads_facts rs gc hgc g hfull
  have hidx : blockIdx gc g = (frontPayloads rs gc g).length := by
    rw [hl, blockIdx]
  have hB' : finalPayloads rs gc =
      frontPayloads rs gc g ++ (groupPayloads rs gc g ++ B) := by
    rw [hB, List.append_assoc]
  refine ⟨?_, ?_, ?_⟩
  · rw [hB', List.length_append, hidx, groupPayloads]
    simp
  · rw [hB', hidx, show (frontPayloads rs gc g).length =
      (frontPayloads rs gc g).length + 0 by omega]
    rw [List.getD_eq_getElem?_getD, List.getElem?_append_right (by omega)]
    simp [groupPayloads]
  · rw [hB', hidx, show (frontPayloads rs gc g).length =
      (frontPayloads rs gc g).length + 0 by omega, chunkOffset_append_add,
      chunkOffset_length_eq, hcl, chunkOffset_zero, blockOff]
    omega

/-- Location and content of record `j` inside `finalPayloads`. -/
theorem finalPayloads_rec_facts (rs : List Record) (gc j : Nat) (hgc : 1 ≤ gc)
    (hj : j < rs.length) :
    recIdx gc j < (finalPayloads rs gc).length ∧
    (finalPayloads rs gc).getD (recIdx gc j) [] =
      Record.serialize (rs.getD j default) ∧
    20 + chunkOffset (finalPayloads rs gc) (recIdx gc j) = recOff rs gc j := by
  have hn : 1 ≤ rs.length := by omega
  have hg : j / gc < numGroups rs.length gc := by
    rw [numGroups_eq rs.length gc hgc hn]
    have := Nat.div_le_div_right (c := gc) (show j ≤ rs.length - 1 by omega)
    omega
  obtain ⟨B, hB⟩ := finalPayloads_split rs gc (j / gc) hg
  have hfull : ∀ g', g' < j / gc → (groupRecs rs gc g').length = gc :=
    fun g' h' => groupRecs_full rs gc g' hgc (by omega)
  obtain ⟨hl, hcl⟩ := frontPayloads_facts rs gc hgc (j / gc) hfull
  have hjd := Nat.div_add_mod j gc
  have hcomm : j / gc * gc = gc * (j / gc) := Nat.mul_comm _ _
  have hmodlt : j % gc < gc := Nat.mod_lt j (by omega)
  have hklt : j % gc < (groupRecs rs gc (j / gc)).length := by
    rw [groupRecs_length]
    omega
  have hidx : recIdx gc j = (frontPayloads rs gc (j / gc)).length + (1 + j % gc) := by
    rw [hl, recIdx]
    have hexp : (j / gc) * (gc + 1) = (j / gc) * gc + j / gc := by ring
    omega
  have hB' : finalPayloads rs gc = frontPayloads rs gc (j / gc) ++
      (groupPayloads rs gc (j / gc) ++ B) := by
    rw [hB, List.append_assoc]
  have hmap : ((groupRecs rs gc (j / gc)).map Record.serialize).getD (j % gc) [] =
      Record.serialize ((groupRecs rs gc (j / gc)).getD (j % gc) default) := by
    rw [List.getD_eq_getElem?_getD, List.getD_eq_getElem?_getD, List.getElem?_map,
      List.getElem?_eq_getElem hklt]
    rfl
  have hgrd : (groupRecs rs gc (j / gc)).getD (j % gc) default = rs.getD j default := by
    unfold groupRecs
    have h1 : ((rs.drop (j / gc * gc)).take gc).getD (j % gc) default =
        (rs.drop (j / gc * gc)).getD (j % gc) default := by
      simp [List.getD_eq_getElem?_getD, List.getElem?_take, hmodlt]
    have h2 : (rs.drop (j / gc * gc)).getD (j % gc) default =
        rs.getD (j / gc * gc + j % gc) default := by
      simp [List.getD_eq_getElem?_getD, List.getElem?_drop]
    rw [h1, h2, show j / gc * gc + j % gc = j by omega]
  have hgetrec : ((groupRecs rs gc (j / gc)).map Record.serialize).getD (j % gc) [] =
      Record.serialize (rs.getD j default) := by
    rw [hmap, hgrd]
  refine ⟨?_, ?_, ?_⟩
  · rw [hB', List.length_append, hidx]
    simp only [groupPayloads, List.length_append, List.length_cons, List.length_map]
    omega
  · rw [hB', hidx, List.getD_eq_getElem?_getD,
      List.getElem?_append_right (by omega)]
    rw [show (frontPayloads rs gc (j / gc)).length + (1 + j % gc) -
      (frontPayloads rs gc (j / gc)).length = j % gc + 1 by omega]
    rw [groupPayloads, List.cons_append, List.getElem?_cons_succ]
    rw [List.getElem?_append, if_pos (by rw [List.length_map]; omega)]
    rw [← List.getD_eq_getElem?_getD, hgetrec]
  · rw [hB', hidx, chunkOffset_append_add, chunkOffset_length_eq, hcl]
    rw [groupPayloads, List.cons_append,
      show (1 + j % gc) = (j % gc) + 1 by omega, chunkOffset_cons,
      groupBlockPayload_length]
    rw [chunkOffset_append_of_le _ _ _ (by rw [List.length_map]; omega)]
    rw [chunkOffset_recList]
    have htk : (groupRecs rs gc (j / gc)).take (j % gc) =
        (rs.drop (j / gc * gc)).take (j % gc) := by
      unfold groupRecs
      rw [List.take_take, min_eq_left (by omega)]
    rw [htk, recOff, blockChunkLen]
    have hsum : sumRecLens (rs.take j) = sumRecLens (rs.take (j / gc * gc)) +
        sumRecLens ((rs.drop (j / gc * gc)).take (j % gc)) := by
      rw [← sumRecLens_take_add]
      congr 2
      omega
    rw [hsum]
    ring

/-! ## Sizes of the final and mid-loop layouts -/

theorem numGroups_pos (n gc : Nat) (hgc : 1 ≤ gc) (hn : 1 ≤ n) :
    1 ≤ numGroups n gc := by
  rw [numGroups_eq n gc hgc hn]
  exact Nat.succ_le_succ (Nat.zero_le _)

theorem pred_mul_add (G gc : Nat) (hG : 1 ≤ G) : G * gc = (G - 1) * gc + gc := by
  cases G with
  | zero => omega
  | succ m => rw [Nat.succ_mul, Nat.succ_sub_one]

theorem lastGroup_length (rs : List Record) (gc : Nat) (hgc : 1 ≤ gc)
    (hn : 1 ≤ rs.length) :
    (groupRecs rs gc (numGroups rs.length gc - 1)).length =
      rs.length - (numGroups rs.length gc - 1) * gc := by
  rw [groupRecs_length]
  have h1 := le_numGroups_mul rs.length gc hgc
  have h2 := pred_mul_add (numGroups rs.length gc) gc
    (numGroups_pos rs.length gc hgc hn)
  omega

theorem finalPayloads_length (rs : List Record) (gc : Nat) (hgc : 1 ≤ gc)
    (hn : 1 ≤ rs.length) :
    (finalPayloads rs gc).length = rs.length + numGroups rs.length gc := by
  have hG := numGroups_pos rs.length gc hgc hn
  have hGsucc : numGroups rs.length gc = (numGroups rs.length gc - 1) + 1 := by omega
  have hfull : ∀ g', g' < numGroups rs.length gc - 1 →
      (groupRecs rs gc g').length = gc :=
    fun g' h' => groupRecs_full rs gc g' hgc (by omega)
  obtain ⟨hl, _⟩ := frontPayloads_facts rs gc hgc (numGroups rs.length gc - 1) hfull
  have hlast := lastGroup_length rs gc hgc hn
  have hmul := mul_lt_of_lt_numGroups (n := rs.length) (g := numGroups rs.length gc - 1)
    hgc (by omega)
  unfold finalPayloads
  rw [hGsucc, frontPayloads_succ, List.length_append, hl, groupPayloads_length, hlast]
  have hexp : (numGroups rs.length gc - 1) * (gc + 1) =
      (numGroups rs.length gc - 1) * gc + (numGroups rs.length gc - 1) := by ring
  omega

theorem chunksFile_finalPayloads_length (rs : List Record) (gc : Nat) (hgc : 1 ≤ gc)
    (hn : 1 ≤ rs.length) :
    (chunksFile (finalPayloads rs gc)).length =
      numGroups rs.length gc * blockChunkLen gc + sumRecLens rs := by
  have hG := numGroups_pos rs.length gc hgc hn
  have hGsucc : numGroups rs.length gc = (numGroups rs.length gc - 1) + 1 := by omega
  have hfull : ∀ g', g' < numGroups rs.length gc - 1 →
      (groupRecs rs gc g').length = gc :=
    fun g' h' => groupRecs_full rs gc g' hgc (by omega)
  obtain ⟨_, hcl⟩ := frontPayloads_facts rs gc hgc (numGroups rs.length gc - 1) hfull
  have hmul := le_numGroups_mul rs.length gc hgc
  unfold finalPayloads
  have hsplit : frontPayloads rs gc (numGroups rs.length gc) =
      frontPayloads rs gc (numGroups rs.length gc - 1) ++
        groupPayloads rs gc (numGroups rs.length gc - 1) := by
    conv_lhs => rw [hGsucc]
    rw [frontPayloads_succ]
  rw [hsplit, chunksFile_append, List.length_append, hcl,
    chunksFile_groupPayloads_length]
  have hpmb := pred_mul_add (numGroups rs.length gc) (blockChunkLen gc) hG
  have hjoin : sumRecLens (rs.take ((numGroups rs.length gc - 1) * gc)) +
      sumRecLens (groupRecs rs gc (numGroups rs.length gc - 1)) = sumRecLens rs := by
    unfold groupRecs
    rw [← sumRecLens_append, ← List.take_add]
    have hpm := pred_mul_add (numGroups rs.length gc) gc hG
    rw [show (numGroups rs.length gc - 1) * gc + gc = numGroups rs.length gc * gc
      from hpm.symm, List.take_of_length_le (by omega)]
  omega

/-- Both the current zero block and its patched form have width `8·gc`,
so `set` keeps every chunk offset. -/
theorem midPayloads_getD_len (rs : List Record) (gc j : Nat) (hgc : 1 ≤ gc)
    (hj1 : 1 ≤ j) (hj : j ≤ rs.length) :
    (zeroBlockPayload gc).length =
      ((finalPayloads (rs.take j) gc).getD (blockIdx gc ((j - 1) / gc)) []).length := by
  have hlen : (rs.take j).length = j := by
    rw [List.length_take]
    omega
  have hg : (j - 1) / gc < numGroups (rs.take j).length gc := by
    rw [hlen, numGroups_eq j gc hgc hj1]
    omega
  obtain ⟨_, hgetd, _⟩ := finalPayloads_block_facts (rs.take j) gc ((j - 1) / gc) hgc hg
  rw [hgetd, zeroBlockPayload_length, groupBlockPayload_length]

theorem chunksFile_midPayloads_length (rs : List Record) (gc j : Nat) (hgc : 1 ≤ gc)
    (hj1 : 1 ≤ j) (hj : j ≤ rs.length) :
    (chunksFile (midPayloads rs gc j)).length =
      numGroups j gc * blockChunkLen gc + sumRecLens (rs.take j) := by
  have hlen : (rs.take j).length = j := by
    rw [List.length_take]; omega
  rw [midPayloads, chunksFile_length, List.length_set,
    chunkOffset_set _ _ _ _ (midPayloads_getD_len rs gc j hgc hj1 hj),
    ← chunksFile_length, chunksFile_finalPayloads_length (rs.take j) gc hgc (by omega),
    hlen]

/-! ## Division helpers and layout transitions -/

theorem getD_of_lt {α : Type} (l : List α) (i : Nat) (d : α) (h : i < l.length) :
    l.getD i d = l[i] := by
  simp [List.getD_eq_getElem?_getD, List.getElem?_eq_getElem h]

theorem setGetDSelf {α : Type} : ∀ (l : List α) (i : Nat) (d : α),
    l.set i (l.getD i d) = l
  | [], _, _ => rfl
  | _ :: _, 0, _ => by simp
  | a :: l, i + 1, d => by
    simp only [List.getD_cons_succ, List.set_cons_succ]
    rw [setGetDSelf l i d]

theorem div_pred_same (j gc : Nat) (hgc : 1 ≤ gc) (hmod : j % gc ≠ 0) :
    (j - 1) / gc = j / gc := by
  have hd := Nat.div_add_mod j gc
  have hmlt : j % gc < gc := Nat.mod_lt _ (by omega)
  have h1 : j - 1 = gc * (j / gc) + (j % gc - 1) := by
    generalize gc * (j / gc) = x at hd ⊢
    omega
  rw [h1, Nat.mul_add_div (by omega),
    Nat.div_eq_of_lt (show j % gc - 1 < gc by omega), Nat.add_zero]

theorem mod_zero_div_ge (j gc : Nat) (hgc : 1 ≤ gc) (hj1 : 1 ≤ j)
    (hmod : j % gc = 0) : gc ≤ j := by
  by_contra hlt
  push_neg at hlt
  rw [Nat.mod_eq_of_lt hlt] at hmod
  omega

theorem mod_zero_div_mul (j gc : Nat) (hgc : 1 ≤ gc) (hmod : j % gc = 0) :
    j / gc * gc = j := by
  have hd := Nat.div_add_mod j gc
  rw [Nat.mul_comm]
  generalize gc * (j / gc) = x at hd ⊢
  omega

theorem div_pred_boundary (j gc : Nat) (hgc : 1 ≤ gc) (hj1 : 1 ≤ j)
    (hmod : j % gc = 0) : (j - 1) / gc = j / gc - 1 := by
  have hd := Nat.div_add_mod j gc
  have hq1 : 1 ≤ j / gc :=
    Nat.div_pos (mod_zero_div_ge j gc hgc hj1 hmod) (by omega)
  have hqm : gc * (j / gc) = gc * (j / gc - 1) + gc := by
    have hp := pred_mul_add (j / gc) gc hq1
    rw [Nat.mul_comm gc (j / gc), hp, Nat.mul_comm (j / gc - 1) gc]
  have h1 : j - 1 = gc * (j / gc - 1) + (gc - 1) := by
    generalize gc * (j / gc) = x at hd hqm
    generalize gc * (j / gc - 1) = y at hqm ⊢
    omega
  rw [h1, Nat.mul_add_div (by omega),
    Nat.div_eq_of_lt (show gc - 1 < gc by omega), Nat.add_zero]

theorem take_one_eq (rs : List Record) (hn : 1 ≤ rs.length) :
    rs.take 1 = [rs.getD 0 default] := by
  have h0 : 0 < rs.length := hn
  rw [show (1 : Nat) = 0 + 1 from rfl, List.take_succ, List.take_zero,
    List.getElem?_eq_getElem h0, getD_of_lt rs 0 default h0]
  rfl

theorem padTo_zero_set (gc : Nat) (hgc : 1 ≤ gc) (v : Nat) :
    (List.replicate gc 0).set 0 v = padTo gc [v] := by
  cases gc with
  | zero => omega
  | succ m =>
    rw [List.replicate_succ, List.set_cons_zero, padTo]
    simp

theorem padTo_set (gc : Nat) (l : List Nat) (h : l.length < gc) (v : Nat) :
    (padTo gc l).set l.length v = padTo gc (l ++ [v]) := by
  unfold padTo
  rw [List.set_append_right _ _ (le_refl l.length), Nat.sub_self]
  have hrep : gc - l.length = (gc - (l.length + 1)) + 1 := by omega
  rw [hrep, List.replicate_succ, List.set_cons_zero]
  simp [List.append_assoc]

/-- After the very first record the disk holds the zero block and that
record. -/
theorem midPayloads_one (rs : List Record) (gc : Nat) (hgc : 1 ≤ gc)
    (hn : 1 ≤ rs.length) :
    midPayloads rs gc 1 =
      [zeroBlockPayload gc, Record.serialize (rs.getD 0 default)] := by
  have hlen : (rs.take 1).length = 1 := by
    rw [List.length_take]; omega
  have hng : numGroups (rs.take 1).length gc = 1 := by
    rw [hlen, numGroups_eq 1 gc hgc (le_refl 1), Nat.sub_self, Nat.zero_div]
  unfold midPayloads finalPayloads
  rw [hng, show (1 : Nat) = 0 + 1 from rfl, frontPayloads_succ, frontPayloads_zero,
    List.nil_append]
  have hgr : groupRecs (rs.take 1) gc 0 = [rs.getD 0 default] := by
    unfold groupRecs
    rw [Nat.zero_mul, List.drop_zero, List.take_take, min_eq_right (by omega),
      take_one_eq rs hn]
  rw [groupPayloads, hgr, Nat.sub_self, Nat.zero_div, blockIdx, Nat.zero_mul,
    List.set_cons_zero]
  rfl

/-- Appending a record that stays in the current group extends the disk
by exactly that record's chunk. -/
theorem midPayloads_same_group (rs : List Record) (gc j : Nat) (hgc : 1 ≤ gc)
    (hj1 : 1 ≤ j) (hj : j < rs.length) (hmod : j % gc ≠ 0) :
    midPayloads rs gc (j + 1) =
      midPayloads rs gc j ++ [Record.serialize (rs.getD j default)] := by
  have hd := Nat.div_add_mod j gc
  have hcomm : j / gc * gc = gc * (j / gc) := Nat.mul_comm _ _
  have hmlt : j % gc < gc := Nat.mod_lt _ (by omega)
  have hg1 : (j - 1) / gc = j / gc := div_pred_same j gc hgc hmod
  have hg2 : (j + 1 - 1) / gc = j / gc := by rw [Nat.add_sub_cancel]
  have hn : 1 ≤ rs.length := by omega
  have hgn : j / gc < numGroups rs.length gc := by
    rw [numGroups_eq rs.length gc hgc hn]
    have := Nat.div_le_div_right (c := gc) (show j ≤ rs.length - 1 by omega)
    omega
  have hfull : ∀ g', g' < j / gc → (groupRecs rs gc g').length = gc :=
    fun g' h' => groupRecs_full rs gc g' hgc (by omega)
  obtain ⟨hfl, _⟩ := frontPayloads_facts rs gc hgc (j / gc) hfull
  have hmul : j / gc * gc ≤ j := by omega
  -- the two truncated layouts share their leading full groups
  have hngj : numGroups (rs.take j).length gc = j / gc + 1 := by
    rw [List.length_take, min_eq_left (by omega), numGroups_eq j gc hgc (by omega), hg1]
  have hngj1 : numGroups (rs.take (j + 1)).length gc = j / gc + 1 := by
    rw [List.length_take, min_eq_left (by omega), numGroups_eq (j + 1) gc hgc (by omega),
      Nat.add_sub_cancel]
  have hfrj : frontPayloads (rs.take j) gc (j / gc) = frontPayloads rs gc (j / gc) :=
    frontPayloads_take rs gc j (j / gc) hmul
  have hfrj1 : frontPayloads (rs.take (j + 1)) gc (j / gc) =
      frontPayloads rs gc (j / gc) :=
    frontPayloads_take rs gc (j + 1) (j / gc) (by omega)
  have hgrj : groupRecs (rs.take j) gc (j / gc) =
      (rs.drop (j / gc * gc)).take (j - j / gc * gc) :=
    groupRecs_take_partial rs gc (j / gc) j hmul (by omega)
  have hgrj1 : groupRecs (rs.take (j + 1)) gc (j / gc) =
      (rs.drop (j / gc * gc)).take (j + 1 - j / gc * gc) :=
    groupRecs_take_partial rs gc (j / gc) (j + 1) (by omega) (by omega)
  have hdroplen : j - j / gc * gc < (rs.drop (j / gc * gc)).length := by
    rw [List.length_drop]
    omega
  have hsucc : (rs.drop (j / gc * gc)).take (j + 1 - j / gc * gc) =
      (rs.drop (j / gc * gc)).take (j - j / gc * gc) ++ [rs.getD j default] := by
    rw [show j + 1 - j / gc * gc = (j - j / gc * gc) + 1 by omega, List.take_succ,
      List.getElem?_eq_getElem hdroplen]
    congr 1
    rw [List.getElem_drop, getD_of_lt rs j default hj]
    have hix : j / gc * gc + (j - j / gc * gc) = j := by omega
    simp only [Option.toList_some]
    simp only [hix]
  unfold midPayloads finalPayloads
  rw [hg1, hg2, hngj, hngj1, frontPayloads_succ, frontPayloads_succ, hfrj, hfrj1]
  rw [groupPayloads, groupPayloads, hgrj, hgrj1, hsucc]
  have hbi : blockIdx gc (j / gc) = (frontPayloads rs gc (j / gc)).length := by
    rw [hfl, blockIdx]
  rw [hbi, List.set_append_right _ _ (le_refl _), Nat.sub_self,
    List.set_append_right _ _ (le_refl _), Nat.sub_self]
  rw [List.set_cons_zero, List.set_cons_zero, List.map_append]
  simp [List.append_assoc]

/-- The first record of a fresh group adds a zero block and the record
after the (now patched) previous groups. -/
theorem midPayloads_new_group (rs : List Record) (gc j : Nat) (hgc : 1 ≤ gc)
    (hj1 : 1 ≤ j) (hj : j < rs.length) (hmod : j % gc = 0) :
    midPayloads rs gc (j + 1) =
      finalPayloads (rs.take j) gc ++
        [zeroBlockPayload gc, Record.serialize (rs.getD j default)] := by
  have hd := Nat.div_add_mod j gc
  have hg2 : (j + 1 - 1) / gc = j / gc := by rw [Nat.add_sub_cancel]
  have hq1 : 1 ≤ j / gc :=
    Nat.div_pos (mod_zero_div_ge j gc hgc hj1 hmod) (by omega)
  have hqgc : j / gc * gc = j := mod_zero_div_mul j gc hgc hmod
  have hn : 1 ≤ rs.length := by omega
  have hgn : j / gc < numGroups rs.length gc := by
    rw [numGroups_eq rs.length gc hgc hn]
    have := Nat.div_le_div_right (c := gc) (show j ≤ rs.length - 1 by omega)
    omega
  have hfull : ∀ g', g' < j / gc → (groupRecs rs gc g').length = gc :=
    fun g' h' => groupRecs_full rs gc g' hgc (by omega)
  obtain ⟨hfl, _⟩ := frontPayloads_facts rs gc hgc (j / gc) hfull
  have hngj : numGroups (rs.take j).length gc = j / gc := by
    rw [List.length_take, min_eq_left (by omega), numGroups_eq j gc hgc (by omega),
      div_pred_boundary j gc hgc hj1 hmod]
    omega
  have hngj1 : numGroups (rs.take (j + 1)).length gc = j / gc + 1 := by
    rw [List.length_take, min_eq_left (by omega), numGroups_eq (j + 1) gc hgc (by omega),
      Nat.add_sub_cancel]
  have hfrj : frontPayloads (rs.take j) gc (j / gc) = frontPayloads rs gc (j / gc) :=
    frontPayloads_take rs gc j (j / gc) (by omega)
  have hfrj1 : frontPayloads (rs.take (j + 1)) gc (j / gc) =
      frontPayloads rs gc (j / gc) :=
    frontPayloads_take rs gc (j + 1) (j / gc) (by omega)
  have hgrj1 : groupRecs (rs.take (j + 1)) gc (j / gc) =
      (rs.drop (j / gc * gc)).take (j + 1 - j / gc * gc) :=
    groupRecs_take_partial rs gc (j / gc) (j + 1) (by omega) (by omega)
  have hone : (rs.drop (j / gc * gc)).take (j + 1 - j / gc * gc) =
      [rs.getD j default] := by
    rw [hqgc, show j + 1 - j = 1 by omega]
    have hdl : 1 ≤ (rs.drop j).length := by
      rw [List.length_drop]; omega
    rw [take_one_eq (rs.drop j) hdl]
    congr 1
    have h0 : 0 < (rs.drop j).length := hdl
    rw [getD_of_lt _ 0 default h0, List.getElem_drop, getD_of_lt rs j default hj]
    congr 1
  unfold midPayloads finalPayloads
  rw [hg2, hngj, hngj1, frontPayloads_succ, hfrj1, hfrj]
  rw [groupPayloads, hgrj1, hone]
  have hbi : blockIdx gc (j / gc) = (frontPayloads rs gc (j / gc)).length := by
    rw [hfl, blockIdx]
  rw [hbi, List.set_append_right _ _ (le_refl _), Nat.sub_self, List.set_cons_zero]
  rfl

/-- Patching the zero block turns the mid-loop disk into the finished
layout of the records so far. -/
theorem midPayloads_patch (rs : List Record) (gc j : Nat) (hgc : 1 ≤ gc)
    (hj1 : 1 ≤ j) (hj : j ≤ rs.length) :
    (midPayloads rs gc j).set (blockIdx gc ((j - 1) / gc))
      (groupBlockPayload (rs.take j) gc ((j - 1) / gc)) =
      finalPayloads (rs.take j) gc := by
  unfold midPayloads
  rw [List.set_set]
  have hlen : (rs.take j).length = j := by
    rw [List.length_take]; omega
  have hg : (j - 1) / gc < numGroups (rs.take j).length gc := by
    rw [hlen, numGroups_eq j gc hgc hj1]
    omega
  obtain ⟨_, hgetd, _⟩ := finalPayloads_block_facts (rs.take j) gc ((j - 1) / gc) hgc hg
  rw [← hgetd, setGetDSelf]

/-! ## The loop invariant of `SSTable::new` -/

theorem filePre20_length : filePre20.length = 20 := by decide

theorem getD_set_self {α : Type} (l : List α) (i : Nat) (v d : α)
    (h : i < l.length) : (l.set i v).getD i d = v := by
  rw [getD_of_lt _ _ _ (by simpa using h)]
  exact List.getElem_set_self _

theorem take_succ_getD (rs : List Record) (j : Nat) (hj : j < rs.length) :
    rs.take (j + 1) = rs.take j ++ [rs.getD j default] := by
  rw [List.take_succ, List.getElem?_eq_getElem hj, getD_of_lt rs j default hj]
  rfl

theorem maxCreated_take_succ (rs : List Record) (j : Nat) (hj : j < rs.length) :
    maxCreated (rs.take (j + 1)) =
      max (maxCreated (rs.take j)) (rs.getD j default).created := by
  rw [take_succ_getD rs j hj, maxCreated, List.map_append, List.foldl_append]
  rfl

/-- The in-memory group-index buffer serialises to the patched block
payload of the current group. -/
theorem gidx_eq_blockPayload (rs : List Record) (gc j : Nat) (hgc : 1 ≤ gc)
    (hj1 : 1 ≤ j) (hj : j ≤ rs.length) :
    serialize_u64_exact (padTo gc ((List.range (j - ((j - 1) / gc) * gc)).map
      (fun i => recOff rs gc (((j - 1) / gc) * gc + i)))) =
      groupBlockPayload (rs.take j) gc ((j - 1) / gc) := by
  have hgle : (j - 1) / gc * gc ≤ j - 1 := Nat.div_mul_le_self _ _
  have hmlt : (j - 1) % gc < gc := Nat.mod_lt _ (by omega)
  have hdm := Nat.div_add_mod (j - 1) gc
  have hcomm : (j - 1) / gc * gc = gc * ((j - 1) / gc) := Nat.mul_comm _ _
  have hsub : j - (j - 1) / gc * gc ≤ gc := by omega
  have hpart := groupRecs_take_partial rs gc ((j - 1) / gc) j (by omega) hsub
  have hplen : (groupRecs (rs.take j) gc ((j - 1) / gc)).length =
      j - (j - 1) / gc * gc := by
    rw [hpart, List.length_take, List.length_drop]
    omega
  unfold groupBlockPayload groupOffs
  rw [hplen]
  congr 2
  apply List.map_congr_left
  intro i hi
  rw [List.mem_range] at hi
  exact (recOff_take rs gc j _ (by omega)).symm

/-- Processing the very first record establishes the loop invariant. -/
theorem buildBody_first (rs : List Record) (gc : Nat) (hgc : 1 ≤ gc)
    (hn : 1 ≤ rs.length) :
    BuildInv rs gc 1 (buildBody gc (rs.getD 0 default) (initState gc)) := by
  have hbody : buildBody gc (rs.getD 0 default) (initState gc) =
      { rf := { file := filePre20 ++ chunk (zeroBlockPayload gc) ++
                  chunk (Record.serialize (rs.getD 0 default)),
                record_count := 2 % 2 ^ 32, header_len := 8,
                last_record := (filePre20 ++ chunk (zeroBlockPayload gc)).length }
        info := { record_count := 1, group_count := gc,
                  indices := [(filePre20 ++ chunk (zeroBlockPayload gc)).length],
                  smallest_key := (rs.getD 0 default).get_key,
                  largest_key := [],
                  oldest_ts := (rs.getD 0 default).get_created }
        group_indices := (List.replicate gc 0).set 0
          ((filePre20 ++ chunk (zeroBlockPayload gc)).length)
        cur_group_indices_offset := filePre20.length
        cur_key := (rs.getD 0 default).get_key
        cur_ts := (rs.getD 0 default).get_created } := by
    unfold buildBody initState
    simp only [RecordFile.append, Nat.zero_mod, reduceIte]
    simp [chunk, zeroBlockPayload, List.append_assoc]
  have hloc : (filePre20 ++ chunk (zeroBlockPayload gc)).length = recOff rs gc 0 := by
    rw [List.length_append, filePre20_length, chunk_length, zeroBlockPayload_length,
      recOff, Nat.zero_div, List.take_zero]
    show 20 + (4 + 8 * gc) = 20 + 1 * blockChunkLen gc + sumRecLens []
    rw [Nat.one_mul, blockChunkLen]
    rfl
  rw [hbody]
  constructor
  · -- file
    show filePre20 ++ chunk (zeroBlockPayload gc) ++
        chunk (Record.serialize (rs.getD 0 default)) =
      filePre20 ++ chunksFile (midPayloads rs gc 1)
    rw [midPayloads_one rs gc hgc hn]
    simp [chunksFile, List.append_assoc]
  · rfl
  · rfl
  · -- indices
    show [(filePre20 ++ chunk (zeroBlockPayload gc)).length] =
      (List.range ((1 - 1) / gc + 1)).map (fun g => recOff rs gc (g * gc))
    rw [hloc, Nat.sub_self, Nat.zero_div]
    rw [show List.range (0 + 1) = [0] from rfl, List.map_cons, List.map_nil,
      Nat.zero_mul]
  · rfl
  · rfl
  · -- oldest_ts
    show (rs.getD 0 default).get_created = maxCreated (rs.take 1)
    rw [take_one_eq rs hn, maxCreated]
    show (rs.getD 0 default).get_created = max 0 (rs.getD 0 default).created
    rw [Nat.max_comm, Nat.max_zero]
    rfl
  · -- group_indices
    show (List.replicate gc 0).set 0 ((filePre20 ++ chunk (zeroBlockPayload gc)).length) =
      padTo gc ((List.range (1 - (1 - 1) / gc * gc)).map
        (fun i => recOff rs gc ((1 - 1) / gc * gc + i)))
    rw [hloc, padTo_zero_set gc hgc, Nat.sub_self, Nat.zero_div, Nat.zero_mul]
    rfl
  · -- cur_group_indices_offset
    show filePre20.length = blockOff rs gc ((1 - 1) / gc)
    rw [filePre20_length, Nat.sub_self, Nat.zero_div]
    simp [blockOff, sumRecLens]
  · rfl

/-- Each later loop iteration preserves the invariant. -/
theorem buildBody_step (rs : List Record) (gc j : Nat) (hgc : 1 ≤ gc)
    (hj1 : 1 ≤ j) (hj : j < rs.length) (st : BuildState)
    (hinv : BuildInv rs gc j st) :
    BuildInv rs gc (j + 1) (buildBody gc (rs.getD j default) st) := by
  obtain ⟨hfile, hrc, hgcf, hidx, hsm, hlg, hts, hgi, hgio, hck⟩ := hinv
  have hn : 1 ≤ rs.length := by omega
  have hd := Nat.div_add_mod j gc
  have hcomm : j / gc * gc = gc * (j / gc) := Nat.mul_comm _ _
  have hmlt : j % gc < gc := Nat.mod_lt _ (by omega)
  have h0 : ¬ st.info.record_count = 0 := by rw [hrc]; omega
  have hg2 : (j + 1 - 1) / gc = j / gc := by rw [Nat.add_sub_cancel]
  by_cases hmod : j % gc = 0
  case neg =>
    -- the record lands in the current group
    have hg1 : (j - 1) / gc = j / gc := div_pred_same j gc hgc hmod
    have hm : ¬ st.info.record_count % gc = 0 := by rw [hrc]; exact hmod
    have hbody : buildBody gc (rs.getD j default) st =
        { rf := ⟨st.rf.file ++ chunk (Record.serialize (rs.getD j default)),
                 (st.rf.record_count + 1) % 2 ^ 32, st.rf.header_len,
                 st.rf.file.length⟩
          info := { record_count := st.info.record_count + 1
                    group_count := st.info.group_count
                    indices := st.info.indices
                    smallest_key := st.info.smallest_key
                    largest_key := st.info.largest_key
                    oldest_ts :=
                      if (rs.getD j default).get_created > st.info.oldest_ts
                      then (rs.getD j default).get_created
                      else st.info.oldest_ts }
          group_indices := st.group_indices.set (st.info.record_count % gc)
            st.rf.file.length
          cur_group_indices_offset := st.cur_group_indices_offset
          cur_key := (rs.getD j default).get_key
          cur_ts := (rs.getD j default).get_created } := by
      unfold buildBody
      simp only [if_neg h0, if_neg hm, RecordFile.append, chunk, List.append_assoc]
    have hnum : numGroups j gc = j / gc + 1 := by
      rw [numGroups_eq j gc hgc hj1, hg1]
    have hflen : st.rf.file.length = recOff rs gc j := by
      rw [hfile, List.length_append, filePre20_length,
        chunksFile_midPayloads_length rs gc j hgc hj1 (by omega), hnum, recOff]
      omega
    rw [hbody]
    constructor
    · -- file
      show st.rf.file ++ chunk (Record.serialize (rs.getD j default)) =
        filePre20 ++ chunksFile (midPayloads rs gc (j + 1))
      rw [midPayloads_same_group rs gc j hgc hj1 hj hmod, hfile, chunksFile_append]
      simp [chunksFile, List.append_assoc]
    · show st.info.record_count + 1 = j + 1
      omega
    · exact hgcf
    · show st.info.indices = _
      rw [hidx, hg2, hg1]
    · exact hsm
    · exact hlg
    · -- oldest_ts
      show (if (rs.getD j default).get_created > st.info.oldest_ts
        then (rs.getD j default).get_created else st.info.oldest_ts) =
        maxCreated (rs.take (j + 1))
      rw [hts, maxCreated_take_succ rs j hj]
      simp only [Record.get_created, gt_iff_lt]
      rcases Nat.lt_or_ge (maxCreated (rs.take j)) (rs.getD j default).created with hc | hc
      · rw [if_pos hc, Nat.max_eq_right (Nat.le_of_lt hc)]
      · rw [if_neg (by exact Nat.not_lt.mpr hc), Nat.max_eq_left hc]
    · -- group_indices
      show st.group_indices.set (st.info.record_count % gc) st.rf.file.length = _
      rw [hrc, hflen, hgi, hg2, hg1]
      have hlen1 : ((List.range (j - j / gc * gc)).map
          (fun i => recOff rs gc (j / gc * gc + i))).length = j % gc := by
        rw [List.length_map, List.length_range]
        omega
      have hset := padTo_set gc ((List.range (j - j / gc * gc)).map
          (fun i => recOff rs gc (j / gc * gc + i))) (by rw [hlen1]; omega)
          (recOff rs gc j)
      rw [hlen1] at hset
      rw [hset]
      congr 1
      rw [show j + 1 - j / gc * gc = (j - j / gc * gc) + 1 by omega,
        List.range_succ, List.map_append]
      congr 1
      rw [List.map_cons, List.map_nil]
      congr 2
      omega
    · show st.cur_group_indices_offset = _
      rw [hgio, hg2, hg1]
    · show (rs.getD j default).get_key = (rs.getD (j + 1 - 1) default).key
      rw [Nat.add_sub_cancel]
      rfl
  case pos =>
    -- group boundary: patch the previous block, start a fresh one
    have hq1 : 1 ≤ j / gc :=
      Nat.div_pos (mod_zero_div_ge j gc hgc hj1 hmod) (by omega)
    have hqgc : j / gc * gc = j := mod_zero_div_mul j gc hgc hmod
    have hg1 : (j - 1) / gc = j / gc - 1 := div_pred_boundary j gc hgc hj1 hmod
    have hm : st.info.record_count % gc = 0 := by rw [hrc]; exact hmod
    have hbody : buildBody gc (rs.getD j default) st =
        { rf := ⟨(st.rf.write_at st.cur_group_indices_offset
                    (serialize_u64_exact st.group_indices)).file ++
                  chunk (zeroBlockPayload gc) ++
                  chunk (Record.serialize (rs.getD j default)),
                 ((st.rf.record_count + 1) % 2 ^ 32 + 1) % 2 ^ 32, st.rf.header_len,
                 ((st.rf.write_at st.cur_group_indices_offset
                    (serialize_u64_exact st.group_indices)).file ++
                  chunk (zeroBlockPayload gc)).length⟩
          info := { record_count := st.info.record_count + 1
                    group_count := st.info.group_count
                    indices := st.info.indices ++
                      [((st.rf.write_at st.cur_group_indices_offset
                          (serialize_u64_exact st.group_indices)).file ++
                        chunk (zeroBlockPayload gc)).length]
                    smallest_key := st.info.smallest_key
                    largest_key := st.info.largest_key
                    oldest_ts :=
                      if (rs.getD j default).get_created > st.info.oldest_ts
                      then (rs.getD j default).get_created
                      else st.info.oldest_ts }
          group_indices := (List.replicate gc 0).set 0
            ((st.rf.write_at st.cur_group_indices_offset
                (serialize_u64_exact st.group_indices)).file ++
              chunk (zeroBlockPayload gc)).length
          cur_group_indices_offset :=
            (st.rf.write_at st.cur_group_indices_offset
                (serialize_u64_exact st.group_indices)).file.length
          cur_key := (rs.getD j default).get_key
          cur_ts := (rs.getD j default).get_created } := by
      unfold buildBody
      simp only [if_neg h0, if_pos hm, RecordFile.append, RecordFile.write_at,
        chunk, zeroBlockPayload, List.append_assoc]
      simp [List.append_assoc, hm]
    -- the patch turns the zero block into its final content
    have hlen1 : (rs.take j).length = j := by
      rw [List.length_take]; omega
    have hgJ : (j - 1) / gc < numGroups (rs.take j).length gc := by
      rw [hlen1, numGroups_eq j gc hgc hj1]
      omega
    obtain ⟨hbl, hbgetd, hboff⟩ :=
      finalPayloads_block_facts (rs.take j) gc ((j - 1) / gc) hgc hgJ
    have hmidlen : blockIdx gc ((j - 1) / gc) < (midPayloads rs gc j).length := by
      rw [midPayloads, List.length_set]
      exact hbl
    have hmgetd : (midPayloads rs gc j).getD (blockIdx gc ((j - 1) / gc)) [] =
        zeroBlockPayload gc := by
      rw [midPayloads]
      exact getD_set_self _ _ _ _ hbl
    have hser : serialize_u64_exact st.group_indices =
        groupBlockPayload (rs.take j) gc ((j - 1) / gc) := by
      rw [hgi]
      exact gidx_eq_blockPayload rs gc j hgc hj1 (by omega)
    have hofq : st.cur_group_indices_offset =
        filePre20.length + chunkOffset (midPayloads rs gc j)
          (blockIdx gc ((j - 1) / gc)) := by
      rw [hgio, filePre20_length, midPayloads,
        chunkOffset_set _ _ _ _ (midPayloads_getD_len rs gc j hgc hj1 (by omega))]
      have hbo : blockOff (rs.take j) gc ((j - 1) / gc) = blockOff rs gc ((j - 1) / gc) :=
        blockOff_take rs gc j ((j - 1) / gc)
          (by
            have := Nat.div_mul_le_self (j - 1) gc
            omega)
      omega
    have hwrite : st.rf.write_at st.cur_group_indices_offset
        (serialize_u64_exact st.group_indices) =
        { st.rf with file := filePre20 ++ chunksFile (finalPayloads (rs.take j) gc) } := by
      rw [hofq, hser]
      rw [write_at_chunksFile st.rf filePre20 (midPayloads rs gc j) _ _ hfile hmidlen
        (by rw [hmgetd, groupBlockPayload_length, zeroBlockPayload_length])]
      rw [midPayloads_patch rs gc j hgc hj1 (by omega)]
    have hpatchlen : (filePre20 ++ chunksFile (finalPayloads (rs.take j) gc)).length =
        blockOff rs gc (j / gc) := by
      rw [List.length_append, filePre20_length,
        chunksFile_finalPayloads_length (rs.take j) gc hgc (by omega), hlen1,
        numGroups_eq j gc hgc hj1, hg1, blockOff]
      have hpm : (j / gc - 1 + 1) = j / gc := by omega
      rw [hpm, show j / gc * gc = j from hqgc]
      omega
    have hloc2 : (filePre20 ++ chunksFile (finalPayloads (rs.take j) gc) ++
        chunk (zeroBlockPayload gc)).length = recOff rs gc j := by
      rw [List.length_append, hpatchlen, chunk_length, zeroBlockPayload_length,
        recOff, blockOff, hqgc, blockChunkLen]
      have hpm2 : (j / gc + 1) * (4 + 8 * gc) = j / gc * (4 + 8 * gc) + (4 + 8 * gc) := by
        ring
      omega
    rw [hbody, hwrite]
    constructor
    · -- file
      show filePre20 ++ chunksFile (finalPayloads (rs.take j) gc) ++
          chunk (zeroBlockPayload gc) ++ chunk (Record.serialize (rs.getD j default)) =
        filePre20 ++ chunksFile (midPayloads rs gc (j + 1))
      rw [midPayloads_new_group rs gc j hgc hj1 hj hmod, chunksFile_append]
      simp [chunksFile, List.append_assoc]
    · show st.info.record_count + 1 = j + 1
      omega
    · exact hgcf
    · -- indices
      show st.info.indices ++ [_] = _
      rw [hidx, hg2, hg1, hloc2]
      rw [show j / gc - 1 + 1 = j / gc by omega,
        show j / gc + 1 = (j / gc) + 1 from rfl, List.range_succ, List.map_append]
      congr 1
      rw [List.map_cons, List.map_nil]
      congr 2
      rw [hqgc]
    · exact hsm
    · exact hlg
    · -- oldest_ts
      show (if (rs.getD j default).get_created > st.info.oldest_ts
        then (rs.getD j default).get_created else st.info.oldest_ts) =
        maxCreated (rs.take (j + 1))
      rw [hts, maxCreated_take_succ rs j hj]
      simp only [Record.get_created, gt_iff_lt]
      rcases Nat.lt_or_ge (maxCreated (rs.take j)) (rs.getD j default).created with hc | hc
      · rw [if_pos hc, Nat.max_eq_right (Nat.le_of_lt hc)]
      · rw [if_neg (by exact Nat.not_lt.mpr hc), Nat.max_eq_left hc]
    · -- group_indices
      show (List.replicate gc 0).set 0 _ = _
      rw [hloc2, padTo_zero_set gc hgc, hg2]
      congr 1
      rw [show j + 1 - j / gc * gc = 1 by omega,
        show List.range 1 = [0] from rfl, List.map_cons, List.map_nil]
      congr 2
      rw [hqgc]
      omega
    · -- cur_group_indices_offset
      show (filePre20 ++ chunksFile (finalPayloads (rs.take j) gc)).length =
        blockOff rs gc ((j + 1 - 1) / gc)
      rw [hpatchlen, hg2]
    · show (rs.getD j default).get_key = (rs.getD (j + 1 - 1) default).key
      rw [Nat.add_sub_cancel]
      rfl

/-! ## Running the loop -/

/-- Adjacent keys of a strictly ascending stream compare `gt` in file
order. -/
theorem sorted_adjacent (rs : List Record)
    (hsort : (rs.map Record.get_key).Chain' bytesLt) (j : Nat) (hj1 : 1 ≤ j)
    (hj : j < rs.length) :
    compareBytes (rs.getD j default).get_key (rs.getD (j - 1) default).get_key =
      Ordering.gt := by
  have hlt := List.chain'_iff_get.mp hsort (j - 1)
    (by rw [List.length_map]; omega)
  have h1 : (rs.map Record.get_key).get ⟨j - 1, by rw [List.length_map]; omega⟩ =
      (rs.getD (j - 1) default).get_key := by
    rw [getD_of_lt rs (j - 1) default (by omega)]
    simp [Record.get_key]
  have h2 : (rs.map Record.get_key).get ⟨j - 1 + 1, by rw [List.length_map]; omega⟩ =
      (rs.getD j default).get_key := by
    rw [getD_of_lt rs j default hj]
    simp [Record.get_key, show j - 1 + 1 = j by omega]
  rw [h1, h2] at hlt
  rw [compareBytes_swap]
  exact hlt

/-- Running the rest of the loop with `count = None` from an invariant
state lands in the invariant at the end of the stream. -/
theorem buildLoop_none_ok (rs : List Record) (gc : Nat) (hgc : 1 ≤ gc)
    (hsort : (rs.map Record.get_key).Chain' bytesLt) :
    ∀ t j st, rs.length - j = t → 1 ≤ j → j ≤ rs.length → BuildInv rs gc j st →
      ∃ st', buildLoop gc none (rs.drop j) st = Outcome.ok st' ∧
        BuildInv rs gc rs.length st' := by
  intro t
  induction t with
  | zero =>
    intro j st ht hj1 hj hinv
    have hjn : j = rs.length := by omega
    subst hjn
    rw [List.drop_of_length_le (le_refl _)]
    exact ⟨st, rfl, hinv⟩
  | succ t ih =>
    intro j st ht hj1 hj hinv
    have hjlt : j < rs.length := by omega
    have hdrop : rs.drop j = rs.getD j default :: rs.drop (j + 1) := by
      rw [List.drop_eq_getElem_cons hjlt, getD_of_lt rs j default hjlt]
    rw [hdrop]
    rw [buildLoop]
    have hcmp : compareBytes (rs.getD j default).get_key st.cur_key =
        Ordering.gt := by
      rw [hinv.ckey]
      exact sorted_adjacent rs hsort j hj1 hjlt
    rw [if_neg (by
      rintro ⟨_, hne⟩
      exact hne hcmp)]
    have hstep := buildBody_step rs gc j hgc hj1 hjlt st hinv
    exact ih (j + 1) (buildBody gc (rs.getD j default) st) (by omega) (by omega)
      (by omega) hstep

/-- Running the loop with a `Some` limit stops right after the first
record (the source's reversed limit check). -/
theorem buildLoop_some_stops (rs : List Record) (gc c : Nat) (hgc : 1 ≤ gc)
    (hc : 1 ≤ c) (hn : 1 ≤ rs.length) :
    buildLoop gc (some c) rs (initState gc) =
      Outcome.ok (buildBody gc (rs.getD 0 default) (initState gc)) := by
  have hdrop : rs = rs.getD 0 default :: rs.drop 1 := by
    cases rs with
    | nil => simp at hn
    | cons r rest => rfl
  conv_lhs => rw [hdrop]
  rw [buildLoop]
  rw [if_neg (by
    rintro ⟨h0, _⟩
    exact h0 rfl)]
  have hrc : (buildBody gc (rs.getD 0 default) (initState gc)).info.record_count = 1 :=
    (buildBody_first rs gc hgc hn).info_rc
  show (if c ≥ (buildBody gc (rs.getD 0 default) (initState gc)).info.record_count
    then Outcome.ok (buildBody gc (rs.getD 0 default) (initState gc))
    else buildLoop gc (some c) (rs.drop 1)
      (buildBody gc (rs.getD 0 default) (initState gc))) =
    Outcome.ok (buildBody gc (rs.getD 0 default) (initState gc))
  rw [hrc, if_pos hc]

/-- The post-loop patch and footer append, described by the invariant. -/
theorem buildFinish_eq (rs : List Record) (gc : Nat) (hgc : 1 ≤ gc)
    (hn : 1 ≤ rs.length) (st : BuildState)
    (hinv : BuildInv rs gc rs.length st) :
    ∃ rf : RecordFile, buildFinish st = { rec_file := rf, info := infoSpec rs gc } ∧
      rf.file = builtFile rs gc := by
  obtain ⟨hfile, hrc, hgcf, hidx, hsm, hlg, hts, hgi, hgio, hck⟩ := hinv
  set n := rs.length with hneq
  have htk : rs.take n = rs := List.take_of_length_le (le_refl _)
  -- the patch
  have hgJ : (n - 1) / gc < numGroups (rs.take n).length gc := by
    rw [htk, numGroups_eq n gc hgc hn]
    omega
  obtain ⟨hbl, hbgetd, hboff⟩ :=
    finalPayloads_block_facts (rs.take n) gc ((n - 1) / gc) hgc hgJ
  have hmidlen : blockIdx gc ((n - 1) / gc) < (midPayloads rs gc n).length := by
    rw [midPayloads, List.length_set]
    exact hbl
  have hmgetd : (midPayloads rs gc n).getD (blockIdx gc ((n - 1) / gc)) [] =
      zeroBlockPayload gc := by
    rw [midPayloads]
    exact getD_set_self _ _ _ _ hbl
  have hser : serialize_u64_exact st.group_indices =
      groupBlockPayload (rs.take n) gc ((n - 1) / gc) := by
    rw [hgi]
    exact gidx_eq_blockPayload rs gc n hgc hn (le_refl _)
  have hofq : st.cur_group_indices_offset =
      filePre20.length + chunkOffset (midPayloads rs gc n)
        (blockIdx gc ((n - 1) / gc)) := by
    rw [hgio, filePre20_length, midPayloads,
      chunkOffset_set _ _ _ _ (midPayloads_getD_len rs gc n hgc hn (le_refl _))]
    have hbo : blockOff (rs.take n) gc ((n - 1) / gc) = blockOff rs gc ((n - 1) / gc) :=
      blockOff_take rs gc n ((n - 1) / gc)
        (by
          have := Nat.div_mul_le_self (n - 1) gc
          omega)
    omega
  have hwrite : st.rf.write_at st.cur_group_indices_offset
      (serialize_u64_exact st.group_indices) =
      { st.rf with file := filePre20 ++ chunksFile (finalPayloads rs gc) } := by
    rw [hofq, hser]
    rw [write_at_chunksFile st.rf filePre20 (midPayloads rs gc n) _ _ hfile hmidlen
      (by rw [hmgetd, groupBlockPayload_length, zeroBlockPayload_length])]
    rw [midPayloads_patch rs gc n hgc hn (le_refl _), htk]
  -- the final info record
  have hinfo : { st.info with largest_key := st.cur_key } = infoSpec rs gc := by
    show SSTableInfo.mk st.info.record_count st.info.group_count st.info.indices
        st.info.smallest_key st.cur_key st.info.oldest_ts = infoSpec rs gc
    rw [hrc, hgcf, hidx, hsm, hck, hts, htk]
    unfold infoSpec
    rw [← hneq, numGroups_eq n gc hgc hn]
  have hwf : (st.rf.write_at st.cur_group_indices_offset
      (serialize_u64_exact st.group_indices)).file =
      filePre20 ++ chunksFile (finalPayloads rs gc) := by
    rw [hwrite]
  have hF : (buildFinish st).rec_file.file =
      (st.rf.write_at st.cur_group_indices_offset
        (serialize_u64_exact st.group_indices)).file ++
      le32 (SSTableInfo.serialize { st.info with largest_key := st.cur_key }).length ++
      SSTableInfo.serialize { st.info with largest_key := st.cur_key } := rfl
  refine ⟨(buildFinish st).rec_file, ?_, ?_⟩
  · have hI : (buildFinish st).info = infoSpec rs gc := hinfo
    rw [← hI]
  · rw [hF, hwf, hinfo, builtFile, chunksFile_append]
    simp [chunksFile, chunk, List.append_assoc]

/-- Characterisation of a successful unlimited build: the footer and
the on-disk bytes of `SSTable::new path records group_count None`. -/
theorem sstableNew_none_spec (rs : List Record) (gc : Nat) (hgc : 1 ≤ gc)
    (hn : 1 ≤ rs.length)
    (hsort : (rs.map Record.get_key).Chain' bytesLt) :
    ∃ rf : RecordFile, sstableNew false rs gc none =
      Outcome.ok { rec_file := rf, info := infoSpec rs gc } ∧
      rf.file = builtFile rs gc := by
  obtain ⟨st1, hloop1, hinv1⟩ := by
    refine buildLoop_none_ok rs gc hgc hsort (rs.length - 1) 1
      (buildBody gc (rs.getD 0 default) (initState gc)) rfl (le_refl 1) hn ?_
    exact buildBody_first rs gc hgc hn
  obtain ⟨rf, hfin, hfile⟩ := buildFinish_eq rs gc hgc hn st1 hinv1
  refine ⟨rf, ?_, hfile⟩
  unfold sstableNew
  rw [if_neg (by omega), if_neg (by simp), if_neg (by simp)]
  have hrfnew : RecordFile.new none SSTABLE_HEADER =
      Outcome.ok (initState gc).rf := by
    rfl
  rw [hrfnew]
  have hloop0 : buildLoop gc none rs (initState gc) = Outcome.ok st1 := by
    have hdrop : rs = rs.getD 0 default :: rs.drop 1 := by
      cases rs with
      | nil => simp at hn
      | cons r rest => rfl
    conv_lhs => rw [hdrop]
    rw [buildLoop]
    rw [if_neg (by
      rintro ⟨h0, _⟩
      exact h0 rfl)]
    exact hloop1
  show (match buildLoop gc none rs (initState gc) with
    | Outcome.err e => Outcome.err e
    | Outcome.panic f => Outcome.panic f
    | Outcome.ok st => Outcome.ok (buildFinish st)) = _
  rw [hloop0]
  show Outcome.ok (buildFinish st1) = _
  rw [hfin]

/-! ## Reading a built table -/

/-- Keys at increasing positions are strictly increasing. -/
theorem sorted_keys_lt (rs : List Record)
    (hsort : (rs.map Record.get_key).Chain' bytesLt) (a b : Nat) (hab : a < b)
    (hb : b < rs.length) :
    bytesLt (rs.getD a default).get_key (rs.getD b default).get_key := by
  have hpw := chain'_bytesLt_pairwise hsort
  have hget := List.pairwise_iff_get.mp hpw ⟨a, by rw [List.length_map]; omega⟩
    ⟨b, by rw [List.length_map]; omega⟩ (by simpa using hab)
  have h1 : (rs.map Record.get_key).get ⟨a, by rw [List.length_map]; omega⟩ =
      (rs.getD a default).get_key := by
    rw [getD_of_lt rs a default (by omega)]
    simp [Record.get_key]
  have h2 : (rs.map Record.get_key).get ⟨b, by rw [List.length_map]; omega⟩ =
      (rs.getD b default).get_key := by
    rw [getD_of_lt rs b default hb]
    simp [Record.get_key]
  rwa [h1, h2] at hget

theorem bytesLt_ne {a b : List Nat} (h : bytesLt a b) : a ≠ b := by
  intro hab
  subst hab
  exact bytesLt_irrefl a h

/-- Comparator monotonicity against a fixed probe key. -/
theorem cmp_mono_lt (K : Nat → List Nat) (k : List Nat) (len : Nat)
    (hmono : ∀ a b, a < b → b < len → bytesLt (K a) (K b)) :
    ∀ i j, i ≤ j → j < len → compareBytes (K j) k = Ordering.lt →
      compareBytes (K i) k = Ordering.lt := by
  intro i j hij hj hl
  rcases Nat.lt_or_ge i j with hlt | hge
  · exact bytesLt_trans (hmono i j hlt hj) hl
  · have : i = j := by omega
    subst this
    exact hl

theorem cmp_mono_gt (K : Nat → List Nat) (k : List Nat) (len : Nat)
    (hmono : ∀ a b, a < b → b < len → bytesLt (K a) (K b)) :
    ∀ i j, i ≤ j → j < len → compareBytes (K i) k = Ordering.gt →
      compareBytes (K j) k = Ordering.gt := by
  intro i j hij hj hg
  rcases Nat.lt_or_ge i j with hlt | hge
  · rw [compareBytes_swap] at hg ⊢
    exact bytesLt_trans hg (hmono i j hlt hj)
  · have : i = j := by omega
    subst this
    exact hg

/-- A binary search that has an `Equal` index (unique by monotonicity)
lands exactly there. -/
theorem binarySearchBy_found (f : Nat → Outcome Ordering) (cmp : Nat → Ordering)
    (len : Nat) (hf : ∀ i, i < len → f i = Outcome.ok (cmp i))
    (hlt : ∀ i j, i ≤ j → j < len → cmp j = Ordering.lt → cmp i = Ordering.lt)
    (hgt : ∀ i j, i ≤ j → j < len → cmp i = Ordering.gt → cmp j = Ordering.gt)
    (huniq : ∀ i j, i < len → j < len → cmp i = Ordering.eq →
      cmp j = Ordering.eq → i = j)
    (i0 : Nat) (hi0 : i0 < len) (heq : cmp i0 = Ordering.eq) :
    binarySearchBy f 0 len = Outcome.ok (Sum.inl i0) := by
  rcases binarySearchBy_spec f cmp len hf hlt hgt len 0 len (by omega) (by omega)
    (le_refl len) (by omega) (fun i h1 h2 => by omega) with
    ⟨i, hi, hceq, hrun⟩ | ⟨p, _, _, hp3, hp4, _⟩
  · rw [hrun, huniq i i0 hi hi0 hceq heq]
  · rcases Nat.lt_or_ge i0 p with hc | hc
    · rw [hp3 i0 hc] at heq
      cases heq
    · rw [hp4 i0 hc hi0] at heq
      cases heq

/-- A binary search with no `Equal` index returns the insertion point
splitting smaller from greater. -/
theorem binarySearchBy_not_found (f : Nat → Outcome Ordering) (cmp : Nat → Ordering)
    (len : Nat) (hf : ∀ i, i < len → f i = Outcome.ok (cmp i))
    (hlt : ∀ i j, i ≤ j → j < len → cmp j = Ordering.lt → cmp i = Ordering.lt)
    (hgt : ∀ i j, i ≤ j → j < len → cmp i = Ordering.gt → cmp j = Ordering.gt)
    (hno : ∀ i, i < len → cmp i ≠ Ordering.eq) :
    ∃ p, p ≤ len ∧ (∀ i, i < p → cmp i = Ordering.lt) ∧
      (∀ i, p ≤ i → i < len → cmp i = Ordering.gt) ∧
      binarySearchBy f 0 len = Outcome.ok (Sum.inr p) := by
  rcases binarySearchBy_spec f cmp len hf hlt hgt len 0 len (by omega) (by omega)
    (le_refl len) (by omega) (fun i h1 h2 => by omega) with
    ⟨i, hi, hceq, _⟩ | ⟨p, _, hp2, hp3, hp4, hrun⟩
  · exact absurd hceq (hno i hi)
  · exact ⟨p, hp2, hp3, hp4, hrun⟩

/-- Offset arithmetic: a group's first record sits one block width past
its index block. -/
theorem recOff_group_start (rs : List Record) (gc g : Nat) (hgc : 1 ≤ gc) :
    recOff rs gc (g * gc) = blockOff rs gc g + blockChunkLen gc := by
  unfold recOff blockOff
  rw [Nat.mul_div_cancel g (show 0 < gc by omega)]
  ring

theorem recOff_pos (rs : List Record) (gc j : Nat) :
    20 + blockChunkLen gc ≤ recOff rs gc j := by
  unfold recOff
  have h1 : blockChunkLen gc ≤ (j / gc + 1) * blockChunkLen gc := by
    have h2 : (j / gc + 1) * blockChunkLen gc =
        j / gc * blockChunkLen gc + blockChunkLen gc := by ring
    omega
  omega

/-- Every record offset stays below the end of the data region. -/
theorem recOff_le_dataEnd (rs : List Record) (gc j : Nat) (hgc : 1 ≤ gc)
    (hj : j < rs.length) :
    recOff rs gc j ≤ 20 + numGroups rs.length gc * blockChunkLen gc + sumRecLens rs := by
  unfold recOff
  have hn : 1 ≤ rs.length := by omega
  have hg : j / gc < numGroups rs.length gc := by
    rw [numGroups_eq rs.length gc hgc hn]
    have := Nat.div_le_div_right (c := gc) (show j ≤ rs.length - 1 by omega)
    omega
  have h1 : (j / gc + 1) * blockChunkLen gc ≤
      numGroups rs.length gc * blockChunkLen gc :=
    Nat.mul_le_mul_right _ (by omega)
  have h2 : sumRecLens (rs.take j) ≤ sumRecLens rs := by
    conv_rhs => rw [← List.take_append_drop j rs]
    rw [sumRecLens_append]
    omega
  omega

/-- The `take_while` chop recovers exactly the populated prefix. -/
theorem takeWhile_append_zeros (l : List Nat) (t : Nat) (h : ∀ x ∈ l, x ≠ 0) :
    (l ++ List.replicate t 0).takeWhile (· ≠ 0) = l := by
  induction l with
  | nil =>
    cases t with
    | zero => rfl
    | succ m =>
      rw [List.nil_append, List.replicate_succ, List.takeWhile_cons]
      simp
  | cons x xs ih =>
    rw [List.cons_append, List.takeWhile_cons]
    have hx : x ≠ 0 := h x (by simp)
    have hih := ih (fun y hy => h y (by simp [hy]))
    simp [hx]
    simpa using hih

/-- Everything `Get` needs to know about a table produced by a
successful unlimited build: well-formed parameters, a strictly
ascending input, codec-size side conditions, and the build result. -/
structure GoodBuild (rs : List Record) (gc : Nat) (tbl : SSTable) : Prop where
  hgc : 1 ≤ gc
  hn : 1 ≤ rs.length
  hsort : (rs.map Record.get_key).Chain' bytesLt
  hsz : ∀ r ∈ rs, r.key.length < 2 ^ 32 ∧ r.value.length < 2 ^ 32 ∧
    r.created < 2 ^ 64 ∧ (Record.serialize r).length < 2 ^ 32
  hblk : 8 * gc < 2 ^ 32
  hfit : 20 + numGroups rs.length gc * blockChunkLen gc + sumRecLens rs < 2 ^ 64
  hinfo : tbl.info = infoSpec rs gc
  hfile : tbl.rec_file.file = builtFile rs gc

theorem getD_mem (rs : List Record) (j : Nat) (hj : j < rs.length) :
    rs.getD j default ∈ rs := by
  rw [getD_of_lt rs j default hj]
  exact List.getElem_mem hj

/-- Reading record `j` of a built table returns its serialisation. -/
theorem fetch_record (rs : List Record) (gc : Nat) (tbl : SSTable)
    (G : GoodBuild rs gc tbl) (j : Nat) (hj : j < rs.length) :
    tbl.rec_file.read_at (recOff rs gc j) =
      some (Record.serialize (rs.getD j default)) := by
  obtain ⟨hlt, hgetd, hcoff⟩ := finalPayloads_rec_facts rs gc j G.hgc hj
  have hps : tbl.rec_file.file = filePre20 ++
      chunksFile (finalPayloads rs gc ++ [(infoSpec rs gc).serialize]) := G.hfile
  have hlt' : recIdx gc j <
      (finalPayloads rs gc ++ [(infoSpec rs gc).serialize]).length := by
    rw [List.length_append]
    omega
  have hgetd' : (finalPayloads rs gc ++ [(infoSpec rs gc).serialize]).getD
      (recIdx gc j) [] = Record.serialize (rs.getD j default) := by
    rw [List.getD_append _ _ _ _ hlt]
    exact hgetd
  have hcoff' : chunkOffset (finalPayloads rs gc ++ [(infoSpec rs gc).serialize])
      (recIdx gc j) = chunkOffset (finalPayloads rs gc) (recIdx gc j) :=
    chunkOffset_append_of_le _ _ _ (by omega)
  have hread := read_at_chunksFile tbl.rec_file filePre20 _ (recIdx gc j) hps hlt'
    (by
      rw [hgetd']
      exact (G.hsz _ (getD_mem rs j hj)).2.2.2)
  rw [hgetd', filePre20_length, hcoff'] at hread
  rw [← show 20 + chunkOffset (finalPayloads rs gc) (recIdx gc j) = recOff rs gc j
    from hcoff]
  exact hread

/-- The fetch-and-compare comparator at record `j`'s offset. -/
theorem fetch_comparator (rs : List Record) (gc : Nat) (tbl : SSTable)
    (G : GoodBuild rs gc tbl) (k : List Nat) (j : Nat) (hj : j < rs.length) :
    getComparator tbl k (recOff rs gc j) =
      Outcome.ok (compareBytes (rs.getD j default).get_key k) := by
  unfold getComparator
  rw [fetch_record rs gc tbl G j hj]
  obtain ⟨h1, h2, h3, _⟩ := G.hsz _ (getD_mem rs j hj)
  show (match Record.deserialize (rs.getD j default).serialize with
    | none => Outcome.panic tbl.rec_file.file
    | some rec => Outcome.ok (compareBytes rec.get_key k)) = _
  rw [Record.deserialize_serialize _ h1 h2 h3]

/-- Fetching and deserialising record `j`. -/
theorem fetch_rec_value (rs : List Record) (gc : Nat) (tbl : SSTable)
    (G : GoodBuild rs gc tbl) (j : Nat) (hj : j < rs.length) :
    fetchRecord tbl (recOff rs gc j) = Outcome.ok (rs.getD j default) := by
  unfold fetchRecord
  rw [fetch_record rs gc tbl G j hj]
  obtain ⟨h1, h2, h3, _⟩ := G.hsz _ (getD_mem rs j hj)
  show (match Record.deserialize (rs.getD j default).serialize with
    | none => Outcome.panic tbl.rec_file.file
    | some rec => Outcome.ok rec) = _
  rw [Record.deserialize_serialize _ h1 h2 h3]

/-- Reading group `g`'s index block of a built table. -/
theorem fetch_block (rs : List Record) (gc : Nat) (tbl : SSTable)
    (G : GoodBuild rs gc tbl) (g : Nat) (hg : g < numGroups rs.length gc) :
    tbl.rec_file.read_at (blockOff rs gc g) = some (groupBlockPayload rs gc g) := by
  obtain ⟨hlt, hgetd, hcoff⟩ := finalPayloads_block_facts rs gc g G.hgc hg
  have hps : tbl.rec_file.file = filePre20 ++
      chunksFile (finalPayloads rs gc ++ [(infoSpec rs gc).serialize]) := G.hfile
  have hlt' : blockIdx gc g <
      (finalPayloads rs gc ++ [(infoSpec rs gc).serialize]).length := by
    rw [List.length_append]
    omega
  have hgetd' : (finalPayloads rs gc ++ [(infoSpec rs gc).serialize]).getD
      (blockIdx gc g) [] = groupBlockPayload rs gc g := by
    rw [List.getD_append _ _ _ _ hlt]
    exact hgetd
  have hcoff' : chunkOffset (finalPayloads rs gc ++ [(infoSpec rs gc).serialize])
      (blockIdx gc g) = chunkOffset (finalPayloads rs gc) (blockIdx gc g) :=
    chunkOffset_append_of_le _ _ _ (by omega)
  have hread := read_at_chunksFile tbl.rec_file filePre20 _ (blockIdx gc g) hps hlt'
    (by
      rw [hgetd', groupBlockPayload_length]
      exact G.hblk)
  rw [hgetd', filePre20_length, hcoff'] at hread
  rw [← show 20 + chunkOffset (finalPayloads rs gc) (blockIdx gc g) = blockOff rs gc g
    from hcoff]
  exact hread

/-- Bounds and positions of group `g`'s record offsets. -/
theorem groupOffs_entries (rs : List Record) (gc : Nat) (hgc : 1 ≤ gc) (g : Nat)
    (hg : g < numGroups rs.length gc) :
    ∀ x ∈ groupOffs rs gc g, 20 + blockChunkLen gc ≤ x ∧
      x ≤ 20 + numGroups rs.length gc * blockChunkLen gc + sumRecLens rs := by
  intro x hx
  unfold groupOffs at hx
  rw [List.mem_map] at hx
  obtain ⟨i, hi, hxeq⟩ := hx
  rw [List.mem_range, groupRecs_length] at hi
  have hjn : g * gc + i < rs.length := by omega
  subst hxeq
  exact ⟨recOff_pos rs gc _, recOff_le_dataEnd rs gc _ hgc hjn⟩

/-- Decoding a group block and chopping at the first zero gives the
populated offsets. -/
theorem block_decode (rs : List Record) (gc : Nat) (hgc : 1 ≤ gc)
    (hfit : 20 + numGroups rs.length gc * blockChunkLen gc + sumRecLens rs < 2 ^ 64)
    (g : Nat) (hg : g < numGroups rs.length gc) :
    (deserialize_u64_exact (groupBlockPayload rs gc g)).takeWhile (· ≠ 0) =
      groupOffs rs gc g := by
  unfold groupBlockPayload
  rw [deserialize_u64_exact_roundtrip]
  · unfold padTo
    exact takeWhile_append_zeros _ _
      (fun x hx => by
        have := (groupOffs_entries rs gc hgc g hg x hx).1
        omega)
  · intro x hx
    unfold padTo at hx
    rw [List.mem_append] at hx
    rcases hx with hx | hx
    · have := (groupOffs_entries rs gc hgc g hg x hx).2
      omega
    · rw [List.eq_of_mem_replicate hx]
      omega

/-- The top-level index vector at position `i`. -/
theorem indices_get (rs : List Record) (gc : Nat) (i : Nat)
    (hi : i < numGroups rs.length gc) :
    (infoSpec rs gc).indices.get? i = some (recOff rs gc (i * gc)) := by
  unfold infoSpec
  simp [List.get?_eq_getElem?, List.getElem?_map, List.getElem?_range, hi]

theorem idx_map_get (rs : List Record) (gc : Nat) (i : Nat)
    (hi : i < numGroups rs.length gc) :
    ((List.range (numGroups rs.length gc)).map
      (fun g => recOff rs gc (g * gc))).get? i = some (recOff rs gc (i * gc)) := by
  simp [List.get?_eq_getElem?, List.getElem?_map, List.getElem?_range, hi]

theorem groupOffs_get (rs : List Record) (gc g i : Nat)
    (hi : i < (groupRecs rs gc g).length) :
    (groupOffs rs gc g).get? i = some (recOff rs gc (g * gc + i)) := by
  unfold groupOffs
  simp [List.get?_eq_getElem?, List.getElem?_map, List.getElem?_range, hi]

theorem one_le_numGroups (n gc : Nat) (hgc : 1 ≤ gc) (hn : 1 ≤ n) :
    1 ≤ numGroups n gc := by
  rw [numGroups_eq n gc hgc hn]
  exact Nat.succ_le_succ (Nat.zero_le _)

theorem div_lt_numGroups {n gc j : Nat} (hgc : 1 ≤ gc) (hj : j < n) :
    j / gc < numGroups n gc := by
  rw [numGroups_eq n gc hgc (by omega)]
  have := Nat.div_le_div_right (c := gc) (show j ≤ n - 1 by omega)
  omega

theorem group_index_lt (rs : List Record) (gc g i : Nat)
    (hi : i < (groupRecs rs gc g).length) : g * gc + i < rs.length := by
  rw [groupRecs_length] at hi
  generalize g * gc = t at hi ⊢
  omega

theorem div_mul_add_mod (j gc : Nat) : j / gc * gc + j % gc = j := by
  have hdm := Nat.div_add_mod j gc
  have hc : j / gc * gc = gc * (j / gc) := Nat.mul_comm _ _
  generalize gc * (j / gc) = t at hdm hc
  omega

theorem mod_lt_groupRecs_length (rs : List Record) (gc j : Nat) (hgc : 1 ≤ gc)
    (hj : j < rs.length) :
    j % gc < (groupRecs rs gc (j / gc)).length := by
  rw [groupRecs_length]
  have hdm := div_mul_add_mod j gc
  have hm : j % gc < gc := Nat.mod_lt _ (by omega)
  generalize j / gc * gc = t at hdm ⊢
  omega

theorem mul_lt_mul_right_of_lt {a b gc : Nat} (hgc : 1 ≤ gc) (h : a < b) :
    a * gc < b * gc :=
  Nat.mul_lt_mul_of_lt_of_le h (le_refl gc) (by omega)

/-- Distinct in-range positions carry distinct keys. -/
theorem keys_injective (rs : List Record)
    (hsort : (rs.map Record.get_key).Chain' bytesLt) (a b : Nat)
    (ha : a < rs.length) (hb : b < rs.length)
    (hk : (rs.getD a default).get_key = (rs.getD b default).get_key) : a = b := by
  by_contra hne
  rcases Nat.lt_or_ge a b with h | h
  · exact bytesLt_ne (sorted_keys_lt rs hsort a b h hb) hk
  · have h' : b < a := by omega
    exact bytesLt_ne (sorted_keys_lt rs hsort b a h' ha) hk.symm

/-- The top-level binary search of `Get`, followed by the
`Ok(i) ⇒ i` / `Err(i) ⇒ i−1` fix-up, always selects group `j / gc`
when probing with the key of record `j`. -/
theorem top_search_selects (rs : List Record) (gc : Nat) (tbl : SSTable)
    (G : GoodBuild rs gc tbl) (j : Nat) (hj : j < rs.length) :
    ∃ t : Nat ⊕ Nat,
      binarySearchBy
        (fun i => match (infoSpec rs gc).indices.get? i with
          | none => Outcome.panic tbl.rec_file.file
          | some off => getComparator tbl (rs.getD j default).get_key off)
        0 (infoSpec rs gc).indices.length = Outcome.ok t ∧
      (match t with
       | Sum.inl i => Outcome.ok i
       | Sum.inr i =>
         if i = 0 then Outcome.panic tbl.rec_file.file
         else Outcome.ok (i - 1) : Outcome Nat) = Outcome.ok (j / gc) := by
  have hgc := G.hgc
  have hgNG : j / gc < numGroups rs.length gc := div_lt_numGroups hgc hj
  have hIlen : (infoSpec rs gc).indices.length = numGroups rs.length gc := by
    simp [infoSpec]
  have hf : ∀ i, i < (infoSpec rs gc).indices.length →
      (fun i => match (infoSpec rs gc).indices.get? i with
        | none => Outcome.panic tbl.rec_file.file
        | some off => getComparator tbl (rs.getD j default).get_key off) i =
      Outcome.ok (compareBytes (rs.getD (i * gc) default).get_key
        (rs.getD j default).get_key) := by
    intro i hi
    rw [hIlen] at hi
    show (match (infoSpec rs gc).indices.get? i with
      | none => Outcome.panic tbl.rec_file.file
      | some off => getComparator tbl (rs.getD j default).get_key off) = _
    rw [indices_get rs gc i hi]
    show getComparator tbl (rs.getD j default).get_key (recOff rs gc (i * gc)) = _
    exact fetch_comparator rs gc tbl G _ (i * gc) (mul_lt_of_lt_numGroups hgc hi)
  have hmono : ∀ a b, a < b → b < (infoSpec rs gc).indices.length →
      bytesLt (rs.getD (a * gc) default).get_key
        (rs.getD (b * gc) default).get_key := by
    rw [hIlen]
    exact fun a b hab hb => sorted_keys_lt rs G.hsort (a * gc) (b * gc)
      (mul_lt_mul_right_of_lt hgc hab) (mul_lt_of_lt_numGroups hgc hb)
  have hltm := cmp_mono_lt (fun i => (rs.getD (i * gc) default).get_key)
    (rs.getD j default).get_key (infoSpec rs gc).indices.length hmono
  have hgtm := cmp_mono_gt (fun i => (rs.getD (i * gc) default).get_key)
    (rs.getD j default).get_key (infoSpec rs gc).indices.length hmono
  have huniqm : ∀ a b, a < (infoSpec rs gc).indices.length →
      b < (infoSpec rs gc).indices.length →
      compareBytes (rs.getD (a * gc) default).get_key
        (rs.getD j default).get_key = Ordering.eq →
      compareBytes (rs.getD (b * gc) default).get_key
        (rs.getD j default).get_key = Ordering.eq → a = b := by
    rw [hIlen]
    intro a b ha hb hea heb
    have hka := (compareBytes_eq_iff _ _).mp hea
    have hkb := (compareBytes_eq_iff _ _).mp heb
    have hab := keys_injective rs G.hsort (a * gc) (b * gc)
      (mul_lt_of_lt_numGroups hgc ha) (mul_lt_of_lt_numGroups hgc hb)
      (hka.trans hkb.symm)
    exact Nat.eq_of_mul_eq_mul_right (by omega) hab
  rcases Nat.eq_zero_or_pos (j % gc) with hmod | hmod
  · -- the probe key sits at a group start: the search hits it
    have hgj : j / gc * gc = j := by
      have hdm := div_mul_add_mod j gc
      generalize j / gc * gc = t at hdm ⊢
      omega
    have heqg : compareBytes (rs.getD (j / gc * gc) default).get_key
        (rs.getD j default).get_key = Ordering.eq := by
      rw [hgj]
      exact (compareBytes_eq_iff _ _).mpr rfl
    exact ⟨Sum.inl (j / gc),
      binarySearchBy_found _ _ _ hf hltm hgtm huniqm (j / gc)
        (by rw [hIlen]; exact hgNG) heqg, rfl⟩
  · -- mid-group probe: the search misses and lands at `j / gc + 1`
    have hno : ∀ i, i < (infoSpec rs gc).indices.length →
        compareBytes (rs.getD (i * gc) default).get_key
          (rs.getD j default).get_key ≠ Ordering.eq := by
      rw [hIlen]
      intro i hi he
      have hk := (compareBytes_eq_iff _ _).mp he
      have hij := keys_injective rs G.hsort (i * gc) j
        (mul_lt_of_lt_numGroups hgc hi) hj hk
      have h0 : j % gc = 0 := by
        rw [← hij]
        exact Nat.mul_mod_left i gc
      omega
    obtain ⟨p, hple, hplt, hpgt, hrun⟩ :=
      binarySearchBy_not_found _ _ _ hf hltm hgtm hno
    have hgp : j / gc < p := by
      by_contra hle
      have hg1 : compareBytes (rs.getD (j / gc * gc) default).get_key
          (rs.getD j default).get_key = Ordering.gt :=
        hpgt (j / gc) (by omega) (by rw [hIlen]; exact hgNG)
      have hl1 : bytesLt (rs.getD (j / gc * gc) default).get_key
          (rs.getD j default).get_key := by
        apply sorted_keys_lt rs G.hsort _ _ _ hj
        have hdm := div_mul_add_mod j gc
        generalize j / gc * gc = t at hdm ⊢
        omega
      simp only [bytesLt] at hl1
      rw [hg1] at hl1
      exact absurd hl1 (by decide)
    have hp1 : p ≤ j / gc + 1 := by
      by_contra hgt1
      have h2NG : j / gc + 1 < numGroups rs.length gc := by
        rw [hIlen] at hple
        omega
      have hl2 : compareBytes (rs.getD ((j / gc + 1) * gc) default).get_key
          (rs.getD j default).get_key = Ordering.lt := hplt (j / gc + 1) (by omega)
      have hg2 : bytesLt (rs.getD j default).get_key
          (rs.getD ((j / gc + 1) * gc) default).get_key := by
        apply sorted_keys_lt rs G.hsort _ _ _ (mul_lt_of_lt_numGroups hgc h2NG)
        have hdm := div_mul_add_mod j gc
        have hmlt : j % gc < gc := Nat.mod_lt _ (by omega)
        rw [Nat.add_mul, Nat.one_mul]
        generalize j / gc * gc = t at hdm ⊢
        omega
      have hg2' : compareBytes (rs.getD ((j / gc + 1) * gc) default).get_key
          (rs.getD j default).get_key = Ordering.gt := (compareBytes_swap _ _).mpr hg2
      rw [hg2'] at hl2
      exact absurd hl2 (by decide)
    refine ⟨Sum.inr p, hrun, ?_⟩
    show (if p = 0 then Outcome.panic tbl.rec_file.file else Outcome.ok (p - 1)) =
      Outcome.ok (j / gc)
    have hp0 : ¬ p = 0 := by
      generalize j / gc = g at hgp
      omega
    have hpm1 : p - 1 = j / gc := by
      generalize j / gc = g at hgp hp1 ⊢
      omega
    rw [if_neg hp0, hpm1]

/-- On a built table, `Get` with the key of record `j` returns that
record. -/
theorem sstableGet_found (rs : List Record) (gc : Nat) (tbl : SSTable)
    (G : GoodBuild rs gc tbl) (j : Nat) (hj : j < rs.length) :
    sstableGet tbl (rs.getD j default).get_key =
      Outcome.ok (some (rs.getD j default)) := by
  have hgc := G.hgc
  have hgNG : j / gc < numGroups rs.length gc := div_lt_numGroups hgc hj
  -- the range check passes
  have hks : ¬ (compareBytes (rs.getD j default).get_key
        (infoSpec rs gc).smallest_key = Ordering.lt ∨
      compareBytes (infoSpec rs gc).largest_key
        (rs.getD j default).get_key = Ordering.lt) := by
    simp only [infoSpec]
    rintro (hc | hc)
    · rcases Nat.eq_zero_or_pos j with h0 | hpos
      · subst h0
        rw [(compareBytes_eq_iff (rs.getD 0 default).get_key
          (rs.getD 0 default).key).mpr rfl] at hc
        exact absurd hc (by decide)
      · have hlt := sorted_keys_lt rs G.hsort 0 j hpos hj
        have hgt : compareBytes (rs.getD j default).get_key
            (rs.getD 0 default).key = Ordering.gt := (compareBytes_swap _ _).mpr hlt
        rw [hgt] at hc
        exact absurd hc (by decide)
    · rcases Nat.lt_or_ge j (rs.length - 1) with hpos | hge
      · have hlt := sorted_keys_lt rs G.hsort j (rs.length - 1) hpos (by omega)
        have hgt : compareBytes (rs.getD (rs.length - 1) default).key
            (rs.getD j default).get_key = Ordering.gt := (compareBytes_swap _ _).mpr hlt
        rw [hgt] at hc
        exact absurd hc (by decide)
      · have h0 : j = rs.length - 1 := by omega
        subst h0
        rw [(compareBytes_eq_iff (rs.getD (rs.length - 1) default).key
          (rs.getD (rs.length - 1) default).get_key).mpr rfl] at hc
        exact absurd hc (by decide)
  obtain ⟨t, hrun, hchosen⟩ := top_search_selects rs gc tbl G j hj
  have hguard : ¬ recOff rs gc (j / gc * gc) <
      (infoSpec rs gc).group_count * U64_SIZE + U32_SIZE := by
    have h := recOff_pos rs gc (j / gc * gc)
    simp only [blockChunkLen] at h
    simp only [infoSpec, U64_SIZE, U32_SIZE]
    omega
  have hsub : recOff rs gc (j / gc * gc) -
      ((infoSpec rs gc).group_count * U64_SIZE + U32_SIZE) =
      blockOff rs gc (j / gc) := by
    rw [recOff_group_start rs gc (j / gc) hgc]
    simp only [infoSpec, blockChunkLen, U64_SIZE, U32_SIZE]
    omega
  have hblock := fetch_block rs gc tbl G (j / gc) hgNG
  have hdec := block_decode rs gc hgc G.hfit (j / gc) hgNG
  have hmL : j % gc < (groupRecs rs gc (j / gc)).length :=
    mod_lt_groupRecs_length rs gc j hgc hj
  -- the group-level binary search hits slot `j % gc`
  have hgf : ∀ i, i < (groupOffs rs gc (j / gc)).length →
      (fun i => match (groupOffs rs gc (j / gc)).get? i with
        | none => Outcome.panic tbl.rec_file.file
        | some off => getComparator tbl (rs.getD j default).get_key off) i =
      Outcome.ok (compareBytes (rs.getD (j / gc * gc + i) default).get_key
        (rs.getD j default).get_key) := by
    intro i hi
    rw [groupOffs_length] at hi
    show (match (groupOffs rs gc (j / gc)).get? i with
      | none => Outcome.panic tbl.rec_file.file
      | some off => getComparator tbl (rs.getD j default).get_key off) = _
    rw [groupOffs_get rs gc (j / gc) i hi]
    show getComparator tbl (rs.getD j default).get_key
      (recOff rs gc (j / gc * gc + i)) = _
    exact fetch_comparator rs gc tbl G _ _ (group_index_lt rs gc (j / gc) i hi)
  have hgmono : ∀ a b, a < b → b < (groupOffs rs gc (j / gc)).length →
      bytesLt (rs.getD (j / gc * gc + a) default).get_key
        (rs.getD (j / gc * gc + b) default).get_key := by
    rw [groupOffs_length]
    exact fun a b hab hb => sorted_keys_lt rs G.hsort _ _
      (Nat.add_lt_add_left hab _) (group_index_lt rs gc (j / gc) b hb)
  have hgltm := cmp_mono_lt (fun i => (rs.getD (j / gc * gc + i) default).get_key)
    (rs.getD j default).get_key (groupOffs rs gc (j / gc)).length hgmono
  have hggtm := cmp_mono_gt (fun i => (rs.getD (j / gc * gc + i) default).get_key)
    (rs.getD j default).get_key (groupOffs rs gc (j / gc)).length hgmono
  have hguniq : ∀ a b, a < (groupOffs rs gc (j / gc)).length →
      b < (groupOffs rs gc (j / gc)).length →
      compareBytes (rs.getD (j / gc * gc + a) default).get_key
        (rs.getD j default).get_key = Ordering.eq →
      compareBytes (rs.getD (j / gc * gc + b) default).get_key
        (rs.getD j default).get_key = Ordering.eq → a = b := by
    rw [groupOffs_length]
    intro a b ha hb hea heb
    have hka := (compareBytes_eq_iff _ _).mp hea
    have hkb := (compareBytes_eq_iff _ _).mp heb
    have hab := keys_injective rs G.hsort _ _
      (group_index_lt rs gc (j / gc) a ha) (group_index_lt rs gc (j / gc) b hb)
      (hka.trans hkb.symm)
    generalize j / gc * gc = t at hab
    omega
  have hgeq : compareBytes (rs.getD (j / gc * gc + j % gc) default).get_key
      (rs.getD j default).get_key = Ordering.eq := by
    rw [div_mul_add_mod j gc]
    exact (compareBytes_eq_iff _ _).mpr rfl
  have hgrp := binarySearchBy_found _ _ _ hgf hgltm hggtm hguniq (j % gc)
    (by rw [groupOffs_length]; exact hmL) hgeq
  have hoget := groupOffs_get rs gc (j / gc) (j % gc) hmL
  have hfetch := fetch_rec_value rs gc tbl G j hj
  have hdm : j / gc * gc + j % gc = j := div_mul_add_mod j gc
  unfold sstableGet
  rw [G.hinfo]
  rw [if_neg hks]
  rw [hrun]
  simp only [hchosen, indices_get rs gc (j / gc) hgNG, if_neg hguard, hsub,
    hblock, hdec, hgrp, hoget, hdm, hfetch]

/-- On a built table, `Get` with a key under which no record was
inserted returns `none` (whether out of range or in range). -/
theorem sstableGet_absent (rs : List Record) (gc : Nat) (tbl : SSTable)
    (G : GoodBuild rs gc tbl) (k : List Nat)
    (habs : ∀ j, j < rs.length → (rs.getD j default).get_key ≠ k) :
    sstableGet tbl k = Outcome.ok none := by
  have hgc := G.hgc
  have hn := G.hn
  by_cases hrange : compareBytes k (infoSpec rs gc).smallest_key = Ordering.lt ∨
      compareBytes (infoSpec rs gc).largest_key k = Ordering.lt
  · unfold sstableGet
    rw [G.hinfo, if_pos hrange]
  · -- in-range but absent
    have hIlen : (infoSpec rs gc).indices.length = numGroups rs.length gc := by
      simp [infoSpec]
    have hcopy := hrange
    rw [not_or] at hcopy
    obtain ⟨hs0, hl0⟩ := hcopy
    simp only [infoSpec] at hs0 hl0
    have h0lt : compareBytes (rs.getD 0 default).get_key k = Ordering.lt := by
      cases hcb : compareBytes (rs.getD 0 default).get_key k with
      | lt => rfl
      | eq => exact absurd ((compareBytes_eq_iff _ _).mp hcb) (habs 0 (by omega))
      | gt => exact absurd ((compareBytes_swap _ _).mp hcb) hs0
    have hf : ∀ i, i < (infoSpec rs gc).indices.length →
        (fun i => match (infoSpec rs gc).indices.get? i with
          | none => Outcome.panic tbl.rec_file.file
          | some off => getComparator tbl k off) i =
        Outcome.ok (compareBytes (rs.getD (i * gc) default).get_key k) := by
      intro i hi
      rw [hIlen] at hi
      show (match (infoSpec rs gc).indices.get? i with
        | none => Outcome.panic tbl.rec_file.file
        | some off => getComparator tbl k off) = _
      rw [indices_get rs gc i hi]
      show getComparator tbl k (recOff rs gc (i * gc)) = _
      exact fetch_comparator rs gc tbl G _ (i * gc) (mul_lt_of_lt_numGroups hgc hi)
    have hmono : ∀ a b, a < b → b < (infoSpec rs gc).indices.length →
        bytesLt (rs.getD (a * gc) default).get_key
          (rs.getD (b * gc) default).get_key := by
      rw [hIlen]
      exact fun a b hab hb => sorted_keys_lt rs G.hsort (a * gc) (b * gc)
        (mul_lt_mul_right_of_lt hgc hab) (mul_lt_of_lt_numGroups hgc hb)
    have hltm := cmp_mono_lt (fun i => (rs.getD (i * gc) default).get_key) k
      (infoSpec rs gc).indices.length hmono
    have hgtm := cmp_mono_gt (fun i => (rs.getD (i * gc) default).get_key) k
      (infoSpec rs gc).indices.length hmono
    have hno : ∀ i, i < (infoSpec rs gc).indices.length →
        compareBytes (rs.getD (i * gc) default).get_key k ≠ Ordering.eq := by
      rw [hIlen]
      intro i hi he
      exact habs (i * gc) (mul_lt_of_lt_numGroups hgc hi)
        ((compareBytes_eq_iff _ _).mp he)
    obtain ⟨p, hple, hplt, hpgt, hrun⟩ :=
      binarySearchBy_not_found _ _ _ hf hltm hgtm hno
    have hNG1 : 1 ≤ numGroups rs.length gc := one_le_numGroups _ _ hgc hn
    have hp0 : ¬ p = 0 := by
      intro h0
      subst h0
      have h00 : compareBytes (rs.getD (0 * gc) default).get_key k = Ordering.gt :=
        hpgt 0 (Nat.le_refl 0) (by rw [hIlen]; omega)
      rw [Nat.zero_mul] at h00
      rw [h0lt] at h00
      exact absurd h00 (by decide)
    have hgNG : p - 1 < numGroups rs.length gc := by
      rw [hIlen] at hple
      omega
    have hguard : ¬ recOff rs gc ((p - 1) * gc) <
        (infoSpec rs gc).group_count * U64_SIZE + U32_SIZE := by
      have h := recOff_pos rs gc ((p - 1) * gc)
      simp only [blockChunkLen] at h
      simp only [infoSpec, U64_SIZE, U32_SIZE]
      omega
    have hsub : recOff rs gc ((p - 1) * gc) -
        ((infoSpec rs gc).group_count * U64_SIZE + U32_SIZE) =
        blockOff rs gc (p - 1) := by
      rw [recOff_group_start rs gc (p - 1) hgc]
      simp only [infoSpec, blockChunkLen, U64_SIZE, U32_SIZE]
      omega
    have hblock := fetch_block rs gc tbl G (p - 1) hgNG
    have hdec := block_decode rs gc hgc G.hfit (p - 1) hgNG
    have hgf : ∀ i, i < (groupOffs rs gc (p - 1)).length →
        (fun i => match (groupOffs rs gc (p - 1)).get? i with
          | none => Outcome.panic tbl.rec_file.file
          | some off => getComparator tbl k off) i =
        Outcome.ok (compareBytes (rs.getD ((p - 1) * gc + i) default).get_key k) := by
      intro i hi
      rw [groupOffs_length] at hi
      show (match (groupOffs rs gc (p - 1)).get? i with
        | none => Outcome.panic tbl.rec_file.file
        | some off => getComparator tbl k off) = _
      rw [groupOffs_get rs gc (p - 1) i hi]
      show getComparator tbl k (recOff rs gc ((p - 1) * gc + i)) = _
      exact fetch_comparator rs gc tbl G _ _ (group_index_lt rs gc (p - 1) i hi)
    have hgmono : ∀ a b, a < b → b < (groupOffs rs gc (p - 1)).length →
        bytesLt (rs.getD ((p - 1) * gc + a) default).get_key
          (rs.getD ((p - 1) * gc + b) default).get_key := by
      rw [groupOffs_length]
      exact fun a b hab hb => sorted_keys_lt rs G.hsort _ _
        (Nat.add_lt_add_left hab _) (group_index_lt rs gc (p - 1) b hb)
    have hgltm := cmp_mono_lt (fun i => (rs.getD ((p - 1) * gc + i) default).get_key)
      k (groupOffs rs gc (p - 1)).length hgmono
    have hggtm := cmp_mono_gt (fun i => (rs.getD ((p - 1) * gc + i) default).get_key)
      k (groupOffs rs gc (p - 1)).length hgmono
    have hgno : ∀ i, i < (groupOffs rs gc (p - 1)).length →
        compareBytes (rs.getD ((p - 1) * gc + i) default).get_key k ≠ Ordering.eq := by
      rw [groupOffs_length]
      intro i hi he
      exact habs _ (group_index_lt rs gc (p - 1) i hi)
        ((compareBytes_eq_iff _ _).mp he)
    obtain ⟨q, hq1, hq2, hq3, hgrun⟩ :=
      binarySearchBy_not_found _ _ _ hgf hgltm hggtm hgno
    unfold sstableGet
    rw [G.hinfo]
    rw [if_neg hrange]
    rw [hrun]
    simp only [if_neg hp0, indices_get rs gc (p - 1) hgNG, if_neg hguard, hsub,
      hblock, hdec, hgrun]

/-! ## Record-file lifecycle: append, close, reopen, iterate -/

theorem readU64At_le64 (X Y : List Nat) (n : Nat) :
    readU64At (X ++ le64 n ++ Y) X.length = some (n % 2 ^ 64) := by
  have h := readExactAt_exact X (le64 n) Y
  rw [le64_length] at h
  show (readExactAt (X ++ le64 n ++ Y) X.length 8).map leDecode = _
  rw [h]
  simp [leDecode_le64]

/-- What a run of `append`s does to the in-memory state. -/
theorem appendAll_facts (rf : RecordFile) (ps : List (List Nat))
    (hcnt : rf.record_count + ps.length < 2 ^ 32) :
    (appendAll rf ps).file = rf.file ++ chunksFile ps ∧
    (appendAll rf ps).header_len = rf.header_len ∧
    (appendAll rf ps).record_count = rf.record_count + ps.length := by
  induction ps generalizing rf with
  | nil =>
    refine ⟨?_, rfl, rfl⟩
    show rf.file = rf.file ++ chunksFile []
    simp [chunksFile]
  | cons p ps ih =>
    obtain ⟨h1, h2, h3⟩ := ih (rf.append p).1 (by
      show (rf.record_count + 1) % 2 ^ 32 + ps.length < 2 ^ 32
      rw [Nat.mod_eq_of_lt (by simp at hcnt; omega)]
      simp at hcnt
      omega)
    refine ⟨?_, ?_, ?_⟩
    · show (appendAll (rf.append p).1 ps).file = _
      rw [h1]
      show rf.file ++ le32 p.length ++ p ++ chunksFile ps =
        rf.file ++ chunksFile (p :: ps)
      simp [chunksFile, chunk, List.append_assoc]
    · show (appendAll (rf.append p).1 ps).header_len = _
      rw [h2]
      rfl
    · show (appendAll (rf.append p).1 ps).record_count = _
      rw [h3]
      show (rf.record_count + 1) % 2 ^ 32 + ps.length = rf.record_count + (p :: ps).length
      rw [Nat.mod_eq_of_lt (by simp at hcnt; omega)]
      simp
      omega

/-- The owned iterator walks a chunked region record by record. -/
theorem iterOwnedFrom_chunks (ps : List (List Nat)) :
    ∀ pre : List Nat, (∀ p ∈ ps, p.length < 2 ^ 32) →
      iterOwnedFrom (pre ++ chunksFile ps) pre.length ps.length = Outcome.ok ps := by
  induction ps with
  | nil => intro pre h; rfl
  | cons p ps ih =>
    intro pre h
    have hshapeA : pre ++ chunksFile (p :: ps) =
        pre ++ le32 p.length ++ (p ++ chunksFile ps) := by
      simp [chunksFile, chunk, List.append_assoc]
    have hshapeB : pre ++ chunksFile (p :: ps) =
        pre ++ le32 p.length ++ p ++ chunksFile ps := by
      simp [chunksFile, chunk, List.append_assoc]
    have h32 : readU32At (pre ++ chunksFile (p :: ps)) pre.length = some p.length := by
      rw [hshapeA, readU32At_le32, Nat.mod_eq_of_lt (h p (by simp))]
    have hex : readExactAt (pre ++ chunksFile (p :: ps)) (pre.length + 4) p.length =
        some p := by
      have hx := readExactAt_exact (pre ++ le32 p.length) p (chunksFile ps)
      rw [List.length_append, le32_length] at hx
      rw [hshapeB]
      exact hx
    have hseq : seqReadRecord (pre ++ chunksFile (p :: ps)) pre.length =
        some (p, pre.length + 4 + p.length) := by
      unfold seqReadRecord
      rw [h32]
      show (match readExactAt (pre ++ chunksFile (p :: ps)) (pre.length + 4)
          p.length with
        | none => none
        | some payload => some (payload, pre.length + 4 + p.length)) = _
      rw [hex]
    have hrec : iterOwnedFrom (pre ++ chunksFile (p :: ps))
        (pre.length + 4 + p.length) ps.length = Outcome.ok ps := by
      have hpre := ih (pre ++ le32 p.length ++ p) (fun q hq => h q (by simp [hq]))
      rw [show pre ++ le32 p.length ++ p ++ chunksFile ps =
        pre ++ chunksFile (p :: ps) from hshapeB.symm] at hpre
      rw [show (pre ++ le32 p.length ++ p).length = pre.length + 4 + p.length by
        simp only [List.length_append, le32_length]] at hpre
      exact hpre
    show (match seqReadRecord (pre ++ chunksFile (p :: ps)) pre.length with
      | none => Outcome.panic (pre ++ chunksFile (p :: ps))
      | some (payload, pos') =>
        match iterOwnedFrom (pre ++ chunksFile (p :: ps)) pos' ps.length with
        | Outcome.ok rest => Outcome.ok (payload :: rest)
        | r => r) = Outcome.ok (p :: ps)
    rw [hseq]
    show (match iterOwnedFrom (pre ++ chunksFile (p :: ps))
        (pre.length + 4 + p.length) ps.length with
      | Outcome.ok rest => Outcome.ok (p :: rest)
      | r => r) = Outcome.ok (p :: ps)
    rw [hrec]

/-- `Drop` overwrites exactly the 12 count/last-record bytes after the
header. -/
theorem drop_replaces_midfield (H mid rest : List Nat) (hmid : mid.length = 12)
    (rf : RecordFile) (hfile : rf.file = H ++ mid ++ rest)
    (hhl : rf.header_len = H.length) :
    rf.drop = H ++ le32 rf.record_count ++ le64 rf.last_record ++ rest := by
  unfold RecordFile.drop writeAtBytes
  rw [hfile, hhl]
  have hlen12 : (le32 rf.record_count ++ le64 rf.last_record).length = 12 := by simp
  rw [hlen12]
  have htake : (H ++ mid ++ rest).take H.length = H := by
    rw [List.append_assoc]
    exact List.take_left H (mid ++ rest)
  have hdrop : (H ++ mid ++ rest).drop (H.length + 12) = rest := by
    rw [show H.length + 12 = (H ++ mid).length by simp [hmid]]
    exact List.drop_left (H ++ mid) rest
  rw [htake, hdrop]
  simp [List.append_assoc]

/-- Reopening a cleanly closed record file restores header length and
record count. -/
theorem reopen_clean (H rest : List Nat) (cnt last : Nat) (hcnt : cnt < BAD_COUNT) :
    RecordFile.new (some (H ++ le32 cnt ++ le64 last ++ rest)) H =
      Outcome.ok { file := H ++ le32 cnt ++ le64 last ++ rest,
                   record_count := cnt,
                   header_len := H.length,
                   last_record := last % 2 ^ 64 } := by
  have hL : ¬ (H ++ le32 cnt ++ le64 last ++ rest).length = 0 := by simp
  have hhdr : readExactAt (H ++ le32 cnt ++ le64 last ++ rest) 0 H.length = some H := by
    have h := readExactAt_exact [] H (le32 cnt ++ (le64 last ++ rest))
    simpa [List.append_assoc] using h
  have h32 : readU32At (H ++ le32 cnt ++ le64 last ++ rest) H.length = some cnt := by
    have hs : H ++ le32 cnt ++ le64 last ++ rest =
        H ++ le32 cnt ++ (le64 last ++ rest) := by
      simp [List.append_assoc]
    rw [hs, readU32At_le32, Nat.mod_eq_of_lt (by
      have : BAD_COUNT < 2 ^ 32 := by decide
      omega)]
  have h64 : readU64At (H ++ le32 cnt ++ le64 last ++ rest) (H.length + 4) =
      some (last % 2 ^ 64) := by
    have h := readU64At_le64 (H ++ le32 cnt) rest last
    rw [List.length_append, le32_length] at h
    have hs : H ++ le32 cnt ++ le64 last ++ rest =
        (H ++ le32 cnt) ++ le64 last ++ rest := by
      simp [List.append_assoc]
    rw [hs]
    exact h
  have hBAD : ¬ cnt = BAD_COUNT := by omega
  simp only [RecordFile.new, Option.getD_some, if_neg hL, hhdr,
    if_neg (show ¬ H ≠ H by simp), h32, if_neg hBAD, h64]

/-! ## The claims -/

/-- A binary search over an empty index range returns the insertion
point `Err(0)` immediately. -/
theorem binarySearchBy_empty (f : Nat → Outcome Ordering) (len : Nat)
    (h : len = 0) : binarySearchBy f 0 len = Outcome.ok (Sum.inr 0) := by
  subst h
  unfold binarySearchBy
  rw [dif_neg (show ¬ (0 : Nat) < 0 by omega)]

/-- C2: appending payloads `p₁…pₙ` to a freshly created record file,
closing it (`Drop` writes back count and last-record offset), reopening
it with the same header, and iterating the reopened file yields exactly
`p₁…pₙ` in order. -/
theorem c2_append_close_reopen_iterate (H : List Nat) (ps : List (List Nat))
    (hlen : ∀ p ∈ ps, p.length < 2 ^ 32) (hcnt : ps.length < BAD_COUNT)
    (rf0 rf1 : RecordFile)
    (h0 : RecordFile.new none H = Outcome.ok rf0)
    (h1 : RecordFile.new (some (RecordFile.drop (appendAll rf0 ps))) H =
      Outcome.ok rf1) :
    iterOwned rf1 = Outcome.ok ps := by
  have hrf0 : rf0 = { file := H ++ le32 BAD_COUNT ++ le64 (H.length + 4 + 8),
                      record_count := 0, header_len := H.length,
                      last_record := H.length + 4 + 8 } := by
    have hfresh : RecordFile.new none H = Outcome.ok
        { file := H ++ le32 BAD_COUNT ++ le64 (H.length + 4 + 8),
          record_count := 0, header_len := H.length,
          last_record := H.length + 4 + 8 } := rfl
    rw [hfresh] at h0
    injection h0 with h
    exact h.symm
  have hBADlt : BAD_COUNT < 2 ^ 32 := by decide
  obtain ⟨hfile, hhl, hrc⟩ := appendAll_facts rf0 ps (by
    rw [hrf0]
    show 0 + ps.length < 2 ^ 32
    omega)
  have hrc2 : (appendAll rf0 ps).record_count = ps.length := by
    rw [hrc, hrf0]
    show 0 + ps.length = ps.length
    omega
  have hdropped := drop_replaces_midfield H
    (le32 BAD_COUNT ++ le64 (H.length + 4 + 8)) (chunksFile ps) (by simp)
    (appendAll rf0 ps)
    (by rw [hfile, hrf0]; simp [List.append_assoc]) (by rw [hhl, hrf0])
  rw [hrc2] at hdropped
  rw [hdropped, reopen_clean H (chunksFile ps) ps.length _ hcnt] at h1
  injection h1 with h
  show iterOwnedFrom rf1.file (rf1.header_len + 4 + 8) rf1.record_count =
    Outcome.ok ps
  rw [← h]
  have hiter := iterOwnedFrom_chunks ps
    (H ++ le32 ps.length ++ le64 (appendAll rf0 ps).last_record) hlen
  rw [show (H ++ le32 ps.length ++
      le64 (appendAll rf0 ps).last_record).length = H.length + 4 + 8 by
    simp only [List.length_append, le32_length, le64_length]] at hiter
  exact hiter

/-- Witness for C2: header `[65]`, payloads `[1]` and `[2, 3]`. -/
theorem c2_append_close_reopen_iterate_witness :
    iterOwned ⟨[65, 2, 0, 0, 0, 18, 0, 0, 0, 0, 0, 0, 0, 1, 0, 0, 0, 1,
        2, 0, 0, 0, 2, 3], 2, 1, 18⟩ = Outcome.ok [[1], [2, 3]] :=
  c2_append_close_reopen_iterate [65] [[1], [2, 3]] (by decide) (by decide)
    ⟨[65, 255, 255, 255, 255, 13, 0, 0, 0, 0, 0, 0, 0], 0, 1, 13⟩
    ⟨[65, 2, 0, 0, 0, 18, 0, 0, 0, 0, 0, 0, 0, 1, 0, 0, 0, 1,
      2, 0, 0, 0, 2, 3], 2, 1, 18⟩
    (by decide) (by decide)

set_option maxRecDepth 100000 in
/-- C1, counterexample to the claim as stated: the empty stream is
strictly increasing and builds successfully with `group_count = 1`, but
`get []` — a key inside `[smallest_key, largest_key] = [[], []]` and
not inserted — panics (top-level binary search over empty indices
returns `Err(0)` and the `i - 1` fix-up underflows) instead of
returning `None`. -/
theorem c1_counterexample :
    sstableNew false [] 1 none = Outcome.ok
      ⟨⟨[8, 0, 0, 0, 0, 0, 0, 0, 0, 0, 0, 0, 20, 0, 0, 0, 0, 0, 0, 0, 32, 0, 0, 0,
         0, 0, 0, 0, 0, 0, 0, 0, 1, 0, 0, 0, 0, 0, 0, 0, 0, 0, 0, 0, 0, 0, 0, 0,
         0, 0, 0, 0, 0, 0, 0, 0], 1, 8, 20⟩, ⟨0, 1, [], [], [], 0⟩⟩ ∧
    sstableGet
      ⟨⟨[8, 0, 0, 0, 0, 0, 0, 0, 0, 0, 0, 0, 20, 0, 0, 0, 0, 0, 0, 0, 32, 0, 0, 0,
         0, 0, 0, 0, 0, 0, 0, 0, 1, 0, 0, 0, 0, 0, 0, 0, 0, 0, 0, 0, 0, 0, 0, 0,
         0, 0, 0, 0, 0, 0, 0, 0], 1, 8, 20⟩, ⟨0, 1, [], [], [], 0⟩⟩ [] =
      Outcome.panic
        [8, 0, 0, 0, 0, 0, 0, 0, 0, 0, 0, 0, 20, 0, 0, 0, 0, 0, 0, 0, 32, 0, 0, 0,
         0, 0, 0, 0, 0, 0, 0, 0, 1, 0, 0, 0, 0, 0, 0, 0, 0, 0, 0, 0, 0, 0, 0, 0,
         0, 0, 0, 0, 0, 0, 0, 0] := by
  refine ⟨by decide, ?_⟩
  unfold sstableGet
  rw [if_neg (by decide)]
  rw [binarySearchBy_empty _ _ (by decide)]
  rfl

/-- C1 (amended: the stream must also be non-empty — the empty-stream
table panics on any in-range probe, see the counterexample): on a table
built with `SSTable::new` from a strictly increasing, size-bounded key
stream, `get` returns every inserted record under its own key and
`none` under any key that was not inserted (below the smallest key,
above the largest, or absent in range). -/
theorem c1_get_on_built_table (rs : List Record) (gc : Nat) (tbl : SSTable)
    (hgc : 1 ≤ gc) (hn : 1 ≤ rs.length)
    (hsort : (rs.map Record.get_key).Chain' bytesLt)
    (hsz : ∀ r ∈ rs, r.key.length < 2 ^ 32 ∧ r.value.length < 2 ^ 32 ∧
      r.created < 2 ^ 64 ∧ (Record.serialize r).length < 2 ^ 32)
    (hblk : 8 * gc < 2 ^ 32)
    (hfit : 20 + numGroups rs.length gc * blockChunkLen gc + sumRecLens rs < 2 ^ 64)
    (hnew : sstableNew false rs gc none = Outcome.ok tbl) :
    (∀ j, j < rs.length →
      sstableGet tbl (rs.getD j default).get_key =
        Outcome.ok (some (rs.getD j default))) ∧
    (∀ k, (∀ j, j < rs.length → (rs.getD j default).get_key ≠ k) →
      sstableGet tbl k = Outcome.ok none) := by
  obtain ⟨rf, hok, hfile⟩ := sstableNew_none_spec rs gc hgc hn hsort
  rw [hnew] at hok
  injection hok with h
  subst h
  have G : GoodBuild rs gc { rec_file := rf, info := infoSpec rs gc } :=
    ⟨hgc, hn, hsort, hsz, hblk, hfit, rfl, hfile⟩
  exact ⟨fun j hj => sstableGet_found rs gc _ G j hj,
         fun k hk => sstableGet_absent rs gc _ G k hk⟩

set_option maxRecDepth 100000 in
/-- Witness for C1 at the one-record stream `[(key [1], value [2],
created 5)]` with `group_count = 1`: the inserted key is found. -/
theorem c1_get_on_built_table_witness :
    sstableGet
      ⟨⟨[68, 65, 84, 65, 1, 0, 0, 0, 255, 255, 255, 255, 20, 0, 0, 0, 0, 0, 0, 0,
         8, 0, 0, 0, 32, 0, 0, 0, 0, 0, 0, 0, 18, 0, 0, 0, 1, 0, 0, 0, 1, 1, 0, 0,
         0, 2, 5, 0, 0, 0, 0, 0, 0, 0, 42, 0, 0, 0, 1, 0, 0, 0, 0, 0, 0, 0, 1, 0,
         0, 0, 1, 0, 0, 0, 32, 0, 0, 0, 0, 0, 0, 0, 1, 0, 0, 0, 1, 1, 0, 0, 0, 1,
         5, 0, 0, 0, 0, 0, 0, 0], 3, 8, 54⟩, ⟨1, 1, [32], [1], [1], 5⟩⟩
      (([(⟨[1], [2], 5⟩ : Record)].getD 0 default).get_key) =
      Outcome.ok (some ([(⟨[1], [2], 5⟩ : Record)].getD 0 default)) :=
  (c1_get_on_built_table [⟨[1], [2], 5⟩] 1
      ⟨⟨[68, 65, 84, 65, 1, 0, 0, 0, 255, 255, 255, 255, 20, 0, 0, 0, 0, 0, 0, 0,
         8, 0, 0, 0, 32, 0, 0, 0, 0, 0, 0, 0, 18, 0, 0, 0, 1, 0, 0, 0, 1, 1, 0, 0,
         0, 2, 5, 0, 0, 0, 0, 0, 0, 0, 42, 0, 0, 0, 1, 0, 0, 0, 0, 0, 0, 0, 1, 0,
         0, 0, 1, 0, 0, 0, 32, 0, 0, 0, 0, 0, 0, 0, 1, 0, 0, 0, 1, 1, 0, 0, 0, 1,
         5, 0, 0, 0, 0, 0, 0, 0], 3, 8, 54⟩, ⟨1, 1, [32], [1], [1], 5⟩⟩
      (by decide) (by decide) (by simp) (by decide) (by decide) (by decide)
      (by decide)).1 0 (by decide)

/-- C3, refuting the claimed stride: on a fresh headerless record file
holding the two appended records `[9,9,9,9,9]` (at offset 12) and `[7]`
(at offset 21 = 12 + 4 + 5, exactly where the claimed `4 + len` stride
points), `Iter::next` instead advances by `len + 8` to offset 25, so
the traversal panics on a short read instead of yielding both records
and stopping at `last_record`. -/
theorem c3_borrowed_iter_stride_bug :
    RecordFile.new none [] = Outcome.ok
      ⟨[255, 255, 255, 255, 12, 0, 0, 0, 0, 0, 0, 0], 0, 0, 12⟩ ∧
    ((RecordFile.append
        ⟨[255, 255, 255, 255, 12, 0, 0, 0, 0, 0, 0, 0], 0, 0, 12⟩
        [9, 9, 9, 9, 9]).1.append [7]).1 =
      ⟨[255, 255, 255, 255, 12, 0, 0, 0, 0, 0, 0, 0,
        5, 0, 0, 0, 9, 9, 9, 9, 9, 1, 0, 0, 0, 7], 2, 0, 21⟩ ∧
    RecordFile.read_at
      ⟨[255, 255, 255, 255, 12, 0, 0, 0, 0, 0, 0, 0,
        5, 0, 0, 0, 9, 9, 9, 9, 9, 1, 0, 0, 0, 7], 2, 0, 21⟩ 21 = some [7] ∧
    iterBorrowedStep
      ⟨[255, 255, 255, 255, 12, 0, 0, 0, 0, 0, 0, 0,
        5, 0, 0, 0, 9, 9, 9, 9, 9, 1, 0, 0, 0, 7], 2, 0, 21⟩ 12 =
      Outcome.ok ([9, 9, 9, 9, 9], some 25) ∧
    iterBorrowed
      ⟨[255, 255, 255, 255, 12, 0, 0, 0, 0, 0, 0, 0,
        5, 0, 0, 0, 9, 9, 9, 9, 9, 1, 0, 0, 0, 7], 2, 0, 21⟩ 2 =
      Outcome.panic
        [255, 255, 255, 255, 12, 0, 0, 0, 0, 0, 0, 0,
         5, 0, 0, 0, 9, 9, 9, 9, 9, 1, 0, 0, 0, 7] := by decide

/-- C4, refuting "does not abort": opening any file whose persisted
record-count field is the `BAD_COUNT` sentinel panics — it neither
rebuilds the count by a forward scan nor returns an error. -/
theorem c4_dirty_open_aborts (header rest : List Nat) :
    RecordFile.new (some (header ++ le32 BAD_COUNT ++ rest)) header =
      Outcome.panic (header ++ le32 BAD_COUNT ++ rest) := by
  have hL : ¬ (header ++ le32 BAD_COUNT ++ rest).length = 0 := by simp
  have hhdr : readExactAt (header ++ le32 BAD_COUNT ++ rest) 0 header.length =
      some header := by
    have h := readExactAt_exact [] header (le32 BAD_COUNT ++ rest)
    simpa [List.append_assoc] using h
  have h32 : readU32At (header ++ le32 BAD_COUNT ++ rest) header.length =
      some BAD_COUNT := by
    rw [readU32At_le32, Nat.mod_eq_of_lt (by decide)]
  simp only [RecordFile.new, Option.getD_some, if_neg hL, hhdr,
    if_neg (show ¬ header ≠ header by simp), h32]
  simp

/-- C5, refuting "inserts exactly n": because the source tests
`count >= record_count` (instead of equality against the limit), every
build limited by `some c` with `c ≥ 1` stops after the very first
record — the footer's `record_count` is `1` no matter how large the
limit or the stream. -/
theorem c5_limit_stops_after_one (rs : List Record) (gc c : Nat) (hgc : 1 ≤ gc)
    (hc : 1 ≤ c) (hn : 1 ≤ rs.length) :
    sstableNew false rs gc (some c) =
      Outcome.ok (buildFinish (buildBody gc (rs.getD 0 default) (initState gc))) ∧
    (buildFinish (buildBody gc (rs.getD 0 default)
      (initState gc))).info.record_count = 1 := by
  constructor
  · unfold sstableNew
    rw [if_neg (by omega)]
    rw [if_neg (by simp; omega)]
    rw [if_neg (by simp)]
    have hrfnew : RecordFile.new none SSTABLE_HEADER =
        Outcome.ok (initState gc).rf := rfl
    rw [hrfnew]
    show (match buildLoop gc (some c) rs (initState gc) with
      | Outcome.err e => Outcome.err e
      | Outcome.panic f => Outcome.panic f
      | Outcome.ok st => Outcome.ok (buildFinish st)) = _
    rw [buildLoop_some_stops rs gc c hgc hc hn]
  · show (buildBody gc (rs.getD 0 default) (initState gc)).info.record_count = 1
    exact (buildBody_first rs gc hgc hn).info_rc

/-- Witness for C5: limit `some 2` over a two-record stream still
yields `record_count = 1`. -/
theorem c5_limit_stops_after_one_witness :
    sstableNew false [⟨[1], [0], 0⟩, ⟨[2], [0], 0⟩] 1 (some 2) =
      Outcome.ok (buildFinish (buildBody 1
        ([(⟨[1], [0], 0⟩ : Record), ⟨[2], [0], 0⟩].getD 0 default) (initState 1))) ∧
    (buildFinish (buildBody 1
      ([(⟨[1], [0], 0⟩ : Record), ⟨[2], [0], 0⟩].getD 0 default)
      (initState 1))).info.record_count = 1 :=
  c5_limit_stops_after_one [⟨[1], [0], 0⟩, ⟨[2], [0], 0⟩] 1 2
    (by decide) (by decide) (by decide)

/-- C6, refuting "reported to the caller, does not abort": a stream
whose second key does not strictly exceed the first makes `SSTable::new`
`panic!` (a process abort, not an `Err`).  The bytes on disk at the
abort hold only the zeroed group-index block and the first record — no
footer was written, which is the half of the claim that does hold. -/
theorem c6_out_of_order_aborts (r1 r2 : Record) (rest : List Record) (gc : Nat)
    (hgc : 1 ≤ gc) (hbad : compareBytes r2.get_key r1.get_key ≠ Ordering.gt) :
    sstableNew false (r1 :: r2 :: rest) gc none =
      Outcome.panic (filePre20 ++ chunk (zeroBlockPayload gc) ++
        chunk (Record.serialize r1)) := by
  have hn : 1 ≤ (r1 :: r2 :: rest).length := by simp
  have hinv := buildBody_first (r1 :: r2 :: rest) gc hgc hn
  have hrc : (buildBody gc r1 (initState gc)).info.record_count = 1 := hinv.info_rc
  have hck : (buildBody gc r1 (initState gc)).cur_key = r1.key := hinv.ckey
  have hfile : (buildBody gc r1 (initState gc)).rf.file =
      filePre20 ++ chunksFile (midPayloads (r1 :: r2 :: rest) gc 1) := hinv.file
  unfold sstableNew
  rw [if_neg (by omega), if_neg (by simp), if_neg (by simp)]
  have hrfnew : RecordFile.new none SSTABLE_HEADER =
      Outcome.ok (initState gc).rf := rfl
  rw [hrfnew]
  show (match buildLoop gc none (r1 :: r2 :: rest) (initState gc) with
    | Outcome.err e => Outcome.err e
    | Outcome.panic f => Outcome.panic f
    | Outcome.ok st => Outcome.ok (buildFinish st)) = _
  have hloop : buildLoop gc none (r1 :: r2 :: rest) (initState gc) =
      Outcome.panic (buildBody gc r1 (initState gc)).rf.file := by
    rw [buildLoop]
    rw [if_neg (by
      rintro ⟨h0, _⟩
      exact h0 rfl)]
    show buildLoop gc none (r2 :: rest) (buildBody gc r1 (initState gc)) = _
    rw [buildLoop]
    rw [if_pos ⟨by rw [hrc]; omega, by rw [hck]; exact hbad⟩]
  rw [hloop]
  show Outcome.panic (buildBody gc r1 (initState gc)).rf.file = _
  rw [hfile, midPayloads_one (r1 :: r2 :: rest) gc hgc hn]
  show Outcome.panic (filePre20 ++ chunksFile
    [zeroBlockPayload gc, Record.serialize r1]) = _
  simp [chunksFile, List.append_assoc]

/-- Witness for C6: keys `[2]` then `[1]` with `group_count = 1`. -/
theorem c6_out_of_order_aborts_witness :
    sstableNew false [⟨[2], [0], 0⟩, ⟨[1], [0], 0⟩] 1 none =
      Outcome.panic (filePre20 ++ chunk (zeroBlockPayload 1) ++
        chunk (Record.serialize ⟨[2], [0], 0⟩)) :=
  c6_out_of_order_aborts ⟨[2], [0], 0⟩ ⟨[1], [0], 0⟩ [] 1 (by decide) (by decide)

/-- C7: on every successfully built table the footer's index vector has
one entry per group — its length is `ceil(record_count / group_count)` —
and entry `g` stores the file offset of group `g`'s first record
(record number `g · group_count`). -/
theorem c7_index_geometry (rs : List Record) (gc : Nat) (tbl : SSTable)
    (hgc : 1 ≤ gc) (hn : 1 ≤ rs.length)
    (hsort : (rs.map Record.get_key).Chain' bytesLt)
    (hnew : sstableNew false rs gc none = Outcome.ok tbl) :
    tbl.info.indices.length =
      (tbl.info.record_count + tbl.info.group_count - 1) / tbl.info.group_count ∧
    ∀ g, g < tbl.info.indices.length →
      tbl.info.indices.get? g = some (recOff rs gc (g * gc)) := by
  obtain ⟨rf, hok, _⟩ := sstableNew_none_spec rs gc hgc hn hsort
  rw [hnew] at hok
  injection hok with h
  subst h
  have hIlen : (infoSpec rs gc).indices.length = numGroups rs.length gc := by
    simp [infoSpec]
  constructor
  · show (infoSpec rs gc).indices.length =
      ((infoSpec rs gc).record_count + (infoSpec rs gc).group_count - 1) /
        (infoSpec rs gc).group_count
    rw [hIlen]
    show numGroups rs.length gc = (rs.length + gc - 1) / gc
    rfl
  · intro g hg
    rw [hIlen] at hg
    exact indices_get rs gc g hg

set_option maxRecDepth 400000 in
/-- Witness for C7: three records with `group_count = 2` give two
groups, hence two index entries. -/
theorem c7_index_geometry_witness :
    (SSTable.mk
      ⟨[68, 65, 84, 65, 1, 0, 0, 0, 255, 255, 255, 255, 20, 0, 0, 0, 0, 0, 0, 0,
        16, 0, 0, 0, 40, 0, 0, 0, 0, 0, 0, 0, 62, 0, 0, 0, 0, 0, 0, 0, 18, 0, 0, 0,
        1, 0, 0, 0, 1, 1, 0, 0, 0, 1, 1, 0, 0, 0, 0, 0, 0, 0, 18, 0, 0, 0, 1, 0,
        0, 0, 2, 1, 0, 0, 0, 2, 2, 0, 0, 0, 0, 0, 0, 0, 16, 0, 0, 0, 104, 0, 0, 0,
        0, 0, 0, 0, 0, 0, 0, 0, 0, 0, 0, 0, 18, 0, 0, 0, 1, 0, 0, 0, 3, 1, 0, 0,
        0, 3, 3, 0, 0, 0, 0, 0, 0, 0, 50, 0, 0, 0, 3, 0, 0, 0, 0, 0, 0, 0, 2, 0,
        0, 0, 2, 0, 0, 0, 40, 0, 0, 0, 0, 0, 0, 0, 104, 0, 0, 0, 0, 0, 0, 0, 1, 0,
        0, 0, 1, 1, 0, 0, 0, 3, 3, 0, 0, 0, 0, 0, 0, 0], 6, 8, 126⟩
      ⟨3, 2, [40, 104], [1], [3], 3⟩).info.indices.length =
      ((SSTable.mk
      ⟨[68, 65, 84, 65, 1, 0, 0, 0, 255, 255, 255, 255, 20, 0, 0, 0, 0, 0, 0, 0,
        16, 0, 0, 0, 40, 0, 0, 0, 0, 0, 0, 0, 62, 0, 0, 0, 0, 0, 0, 0, 18, 0, 0, 0,
        1, 0, 0, 0, 1, 1, 0, 0, 0, 1, 1, 0, 0, 0, 0, 0, 0, 0, 18, 0, 0, 0, 1, 0,
        0, 0, 2, 1, 0, 0, 0, 2, 2, 0, 0, 0, 0, 0, 0, 0, 16, 0, 0, 0, 104, 0, 0, 0,
        0, 0, 0, 0, 0, 0, 0, 0, 0, 0, 0, 0, 18, 0, 0, 0, 1, 0, 0, 0, 3, 1, 0, 0,
        0, 3, 3, 0, 0, 0, 0, 0, 0, 0, 50, 0, 0, 0, 3, 0, 0, 0, 0, 0, 0, 0, 2, 0,
        0, 0, 2, 0, 0, 0, 40, 0, 0, 0, 0, 0, 0, 0, 104, 0, 0, 0, 0, 0, 0, 0, 1, 0,
        0, 0, 1, 1, 0, 0, 0, 3, 3, 0, 0, 0, 0, 0, 0, 0], 6, 8, 126⟩
      ⟨3, 2, [40, 104], [1], [3], 3⟩).info.record_count +
      (SSTable.mk
      ⟨[68, 65, 84, 65, 1, 0, 0, 0, 255, 255, 255, 255, 20, 0, 0, 0, 0, 0, 0, 0,
        16, 0, 0, 0, 40, 0, 0, 0, 0, 0, 0, 0, 62, 0, 0, 0, 0, 0, 0, 0, 18, 0, 0, 0,
        1, 0, 0, 0, 1, 1, 0, 0, 0, 1, 1, 0, 0, 0, 0, 0, 0, 0, 18, 0, 0, 0, 1, 0,
        0, 0, 2, 1, 0, 0, 0, 2, 2, 0, 0, 0, 0, 0, 0, 0, 16, 0, 0, 0, 104, 0, 0, 0,
        0, 0, 0, 0, 0, 0, 0, 0, 0, 0, 0, 0, 18, 0, 0, 0, 1, 0, 0, 0, 3, 1, 0, 0,
        0, 3, 3, 0, 0, 0, 0, 0, 0, 0, 50, 0, 0, 0, 3, 0, 0, 0, 0, 0, 0, 0, 2, 0,
        0, 0, 2, 0, 0, 0, 40, 0, 0, 0, 0, 0, 0, 0, 104, 0, 0, 0, 0, 0, 0, 0, 1, 0,
        0, 0, 1, 1, 0, 0, 0, 3, 3, 0, 0, 0, 0, 0, 0, 0], 6, 8, 126⟩
      ⟨3, 2, [40, 104], [1], [3], 3⟩).info.group_count - 1) /
      (SSTable.mk
      ⟨[68, 65, 84, 65, 1, 0, 0, 0, 255, 255, 255, 255, 20, 0, 0, 0, 0, 0, 0, 0,
        16, 0, 0, 0, 40, 0, 0, 0, 0, 0, 0, 0, 62, 0, 0, 0, 0, 0, 0, 0, 18, 0, 0, 0,
        1, 0, 0, 0, 1, 1, 0, 0, 0, 1, 1, 0, 0, 0, 0, 0, 0, 0, 18, 0, 0, 0, 1, 0,
        0, 0, 2, 1, 0, 0, 0, 2, 2, 0, 0, 0, 0, 0, 0, 0, 16, 0, 0, 0, 104, 0, 0, 0,
        0, 0, 0, 0, 0, 0, 0, 0, 0, 0, 0, 0, 18, 0, 0, 0, 1, 0, 0, 0, 3, 1, 0, 0,
        0, 3, 3, 0, 0, 0, 0, 0, 0, 0, 50, 0, 0, 0, 3, 0, 0, 0, 0, 0, 0, 0, 2, 0,
        0, 0, 2, 0, 0, 0, 40, 0, 0, 0, 0, 0, 0, 0, 104, 0, 0, 0, 0, 0, 0, 0, 1, 0,
        0, 0, 1, 1, 0, 0, 0, 3, 3, 0, 0, 0, 0, 0, 0, 0], 6, 8, 126⟩
      ⟨3, 2, [40, 104], [1], [3], 3⟩).info.group_count :=
  (c7_index_geometry [⟨[1], [1], 1⟩, ⟨[2], [2], 2⟩, ⟨[3], [3], 3⟩] 2 _
    (by decide) (by decide)
    (by
      simp only [List.map, List.chain'_cons, List.chain'_singleton, and_true]
      exact ⟨by decide, by decide⟩)
    (by decide)).1

set_option maxRecDepth 400000 in
/-- C8: SSTables order and compare equal solely by their `oldest_ts`
fields; concretely, the built tables A (max timestamp 10) and B (max
timestamp 20) satisfy `A < B`, and sorting `[B, A]` yields `[A, B]`. -/
theorem c8_order_by_oldest_ts :
    (∀ a b : SSTable, sstableCmp a b = compare a.info.oldest_ts b.info.oldest_ts) ∧
    (∀ a b : SSTable, sstableEq a b ↔ a.info.oldest_ts = b.info.oldest_ts) ∧
    sstableNew false [⟨[1], [0], 10⟩] 1 none = Outcome.ok
      (SSTable.mk
        ⟨[68, 65, 84, 65, 1, 0, 0, 0, 255, 255, 255, 255, 20, 0, 0, 0, 0, 0, 0, 0,
          8, 0, 0, 0, 32, 0, 0, 0, 0, 0, 0, 0, 18, 0, 0, 0, 1, 0, 0, 0, 1, 1, 0,
          0, 0, 0, 10, 0, 0, 0, 0, 0, 0, 0, 42, 0, 0, 0, 1, 0, 0, 0, 0, 0, 0, 0,
          1, 0, 0, 0, 1, 0, 0, 0, 32, 0, 0, 0, 0, 0, 0, 0, 1, 0, 0, 0, 1, 1, 0, 0,
          0, 1, 10, 0, 0, 0, 0, 0, 0, 0], 3, 8, 54⟩
        ⟨1, 1, [32], [1], [1], 10⟩) ∧
    sstableNew false [⟨[1], [0], 20⟩] 1 none = Outcome.ok
      (SSTable.mk
        ⟨[68, 65, 84, 65, 1, 0, 0, 0, 255, 255, 255, 255, 20, 0, 0, 0, 0, 0, 0, 0,
          8, 0, 0, 0, 32, 0, 0, 0, 0, 0, 0, 0, 18, 0, 0, 0, 1, 0, 0, 0, 1, 1, 0,
          0, 0, 0, 20, 0, 0, 0, 0, 0, 0, 0, 42, 0, 0, 0, 1, 0, 0, 0, 0, 0, 0, 0,
          1, 0, 0, 0, 1, 0, 0, 0, 32, 0, 0, 0, 0, 0, 0, 0, 1, 0, 0, 0, 1, 1, 0, 0,
          0, 1, 20, 0, 0, 0, 0, 0, 0, 0], 3, 8, 54⟩
        ⟨1, 1, [32], [1], [1], 20⟩) ∧
    sstableCmp
      (SSTable.mk
        ⟨[68, 65, 84, 65, 1, 0, 0, 0, 255, 255, 255, 255, 20, 0, 0, 0, 0, 0, 0, 0,
          8, 0, 0, 0, 32, 0, 0, 0, 0, 0, 0, 0, 18, 0, 0, 0, 1, 0, 0, 0, 1, 1, 0,
          0, 0, 0, 10, 0, 0, 0, 0, 0, 0, 0, 42, 0, 0, 0, 1, 0, 0, 0, 0, 0, 0, 0,
          1, 0, 0, 0, 1, 0, 0, 0, 32, 0, 0, 0, 0, 0, 0, 0, 1, 0, 0, 0, 1, 1, 0, 0,
          0, 1, 10, 0, 0, 0, 0, 0, 0, 0], 3, 8, 54⟩
        ⟨1, 1, [32], [1], [1], 10⟩)
      (SSTable.mk
        ⟨[68, 65, 84, 65, 1, 0, 0, 0, 255, 255, 255, 255, 20, 0, 0, 0, 0, 0, 0, 0,
          8, 0, 0, 0, 32, 0, 0, 0, 0, 0, 0, 0, 18, 0, 0, 0, 1, 0, 0, 0, 1, 1, 0,
          0, 0, 0, 20, 0, 0, 0, 0, 0, 0, 0, 42, 0, 0, 0, 1, 0, 0, 0, 0, 0, 0, 0,
          1, 0, 0, 0, 1, 0, 0, 0, 32, 0, 0, 0, 0, 0, 0, 0, 1, 0, 0, 0, 1, 1, 0, 0,
          0, 1, 20, 0, 0, 0, 0, 0, 0, 0], 3, 8, 54⟩
        ⟨1, 1, [32], [1], [1], 20⟩) = Ordering.lt ∧
    sortSSTables
      [SSTable.mk
        ⟨[68, 65, 84, 65, 1, 0, 0, 0, 255, 255, 255, 255, 20, 0, 0, 0, 0, 0, 0, 0,
          8, 0, 0, 0, 32, 0, 0, 0, 0, 0, 0, 0, 18, 0, 0, 0, 1, 0, 0, 0, 1, 1, 0,
          0, 0, 0, 20, 0, 0, 0, 0, 0, 0, 0, 42, 0, 0, 0, 1, 0, 0, 0, 0, 0, 0, 0,
          1, 0, 0, 0, 1, 0, 0, 0, 32, 0, 0, 0, 0, 0, 0, 0, 1, 0, 0, 0, 1, 1, 0, 0,
          0, 1, 20, 0, 0, 0, 0, 0, 0, 0], 3, 8, 54⟩
        ⟨1, 1, [32], [1], [1], 20⟩,
       SSTable.mk
        ⟨[68, 65, 84, 65, 1, 0, 0, 0, 255, 255, 255, 255, 20, 0, 0, 0, 0, 0, 0, 0,
          8, 0, 0, 0, 32, 0, 0, 0, 0, 0, 0, 0, 18, 0, 0, 0, 1, 0, 0, 0, 1, 1, 0,
          0, 0, 0, 10, 0, 0, 0, 0, 0, 0, 0, 42, 0, 0, 0, 1, 0, 0, 0, 0, 0, 0, 0,
          1, 0, 0, 0, 1, 0, 0, 0, 32, 0, 0, 0, 0, 0, 0, 0, 1, 0, 0, 0, 1, 1, 0, 0,
          0, 1, 10, 0, 0, 0, 0, 0, 0, 0], 3, 8, 54⟩
        ⟨1, 1, [32], [1], [1], 10⟩] =
      [SSTable.mk
        ⟨[68, 65, 84, 65, 1, 0, 0, 0, 255, 255, 255, 255, 20, 0, 0, 0, 0, 0, 0, 0,
          8, 0, 0, 0, 32, 0, 0, 0, 0, 0, 0, 0, 18, 0, 0, 0, 1, 0, 0, 0, 1, 1, 0,
          0, 0, 0, 10, 0, 0, 0, 0, 0, 0, 0, 42, 0, 0, 0, 1, 0, 0, 0, 0, 0, 0, 0,
          1, 0, 0, 0, 1, 0, 0, 0, 32, 0, 0, 0, 0, 0, 0, 0, 1, 0, 0, 0, 1, 1, 0, 0,
          0, 1, 10, 0, 0, 0, 0, 0, 0, 0], 3, 8, 54⟩
        ⟨1, 1, [32], [1], [1], 10⟩,
       SSTable.mk
        ⟨[68, 65, 84, 65, 1, 0, 0, 0, 255, 255, 255, 255, 20, 0, 0, 0, 0, 0, 0, 0,
          8, 0, 0, 0, 32, 0, 0, 0, 0, 0, 0, 0, 18, 0, 0, 0, 1, 0, 0, 0, 1, 1, 0,
          0, 0, 0, 20, 0, 0, 0, 0, 0, 0, 0, 42, 0, 0, 0, 1, 0, 0, 0, 0, 0, 0, 0,
          1, 0, 0, 0, 1, 0, 0, 0, 32, 0, 0, 0, 0, 0, 0, 0, 1, 0, 0, 0, 1, 1, 0, 0,
          0, 1, 20, 0, 0, 0, 0, 0, 0, 0], 3, 8, 54⟩
        ⟨1, 1, [32], [1], [1], 20⟩] :=
  ⟨fun _ _ => rfl, fun _ _ => Iff.rfl, by decide, by decide, by decide, by decide⟩

/-- C9: the footer field named `oldest_ts` actually holds the maximum
creation timestamp over the inserted records. -/
theorem c9_oldest_ts_is_max (rs : List Record) (gc : Nat) (tbl : SSTable)
    (hgc : 1 ≤ gc) (hn : 1 ≤ rs.length)
    (hsort : (rs.map Record.get_key).Chain' bytesLt)
    (hnew : sstableNew false rs gc none = Outcome.ok tbl) :
    tbl.info.oldest_ts = maxCreated rs := by
  obtain ⟨rf, hok, _⟩ := sstableNew_none_spec rs gc hgc hn hsort
  rw [hnew] at hok
  injection hok with h
  subst h
  rfl

set_option maxRecDepth 400000 in
/-- Witness for C9: creation timestamps 10 then 7 give `oldest_ts` 10
(the maximum, not the minimum or the last). -/
theorem c9_oldest_ts_is_max_witness :
    (SSTable.mk
      ⟨[68, 65, 84, 65, 1, 0, 0, 0, 255, 255, 255, 255, 20, 0, 0, 0, 0, 0, 0, 0,
        8, 0, 0, 0, 32, 0, 0, 0, 0, 0, 0, 0, 18, 0, 0, 0, 1, 0, 0, 0, 1, 1, 0, 0,
        0, 0, 10, 0, 0, 0, 0, 0, 0, 0, 8, 0, 0, 0, 66, 0, 0, 0, 0, 0, 0, 0, 18, 0,
        0, 0, 1, 0, 0, 0, 2, 1, 0, 0, 0, 0, 7, 0, 0, 0, 0, 0, 0, 0, 50, 0, 0, 0,
        2, 0, 0, 0, 0, 0, 0, 0, 1, 0, 0, 0, 2, 0, 0, 0, 32, 0, 0, 0, 0, 0, 0, 0,
        66, 0, 0, 0, 0, 0, 0, 0, 1, 0, 0, 0, 1, 1, 0, 0, 0, 2, 10, 0, 0, 0, 0, 0,
        0, 0], 5, 8, 88⟩
      ⟨2, 1, [32, 66], [1], [2], 10⟩).info.oldest_ts =
      maxCreated [⟨[1], [0], 10⟩, ⟨[2], [0], 7⟩] :=
  c9_oldest_ts_is_max [⟨[1], [0], 10⟩, ⟨[2], [0], 7⟩] 1 _
    (by decide) (by decide)
    (by simp only [List.map, List.chain'_cons, List.chain'_singleton, and_true]; decide)
    (by decide)

/-- C10: building from the empty stream returns `Ok`, never having run
the loop: `cur_group_indices_offset` is still `0`, so the post-loop
group-index patch is written at file offset 0 — on top of the 8-byte
`DATA` header — and the footer is appended with `record_count = 0`,
empty `smallest_key`, `largest_key` and `indices`. -/
theorem c10_empty_build (gc : Nat) (hgc : 1 ≤ gc) :
    sstableNew false [] gc none = Outcome.ok
      (SSTable.mk
        { file := writeAtBytes filePre20 0 (chunk (zeroBlockPayload gc)) ++
            le32 (SSTableInfo.serialize ⟨0, gc, [], [], [], 0⟩).length ++
            SSTableInfo.serialize ⟨0, gc, [], [], [], 0⟩
          record_count := 1
          header_len := 8
          last_record := (writeAtBytes filePre20 0 (chunk (zeroBlockPayload gc))).length }
        ⟨0, gc, [], [], [], 0⟩) := by
  unfold sstableNew
  rw [if_neg (by omega), if_neg (by simp), if_neg (by simp)]
  rfl

/-- Witness for C10 at `group_count = 1`: the 12-byte patch lands on
bytes 0–11, clobbering the header and the count field. -/
theorem c10_empty_build_witness :
    sstableNew false [] 1 none = Outcome.ok
      (SSTable.mk
        { file := writeAtBytes filePre20 0 (chunk (zeroBlockPayload 1)) ++
            le32 (SSTableInfo.serialize ⟨0, 1, [], [], [], 0⟩).length ++
            SSTableInfo.serialize ⟨0, 1, [], [], [], 0⟩
          record_count := 1
          header_len := 8
          last_record := (writeAtBytes filePre20 0 (chunk (zeroBlockPayload 1))).length }
        ⟨0, 1, [], [], [], 0⟩) :=
  c10_empty_build 1 (by decide)

end Kvs
